import Mathlib

/-!
# binrec translator passes: loop unroller and section metadata

A shallow embedding of `CustomLoopUnroll.cpp` and `SectionUtils.cpp`.

Pointers of the C++ code are modelled as indices: a `BasicBlock*` is the
position of the block in the block list of its function (blocks are only ever
appended, never removed), an `Instruction*` is the pair of the owning block and
an identifier that is unique inside that block.  A metadata node is shown
with its address, so that two slots of the `sections` table can refer to one
node, and the uniquing store of the context is part of the module state.  A
pointer that designates nothing, a failed `cast<>` and a failed assertion of
the IR library are reported as a `Fault`.
-/

namespace Binrec

/-! ## The IR -/

/-- What can go wrong where the C++ code has undefined behaviour or aborts. -/
inductive Fault where
  /-- a pointer that designates nothing: a block pointer that is no block of the
  function, a null global, a metadata handle that is the address of no node -/
  | badPointer
  /-- `cast<T>` applied to a null pointer or to a value that is no `T` -/
  | badCast
  /-- `getIncomingValueForBlock` / `removeIncomingValue` on a block that is no incoming block -/
  | noIncoming
  /-- the model's step bound was exhausted (never for a 32-bit counter) -/
  | outOfFuel
  deriving DecidableEq, Repr

/-- An `llvm::Value*`: null, a basic block, an instruction (owning block and
identifier inside the block), a function argument or a constant. -/
inductive Value where
  | null
  | block (b : Nat)
  | inst (b : Nat) (k : Nat)
  | arg (n : Nat)
  | const (c : Int)
  deriving DecidableEq, Repr

/-- A merge node: its identifier inside the block and the incoming
`(value, block)` pairs in operand order. -/
structure PHINode where
  id : Nat
  incoming : List (Value × Nat)
  deriving DecidableEq, Repr

/-- An instruction that is neither a PHI node nor a terminator.
`cannotDuplicate` is set for a call marked `noduplicate`. -/
structure Instruction where
  id : Nat
  cannotDuplicate : Bool
  operands : List Value
  deriving DecidableEq, Repr

/-- The terminator of a block.  `br` and `condBr` are the two forms of
`BranchInst`. -/
inductive Terminator where
  | br (dest : Nat)
  | condBr (cond : Value) (ifTrue ifFalse : Nat)
  | switch (cond : Value) (dflt : Nat) (cases : List (Int × Nat))
  | indirectBr (addr : Value) (dests : List Nat)
  | ret (v : Option Value)
  | unreachable
  deriving DecidableEq, Repr

/-- A basic block: PHI nodes first, then the ordinary instructions, then the
terminator (which is an instruction too and has an identifier). -/
structure BasicBlock where
  name : String
  phis : List PHINode
  insts : List Instruction
  termId : Nat
  term : Terminator
  hasAddressTaken : Bool
  deriving DecidableEq, Repr

/-- A function: its block list (`getBasicBlockList()`). -/
structure Function where
  blocks : List BasicBlock
  deriving DecidableEq, Repr

/-- What the unroller uses of `llvm::Loop` and of `LoopBlocksDFS`: the header,
the block set (`contains`, `getBlocks`) and the reverse postorder of the loop
blocks that `LoopBlocksDFS::perform` computed. -/
structure Loop where
  header : Nat
  blocks : List Nat
  rpo : List Nat
  deriving DecidableEq, Repr

/-- `ValueToValueMapTy`: an association list, newest binding first. -/
abbrev ValueToValueMapTy := List (Value × Value)

/-- `VMap.find(k)`. -/
def vmFind : ValueToValueMapTy → Value → Option Value
  | [], _ => none
  | (k, v) :: rest, key => if k = key then some v else vmFind rest key

/-- `VMap[k] = v`. -/
def vmSet (m : ValueToValueMapTy) (k v : Value) : ValueToValueMapTy := (k, v) :: m

/-- `VMap[k]` read as an rvalue: a missing key is inserted with a null value. -/
def vmIndex (m : ValueToValueMapTy) (k : Value) : Value × ValueToValueMapTy :=
  match vmFind m k with
  | some v => (v, m)
  | none => (Value.null, vmSet m k Value.null)

/-- `cast<BasicBlock>(v)`. -/
def castBasicBlock : Value → Except Fault Nat
  | Value.block b => Except.ok b
  | _ => Except.error Fault.badCast

/-- Dereference a block pointer. -/
def getBlock (F : Function) (b : Nat) : Except Fault BasicBlock :=
  match F.blocks[b]? with
  | some blk => Except.ok blk
  | none => Except.error Fault.badPointer

/-- Store a block back at its place. -/
def setBlock (F : Function) (b : Nat) (blk : BasicBlock) : Function :=
  { F with blocks := F.blocks.set b blk }

/-- The successor list of a terminator (`succ_begin .. succ_end`). -/
def successors : Terminator → List Nat
  | Terminator.br d => [d]
  | Terminator.condBr _ t e => [t, e]
  | Terminator.switch _ d cases => d :: cases.map Prod.snd
  | Terminator.indirectBr _ dests => dests
  | Terminator.ret _ => []
  | Terminator.unreachable => []

/-- The predecessors of block `b`, one occurrence per edge
(`pred_begin .. pred_end`): a block that branches to `b` twice is listed twice. -/
def predecessors (F : Function) (b : Nat) : List Nat :=
  (List.range F.blocks.length).flatMap fun p =>
    match F.blocks[p]? with
    | some blk => ((successors blk.term).filter fun s => decide (s = b)).map fun _ => p
    | none => []

/-! ## The loop queries of `llvm::Loop` -/

/-- `L->contains(BB)`. -/
def Loop.contains (L : Loop) (b : Nat) : Bool := decide (b ∈ L.blocks)

/-- The scan of `getLoopPredecessor` over the predecessors of the header:
`Out` is the outside predecessor seen so far. -/
def loopPredecessorScan (L : Loop) : List Nat → Option Nat → Option Nat
  | [], Out => Out
  | p :: ps, Out =>
    if L.contains p then loopPredecessorScan L ps Out
    else
      match Out with
      | some o => if o = p then loopPredecessorScan L ps (some p) else none
      | none => loopPredecessorScan L ps (some p)

/-- `L->getLoopPredecessor()`: the only block outside the loop that branches to
the header, if there is exactly one such block. -/
def getLoopPredecessor (F : Function) (L : Loop) : Option Nat :=
  loopPredecessorScan L (predecessors F L.header) none

/-- `L->getLoopPreheader()`: the loop predecessor, provided the header is its
only successor. -/
def getLoopPreheader (F : Function) (L : Loop) : Option Nat :=
  match getLoopPredecessor F L with
  | none => none
  | some Out =>
    match F.blocks[Out]? with
    | some blk => if (successors blk.term).length = 1 then some Out else none
    | none => none

/-- The scan of `getLoopLatch` over the predecessors of the header. -/
def loopLatchScan (L : Loop) : List Nat → Option Nat → Option Nat
  | [], Latch => Latch
  | p :: ps, Latch =>
    if L.contains p then
      match Latch with
      | some _ => none
      | none => loopLatchScan L ps (some p)
    else loopLatchScan L ps Latch

/-- `L->getLoopLatch()`: the only edge from inside the loop to the header, if
there is exactly one. -/
def getLoopLatch (F : Function) (L : Loop) : Option Nat :=
  loopLatchScan L (predecessors F L.header) none

/-- `L->isSafeToClone()`: no loop block ends in an `indirectbr` and none
contains a call that cannot be duplicated. -/
def isSafeToClone (F : Function) (L : Loop) : Bool :=
  L.blocks.all fun b =>
    match F.blocks[b]? with
    | some blk =>
      (match blk.term with
       | Terminator.indirectBr _ _ => false
       | _ => true) && blk.insts.all fun i => !i.cannotDuplicate
    | none => true

/-! ## PHI nodes -/

/-- `PN->getIncomingValueForBlock(BB)`: the value of the first incoming entry
for `BB`; the library asserts that there is one. -/
def PHINode.getIncomingValueForBlock (p : PHINode) (BB : Nat) : Except Fault Value :=
  match p.incoming.find? fun e => decide (e.2 = BB) with
  | some e => Except.ok e.1
  | none => Except.error Fault.noIncoming

/-- `PN->addIncoming(V, BB)`. -/
def PHINode.addIncoming (p : PHINode) (V : Value) (BB : Nat) : PHINode :=
  { p with incoming := p.incoming ++ [(V, BB)] }

/-- `PN->removeIncomingValue(BB)`: drops the first incoming entry for `BB`; the
library asserts that there is one.  (The caller below has just added an entry,
so the node never becomes empty and is never deleted.) -/
def PHINode.removeIncomingValue (p : PHINode) (BB : Nat) : Except Fault PHINode :=
  match p.incoming.find? fun e => decide (e.2 = BB) with
  | some _ => Except.ok { p with incoming := p.incoming.eraseP fun e => decide (e.2 = BB) }
  | none => Except.error Fault.noIncoming

/-! ## `ReplaceSuccessor`, `CloneBasicBlock`, `RemapInstruction` -/

/-- `ReplaceSuccessor(BB, Succ, Repl)` on the terminator alone: only a
`BranchInst` is rewritten; the flag tells whether a successor was replaced. -/
def replaceSuccessorTerm (t : Terminator) (Succ Repl : Nat) : Bool × Terminator :=
  match t with
  | Terminator.br d =>
    if d = Succ then (true, Terminator.br Repl) else (false, t)
  | Terminator.condBr c a b =>
    (decide (a = Succ) || decide (b = Succ),
      Terminator.condBr c (if a = Succ then Repl else a) (if b = Succ then Repl else b))
  | _ => (false, t)

/-- `ReplaceSuccessor(BB, Succ, Repl)`. -/
def ReplaceSuccessor (F : Function) (BB Succ Repl : Nat) : Except Fault (Bool × Function) :=
  match getBlock F BB with
  | Except.error e => Except.error e
  | Except.ok blk =>
    let r := replaceSuccessorTerm blk.term Succ Repl
    Except.ok (r.1, setBlock F BB { blk with term := r.2 })

/-- `CloneBasicBlock(BB, VMap, suffix)` for the block at index `src`, the clone
going to index `new`: every instruction is copied with its operands unchanged
and `VMap` maps each instruction of `BB` to its copy.  The clone is named after
the original when that has a name; nothing takes the address of the clone. -/
def CloneBasicBlock (BB : BasicBlock) (src new : Nat) (suffix : String) :
    BasicBlock × ValueToValueMapTy :=
  ({ BB with
      name := if BB.name = "" then "" else BB.name ++ suffix
      hasAddressTaken := false },
   BB.phis.map (fun p => (Value.inst src p.id, Value.inst new p.id)) ++
   (BB.insts.map (fun i => (Value.inst src i.id, Value.inst new i.id)) ++
    [(Value.inst src BB.termId, Value.inst new BB.termId)]))

/-- An operand seen through the map, as `RemapInstruction` does it: replaced
when the map has an entry for it, kept otherwise. -/
def remapValue (m : ValueToValueMapTy) (v : Value) : Value :=
  match vmFind m v with
  | some w => w
  | none => v

/-- A block operand seen through the map. -/
def remapBlock (m : ValueToValueMapTy) (b : Nat) : Nat :=
  match vmFind m (Value.block b) with
  | some (Value.block c) => c
  | _ => b

/-- `RemapInstruction` on a PHI node: incoming values and incoming blocks. -/
def remapPHI (m : ValueToValueMapTy) (p : PHINode) : PHINode :=
  { p with incoming := p.incoming.map fun e => (remapValue m e.1, remapBlock m e.2) }

/-- `RemapInstruction` on an ordinary instruction. -/
def remapInst (m : ValueToValueMapTy) (i : Instruction) : Instruction :=
  { i with operands := i.operands.map (remapValue m) }

/-- `RemapInstruction` on a terminator: conditions and successor blocks. -/
def remapTerm (m : ValueToValueMapTy) : Terminator → Terminator
  | Terminator.br d => Terminator.br (remapBlock m d)
  | Terminator.condBr c a b => Terminator.condBr (remapValue m c) (remapBlock m a) (remapBlock m b)
  | Terminator.switch c d cases =>
    Terminator.switch (remapValue m c) (remapBlock m d) (cases.map fun e => (e.1, remapBlock m e.2))
  | Terminator.indirectBr a dests => Terminator.indirectBr (remapValue m a) (dests.map (remapBlock m))
  | Terminator.ret v => Terminator.ret (v.map (remapValue m))
  | Terminator.unreachable => Terminator.unreachable

/-- `RemapInstruction` applied to every instruction of a block. -/
def remapBasicBlock (m : ValueToValueMapTy) (blk : BasicBlock) : BasicBlock :=
  { blk with
      phis := blk.phis.map (remapPHI m)
      insts := blk.insts.map (remapInst m)
      term := remapTerm m blk.term }

/-- The remapping of the blocks in `NewBlocks`. -/
def remapNewBlocks (m : ValueToValueMapTy) : List Nat → Function → Function
  | [], F => F
  | nb :: rest, F =>
    match F.blocks[nb]? with
    | some blk => remapNewBlocks m rest (setBlock F nb (remapBasicBlock m blk))
    | none => remapNewBlocks m rest F

/-! ## `UnrollNTimes` -/

/-- The function under transformation together with `LastValueMap`. -/
structure UnrollState where
  F : Function
  LastValueMap : ValueToValueMapTy
  deriving DecidableEq, Repr

/-- The loop over `OrigPHINodes` on a freshly cloned header `New` (at index
`newIdx`): the clone of each original PHI node is looked up through `VMap`, its
value is resolved (from the preheader in the first round, from the latch and
through `LastValueMap` in later rounds), recorded in `VMap`, and the clone is
erased from `New`. -/
def resolveHeaderPHIs (L : Loop) (It PreHeader LatchBlock newIdx : Nat) :
    List Nat → BasicBlock → ValueToValueMapTy → ValueToValueMapTy →
      Except Fault (BasicBlock × ValueToValueMapTy × ValueToValueMapTy)
  | [], New, VMap, LVM => Except.ok (New, VMap, LVM)
  | k :: rest, New, VMap, LVM =>
    match (vmIndex VMap (Value.inst L.header k)).1 with
    | Value.inst nb nk =>
      if nb = newIdx then
        match New.phis.find? fun p => decide (p.id = nk) with
        | some NewPHI =>
          let New1 := { New with phis := New.phis.eraseP fun p => decide (p.id = nk) }
          if It = 1 then
            match NewPHI.getIncomingValueForBlock PreHeader with
            | Except.error e => Except.error e
            | Except.ok InVal =>
              resolveHeaderPHIs L It PreHeader LatchBlock newIdx rest New1
                (vmSet VMap (Value.inst L.header k) InVal) LVM
          else
            match NewPHI.getIncomingValueForBlock LatchBlock with
            | Except.error e => Except.error e
            | Except.ok InVal =>
              let r : Value × ValueToValueMapTy :=
                match InVal with
                | Value.inst b _ => if L.contains b then vmIndex LVM InVal else (InVal, LVM)
                | _ => (InVal, LVM)
              resolveHeaderPHIs L It PreHeader LatchBlock newIdx rest New1
                (vmSet VMap (Value.inst L.header k) r.1) r.2
        | none => Except.error Fault.badCast
      else Except.error Fault.badCast
    | _ => Except.error Fault.badCast

/-- The inner loop over the PHI nodes of one exit block: each gets one more
incoming entry for the clone `New` of the loop block `BB`. -/
def addExitIncoming (BB New : Nat) (LVM : ValueToValueMapTy) :
    List PHINode → Except Fault (List PHINode)
  | [] => Except.ok []
  | phi :: rest =>
    match phi.getIncomingValueForBlock BB with
    | Except.error e => Except.error e
    | Except.ok Incoming =>
      match addExitIncoming BB New LVM rest with
      | Except.error e => Except.error e
      | Except.ok rest1 => Except.ok (phi.addIncoming (remapValue LVM Incoming) New :: rest1)

/-- The loop over the successors of `BB`: the PHI nodes of every successor
outside the loop are patched. -/
def addExitPHIEntries (L : Loop) (BB New : Nat) (LVM : ValueToValueMapTy) :
    List Nat → Function → Except Fault Function
  | [], F => Except.ok F
  | SI :: rest, F =>
    if L.contains SI then addExitPHIEntries L BB New LVM rest F
    else
      match getBlock F SI with
      | Except.error e => Except.error e
      | Except.ok sblk =>
        match addExitIncoming BB New LVM sblk.phis with
        | Except.error e => Except.error e
        | Except.ok phis => addExitPHIEntries L BB New LVM rest (setBlock F SI { sblk with phis := phis })

/-- The body of the loop over the blocks in reverse postorder, for the block
`BB` in round `It`. -/
def cloneBlock (L : Loop) (PreHeader LatchBlock : Nat) (OrigPHINodes : List Nat) (It : Nat)
    (st : UnrollState) (BB : Nat) : Except Fault UnrollState :=
  match getBlock st.F BB with
  | Except.error e => Except.error e
  | Except.ok blk =>
    let newIdx := st.F.blocks.length
    let c := CloneBasicBlock blk BB newIdx ("." ++ toString It)
    let F1 : Function := { blocks := st.F.blocks ++ [c.1] }
    let hdr : Except Fault (Function × ValueToValueMapTy × ValueToValueMapTy) :=
      if BB = L.header then
        match resolveHeaderPHIs L It PreHeader LatchBlock newIdx OrigPHINodes c.1 c.2
            st.LastValueMap with
        | Except.error e => Except.error e
        | Except.ok (New, VMap, LVM) =>
          let F2 := setBlock F1 newIdx New
          if It = 1 then
            match ReplaceSuccessor F2 PreHeader BB newIdx with
            | Except.error e => Except.error e
            | Except.ok r => Except.ok (r.2, VMap, LVM)
          else
            let h := vmIndex LVM (Value.block L.header)
            match castBasicBlock h.1 with
            | Except.error e => Except.error e
            | Except.ok PrevHeader =>
              let l := vmIndex h.2 (Value.block LatchBlock)
              match castBasicBlock l.1 with
              | Except.error e => Except.error e
              | Except.ok PrevLatch =>
                match ReplaceSuccessor F2 PrevLatch PrevHeader newIdx with
                | Except.error e => Except.error e
                | Except.ok r => Except.ok (r.2, VMap, l.2)
      else Except.ok (F1, c.2, st.LastValueMap)
    match hdr with
    | Except.error e => Except.error e
    | Except.ok (F2, VMap, LVM) =>
      let LVM1 := VMap ++ vmSet LVM (Value.block BB) (Value.block newIdx)
      match addExitPHIEntries L BB newIdx LVM1 (successors blk.term) F2 with
      | Except.error e => Except.error e
      | Except.ok F3 => Except.ok { F := F3, LastValueMap := LVM1 }

/-- The loop over the blocks in reverse postorder. -/
def cloneBlocks (L : Loop) (PreHeader LatchBlock : Nat) (OrigPHINodes : List Nat) (It : Nat) :
    List Nat → UnrollState → Except Fault UnrollState
  | [], st => Except.ok st
  | BB :: rest, st =>
    match cloneBlock L PreHeader LatchBlock OrigPHINodes It st BB with
    | Except.error e => Except.error e
    | Except.ok st1 => cloneBlocks L PreHeader LatchBlock OrigPHINodes It rest st1

/-- One round of the outer loop: every loop block is cloned once, then the
instructions of the new blocks (`NewBlocks`: the indices added in this round)
are remapped through `LastValueMap`. -/
def unrollRound (L : Loop) (PreHeader LatchBlock : Nat) (OrigPHINodes : List Nat) (It : Nat)
    (st : UnrollState) : Except Fault UnrollState :=
  match cloneBlocks L PreHeader LatchBlock OrigPHINodes It L.rpo st with
  | Except.error e => Except.error e
  | Except.ok st1 =>
    let NewBlocks := List.range' st.F.blocks.length (st1.F.blocks.length - st.F.blocks.length)
    Except.ok { st1 with F := remapNewBlocks st1.LastValueMap NewBlocks st1.F }

/-- The loop `for (unsigned It = 1; It != UnrollCount; ++It)`, entered with the
counter at `It`: the counter is a 32-bit unsigned integer, and `fuel` bounds
the number of rounds. -/
def unrollLoop (body : Nat → UnrollState → Except Fault UnrollState) (UnrollCount : Nat) :
    Nat → Nat → UnrollState → Except Fault UnrollState
  | 0, It, st => if It = UnrollCount then Except.ok st else Except.error Fault.outOfFuel
  | fuel + 1, It, st =>
    if It = UnrollCount then Except.ok st
    else
      match body It st with
      | Except.error e => Except.error e
      | Except.ok st1 => unrollLoop body UnrollCount fuel ((It + 1) % 2 ^ 32) st1

/-- The loop over `OrigPHINodes` after the cloning: each PHI node of the
original header gets an incoming entry from the last latch and loses its entry
for the preheader. -/
def spliceHeaderPHIs (L : Loop) (PreHeader LatchBlock : Nat) :
    List Nat → UnrollState → Except Fault UnrollState
  | [], st => Except.ok st
  | k :: rest, st =>
    let l := vmIndex st.LastValueMap (Value.block LatchBlock)
    match castBasicBlock l.1 with
    | Except.error e => Except.error e
    | Except.ok LastLatch =>
      let v := vmIndex l.2 (Value.inst L.header k)
      match getBlock st.F L.header with
      | Except.error e => Except.error e
      | Except.ok hdr =>
        match hdr.phis.find? fun p => decide (p.id = k) with
        | none => Except.error Fault.badPointer
        | some OrigPHI =>
          match (OrigPHI.addIncoming v.1 LastLatch).removeIncomingValue PreHeader with
          | Except.error e => Except.error e
          | Except.ok phi =>
            spliceHeaderPHIs L PreHeader LatchBlock rest
              { F := setBlock st.F L.header
                  { hdr with phis := hdr.phis.map fun p => if p.id = k then phi else p }
                LastValueMap := v.2 }

/-- The part of `UnrollNTimes` after the precondition checks: the cloning
rounds and the final splice.  `Header` is the header block as it was on entry. -/
def unrollBody (F : Function) (L : Loop) (PreHeader LatchBlock : Nat) (Header : BasicBlock)
    (UnrollCount : Nat) : Except Fault Function :=
  let OrigPHINodes := Header.phis.map fun p => p.id
  match unrollLoop (unrollRound L PreHeader LatchBlock OrigPHINodes) UnrollCount
      (2 ^ 32) 1 { F := F, LastValueMap := [] } with
  | Except.error e => Except.error e
  | Except.ok st =>
    match spliceHeaderPHIs L PreHeader LatchBlock OrigPHINodes st with
    | Except.error e => Except.error e
    | Except.ok st1 =>
      let h := vmIndex st1.LastValueMap (Value.block L.header)
      match castBasicBlock h.1 with
      | Except.error e => Except.error e
      | Except.ok PrevHeader =>
        let l := vmIndex h.2 (Value.block LatchBlock)
        match castBasicBlock l.1 with
        | Except.error e => Except.error e
        | Except.ok PrevLatch =>
          match ReplaceSuccessor st1.F PrevLatch PrevHeader L.header with
          | Except.error e => Except.error e
          | Except.ok r => Except.ok r.2

/-- `UnrollNTimes(L, LPM, UnrollCount, LIWP)`: the result flag and the function
afterwards.  (`LI.markAsRemoved(L)` only touches the loop analysis.) -/
def UnrollNTimes (F : Function) (L : Loop) (UnrollCount : Nat) : Except Fault (Bool × Function) :=
  match getLoopPreheader F L with
  | none => Except.ok (false, F)
  | some PreHeader =>
    match getLoopLatch F L with
    | none => Except.ok (false, F)
    | some LatchBlock =>
      if isSafeToClone F L = false then Except.ok (false, F)
      else
        match getBlock F L.header with
        | Except.error e => Except.error e
        | Except.ok Header =>
          if Header.hasAddressTaken then Except.ok (false, F)
          else
            match getBlock F LatchBlock with
            | Except.error e => Except.error e
            | Except.ok Latch =>
              match Latch.term with
              | Terminator.br _ =>
                match unrollBody F L PreHeader LatchBlock Header UnrollCount with
                | Except.error e => Except.error e
                | Except.ok G => Except.ok (true, G)
              | _ => Except.ok (false, F)

/-- The five checks at the head of `UnrollNTimes` all pass: there is a
preheader and a single latch, the loop is safe to clone, the address of the
header is not taken and the latch ends in an unconditional branch. -/
def meetsPreconditions (F : Function) (L : Loop) : Bool :=
  match getLoopPreheader F L, getLoopLatch F L, F.blocks[L.header]? with
  | some _, some LatchBlock, some Header =>
    isSafeToClone F L && !Header.hasAddressTaken &&
      (match F.blocks[LatchBlock]? with
       | some Latch =>
         (match Latch.term with
          | Terminator.br _ => true
          | _ => false)
       | none => false)
  | _, _, _ => false

/-- The terminator of the block at index `b`. -/
def termOf (F : Function) (b : Nat) : Option Terminator :=
  (F.blocks[b]?).map fun blk => blk.term

/-- A small loop: `entry -> head`, `head -> latch | exit`, `latch -> head`.
The header has one PHI node, fed from `entry` and from `latch`; the exit block
has one PHI node fed from `head`. -/
def sampleFunction : Function :=
  { blocks := [
      { name := "entry", phis := [], insts := [], termId := 0, term := Terminator.br 1,
        hasAddressTaken := false },
      { name := "head",
        phis := [{ id := 0, incoming := [(Value.const 0, 0), (Value.inst 2 0, 2)] }],
        insts := [{ id := 1, cannotDuplicate := false, operands := [Value.inst 1 0, Value.arg 0] }],
        termId := 2, term := Terminator.condBr (Value.inst 1 1) 2 3, hasAddressTaken := false },
      { name := "latch", phis := [],
        insts := [{ id := 0, cannotDuplicate := false, operands := [Value.inst 1 0, Value.const 1] }],
        termId := 1, term := Terminator.br 1, hasAddressTaken := false },
      { name := "exit", phis := [{ id := 0, incoming := [(Value.inst 1 0, 1)] }], insts := [],
        termId := 1, term := Terminator.ret (some (Value.inst 3 0)), hasAddressTaken := false }] }

/-- The loop of `sampleFunction`. -/
def sampleLoop : Loop := { header := 1, blocks := [1, 2], rpo := [1, 2] }

/-- The function `sampleFunction` with the address of the latch block taken. -/
def latchAddressTaken : Function :=
  { blocks := sampleFunction.blocks.modify (fun blk => { blk with hasAddressTaken := true }) 2 }

/-- The function `sampleFunction` with the address of the header block taken. -/
def headerAddressTaken : Function :=
  { blocks := sampleFunction.blocks.modify (fun blk => { blk with hasAddressTaken := true }) 1 }

/-- The function `sampleFunction` with a conditional branch at the end of the latch. -/
def conditionalLatch : Function :=
  { blocks := sampleFunction.blocks.modify
      (fun blk => { blk with term := Terminator.condBr (Value.arg 1) 1 3 }) 2 }

/-- Equality of results is decidable. -/
instance decEqExcept {ε α : Type} [DecidableEq ε] [DecidableEq α] : DecidableEq (Except ε α)
  | Except.ok a, Except.ok b =>
    if h : a = b then isTrue (by rw [h]) else isFalse (fun h1 => h (by cases h1; rfl))
  | Except.error a, Except.error b =>
    if h : a = b then isTrue (by rw [h]) else isFalse (fun h1 => h (by cases h1; rfl))
  | Except.ok _, Except.error _ => isFalse (fun h => by cases h)
  | Except.error _, Except.ok _ => isFalse (fun h => by cases h)

/-! ## Vocabulary for the statements about `UnrollNTimes` -/

/-- The PHI node has an incoming entry for block `BB`. -/
def PHINode.hasIncomingFor (p : PHINode) (BB : Nat) : Bool :=
  p.incoming.any fun e => decide (e.2 = BB)

/-- The well-formedness of the IR that the unroller relies on: every successor
of a terminator is a block of the function, every PHI node has an incoming
entry for every predecessor of its block, and the PHI nodes of a block are
distinct instructions. -/
def wellFormed (F : Function) : Bool :=
  (F.blocks.all fun blk => (successors blk.term).all fun s => decide (s < F.blocks.length)) &&
  ((List.range F.blocks.length).all fun b =>
    match F.blocks[b]? with
    | some blk => blk.phis.all fun p => (predecessors F b).all fun q => p.hasIncomingFor q
    | none => true) &&
  (F.blocks.all fun blk => decide (blk.phis.map fun p => p.id).Nodup)

/-- What the loop analysis guarantees: the reverse postorder starts at the
header, lists every loop block once and nothing else, and the loop blocks are
blocks of the function. -/
def loopAnalysisOK (F : Function) (L : Loop) : Bool :=
  decide (L.rpo.head? = some L.header) && decide L.rpo.Nodup &&
  (L.rpo.all fun b => L.contains b) && (L.blocks.all fun b => decide (b ∈ L.rpo)) &&
  (L.blocks.all fun b => decide (b < F.blocks.length))

/-- The terminator is a `BranchInst`. -/
def Terminator.isBranch : Terminator → Bool
  | Terminator.br _ => true
  | Terminator.condBr _ _ _ => true
  | _ => false

/-- The index of the clone of loop block `BB` made in round `It` of the
unrolling of loop `L` in function `F` (`F` being the function before the
call): each round appends the clones of the loop blocks in reverse postorder. -/
def cloneIndex (F : Function) (L : Loop) (It BB : Nat) : Nat :=
  F.blocks.length + (It - 1) * L.rpo.length + L.rpo.indexOf BB

/-- The block `c` is a copy of `orig` made in round `It`: it carries the name
of `orig` with the round as suffix and the same instructions, identifier by
identifier. -/
def isCloneOf (orig : BasicBlock) (It : Nat) (c : BasicBlock) : Prop :=
  c.name = (if orig.name = "" then "" else orig.name ++ ("." ++ toString It)) ∧
  (c.insts.map fun i => i.id) = (orig.insts.map fun i => i.id) ∧
  c.termId = orig.termId

/-- The PHI nodes `qs` are the PHI nodes `ps` with further incoming entries
appended. -/
def PhisExt (ps qs : List PHINode) : Prop :=
  List.Forall₂ (fun p q => q.id = p.id ∧ ∃ extra, q.incoming = p.incoming ++ extra) ps qs

/-- The sample function with a preheader that ends in a `switch` whose only
successor is the header. -/
def switchPreheader : Function :=
  { blocks := sampleFunction.blocks.modify
      (fun blk => { blk with term := Terminator.switch (Value.arg 0) 1 [] }) 0 }

/-- The facts about the function on entry and about the loop that the
unrolling relies on (they follow from `wellFormed`, `loopAnalysisOK` and the
precondition checks). -/
structure UnrollCtx (F0 : Function) (L : Loop) (PreHeader LatchBlock : Nat) : Prop where
  rpo_head : ∃ tail, L.rpo = L.header :: tail
  rpo_nodup : L.rpo.Nodup
  rpo_loop : ∀ b, b ∈ L.rpo → L.contains b = true
  loop_lt : ∀ b, L.contains b = true → b < F0.blocks.length
  latch_rpo : LatchBlock ∈ L.rpo
  pre_lt : PreHeader < F0.blocks.length
  pre_out : L.contains PreHeader = false
  latch_term : ∃ blk : BasicBlock,
    F0.blocks[LatchBlock]? = some blk ∧ blk.term = Terminator.br L.header
  hdr_phis : ∀ Header : BasicBlock, F0.blocks[L.header]? = some Header →
    (Header.phis.map fun p => p.id).Nodup ∧
    ∀ p, p ∈ Header.phis →
      p.hasIncomingFor PreHeader = true ∧ p.hasIncomingFor LatchBlock = true
  succ_lt : ∀ (B : Nat) (blk : BasicBlock), F0.blocks[B]? = some blk →
    ∀ SI, SI ∈ successors blk.term → SI < F0.blocks.length
  exits : ∀ (B : Nat) (blk : BasicBlock), F0.blocks[B]? = some blk →
    ∀ SI, SI ∈ successors blk.term →
      ∃ sblk : BasicBlock, F0.blocks[SI]? = some sblk ∧
        ∀ p, p ∈ sblk.phis → p.hasIncomingFor B = true

/-- Every block of `F0` is still a block of `G`, its PHI nodes having at most
gained incoming entries. -/
def KeepsPhis (F0 G : Function) : Prop :=
  ∀ (b : Nat) (blk : BasicBlock), F0.blocks[b]? = some blk →
    ∃ blk1 : BasicBlock, G.blocks[b]? = some blk1 ∧ PhisExt blk.phis blk1.phis

/-- What every state of the unrolling keeps of the function `F0` on entry: the
blocks of `F0` are still there, the loop blocks are untouched, and the PHI
nodes of the other blocks have only gained incoming entries. -/
structure StepInv (F0 : Function) (L : Loop) (st : UnrollState) : Prop where
  len_ge : F0.blocks.length ≤ st.F.blocks.length
  loop_same : ∀ b, L.contains b = true → st.F.blocks[b]? = F0.blocks[b]?
  phis_ext : KeepsPhis F0 st.F

/-- The state after `k` rounds of the cloning loop: the function has grown by
`k` copies of the loop blocks, `LastValueMap` sends every loop block to its
copy of round `k`, the terminator of the preheader has been through
`ReplaceSuccessor` once (towards the header of the first copy), the latch of
each copy but the last enters the header of the next copy, and the latch of
the last copy still enters the header of its own copy. -/
structure RoundInv (F0 : Function) (L : Loop) (PreHeader LatchBlock : Nat) (k : Nat)
    (st : UnrollState) : Prop where
  step : StepInv F0 L st
  len : st.F.blocks.length = F0.blocks.length + k * L.rpo.length
  pre_term : termOf st.F PreHeader =
    (termOf F0 PreHeader).map fun t =>
      if k = 0 then t else (replaceSuccessorTerm t L.header F0.blocks.length).2
  lvm : 1 ≤ k → ∀ (j BB : Nat), L.rpo[j]? = some BB →
    vmFind st.LastValueMap (Value.block BB) =
      some (Value.block (F0.blocks.length + (k - 1) * L.rpo.length + j))
  chain : ∀ i, 1 ≤ i → i < k →
    termOf st.F (cloneIndex F0 L i LatchBlock) =
      some (Terminator.br (cloneIndex F0 L (i + 1) L.header))
  last : 1 ≤ k →
    termOf st.F (cloneIndex F0 L k LatchBlock) =
      some (Terminator.br (cloneIndex F0 L k L.header))
  clones : ∀ (i j BB : Nat) (orig : BasicBlock), 1 ≤ i → i ≤ k → L.rpo[j]? = some BB →
    F0.blocks[BB]? = some orig →
    ∃ c : BasicBlock,
      st.F.blocks[F0.blocks.length + (i - 1) * L.rpo.length + j]? = some c ∧ isCloneOf orig i c

/-! ## Section metadata (`SectionUtils.cpp`) -/

/-- The five operands of an entry of the `sections` named metadata, as
`writeSectionMeta` builds them: a string, three `i32` constants (read back
zero-extended) and the reference to the backing global. -/
structure Operands where
  name : String
  loadBase : Nat
  size : Nat
  fileOffset : Nat
  global : Nat
  deriving DecidableEq, Repr

/-- A tuple node of the metadata: `addr` is its address (what an `MDNode*`
holds), the other fields are its five operands. -/
structure MDNode where
  addr : Nat
  name : String
  loadBase : Nat
  size : Nat
  fileOffset : Nat
  global : Nat
  deriving DecidableEq, Repr

/-- The operands of a node. -/
def MDNode.operands (n : MDNode) : Operands :=
  { name := n.name, loadBase := n.loadBase, size := n.size, fileOffset := n.fileOffset,
    global := n.global }

/-- The node at address `addr` that holds the operands `ops`. -/
def MDNode.ofOperands (addr : Nat) (ops : Operands) : MDNode :=
  { addr := addr, name := ops.name, loadBase := ops.loadBase, size := ops.size,
    fileOffset := ops.fileOffset, global := ops.global }

/-- The node with operand `i` replaced by operand `i` of `ops` (`setOperand`). -/
def MDNode.setOperand (n : MDNode) (i : Nat) (ops : Operands) : MDNode :=
  match i with
  | 0 => { n with name := ops.name }
  | 1 => { n with loadBase := ops.loadBase }
  | 2 => { n with size := ops.size }
  | 3 => { n with fileOffset := ops.fileOffset }
  | 4 => { n with global := ops.global }
  | _ => n

/-- The record `section_meta_t`.  `md` is the handle of the entry in the
sections table: the address of a tuple node (`none` for a null pointer);
`global` is the pointer to the backing object, 0 being the null pointer. -/
structure section_meta_t where
  md : Option Nat
  name : String
  loadBase : Nat
  size : Nat
  fileOffset : Nat
  global : Nat
  deriving DecidableEq, Repr

/-- The initializer of a byte array: explicit data or `zeroinitializer`. -/
inductive Initializer where
  | dataArray (bytes : List Nat)
  | aggregateZero (numElements : Nat)
  deriving DecidableEq, Repr

/-- The number of bytes of the array type of an initializer. -/
def Initializer.numBytes : Initializer → Nat
  | Initializer.dataArray bytes => bytes.length
  | Initializer.aggregateZero n => n

/-- The bytes an initializer stands for. -/
def Initializer.contents : Initializer → List Nat
  | Initializer.dataArray bytes => bytes
  | Initializer.aggregateZero n => List.replicate n 0

/-- A global variable of the module; `id` stands for its address. -/
structure GlobalVariable where
  id : Nat
  name : String
  initializer : Initializer
  isConstant : Bool
  externalLinkage : Bool
  sectionName : String
  alignment : Nat
  deriving DecidableEq, Repr

/-- What the section utilities use of a module and of its context: the list
of global variables; the operands of the `sections` named metadata in table
order, every slot shown with the node it refers to (two slots may refer to one
node); and the tuple nodes of this shape that are in the uniquing store of the
context (`MDNode::get` hands out a node of the store when one has the operands
asked for; a node that is not in the store is a distinct node). -/
structure Module where
  globals : List GlobalVariable
  sections : List MDNode
  tuples : List MDNode
  deriving DecidableEq, Repr

/-- The table and the store describe one heap: what they show at one address
is one node. -/
def Module.heapOK (m : Module) : Bool :=
  (m.sections ++ m.tuples).all fun n =>
    (m.sections ++ m.tuples).all fun u => decide (n.addr = u.addr → n = u)

/-- The address of a newly allocated global: one that no global of the module has. -/
def freshGlobalId (gs : List GlobalVariable) : Nat :=
  (gs.map fun g => g.id).foldr max 0 + 1

/-- Insert `g` into the list right before the global with address `anchor`. -/
def insertBeforeGlobal (g : GlobalVariable) (anchor : Nat) :
    List GlobalVariable → Except Fault (List GlobalVariable)
  | [] => Except.error Fault.badPointer
  | x :: rest =>
    if x.id = anchor then Except.ok (g :: x :: rest)
    else
      match insertBeforeGlobal g anchor rest with
      | Except.error e => Except.error e
      | Except.ok rest1 => Except.ok (x :: rest1)

/-- `copySection(m, s, data, readonly)`.  The first component is the
function-local `static GlobalVariable *insertBefore`: `none` until the first
call has initialised it, and carried from one call to the next.  `data` is the
buffer behind the `uint8_t*` argument (`none` for a null pointer), of which
`s.size` bytes are read. -/
def copySection (insertBefore : Option Nat) (m : Module) (s : section_meta_t)
    (data : Option (List Nat)) (readonly : Bool) :
    Except Fault (Option Nat × Module × section_meta_t) :=
  let initializer : Except Fault Initializer :=
    match data with
    | some buf =>
      if s.size ≤ buf.length then Except.ok (Initializer.dataArray (buf.take s.size))
      else Except.error Fault.badPointer
    | none => Except.ok (Initializer.aggregateZero s.size)
  match initializer with
  | Except.error e => Except.error e
  | Except.ok init =>
    match m.globals with
    | [] => Except.error Fault.badPointer
    | first :: _ =>
      let anchor : Nat :=
        match insertBefore with
        | some a => a
        | none => first.id
      let g : GlobalVariable :=
        { id := freshGlobalId m.globals
          name := s.name
          initializer := init
          isConstant := readonly
          externalLinkage := true
          sectionName := s.name
          alignment := 1 }
      match insertBeforeGlobal g anchor m.globals with
      | Except.error e => Except.error e
      | Except.ok gs => Except.ok (some anchor, { m with globals := gs }, { s with global := g.id })

/-- `readSectionMeta(s, md)` for the node `md`: every field of `s` is
overwritten, the handle being the address of the node. -/
def readSectionMeta (md : MDNode) : section_meta_t :=
  { md := some md.addr
    name := md.name
    loadBase := md.loadBase
    size := md.size
    fileOffset := md.fileOffset
    global := md.global }

/-- The array `operands` of `writeSectionMeta`: the three integers become
32-bit constants. -/
def sectionOperands (s : section_meta_t) : Operands :=
  { name := s.name
    loadBase := s.loadBase % 2 ^ 32
    size := s.size % 2 ^ 32
    fileOffset := s.fileOffset % 2 ^ 32
    global := s.global }

/-- The address of a newly allocated node: one that no node of the table or of
the store has. -/
def freshNodeAddr (m : Module) : Nat :=
  ((m.sections ++ m.tuples).map fun n => n.addr).foldr max 0 + 1

/-- `MDNode::get(ctx, operands)`: the node of the uniquing store that holds
these operands when there is one, else a new node, which goes into the store.
The result is the address of the node and the module afterwards. -/
def MDNode.get (m : Module) (ops : Operands) : Nat × Module :=
  match m.tuples.find? fun n => decide (n.operands = ops) with
  | some n => (n.addr, m)
  | none =>
    (freshNodeAddr m,
      { m with tuples := m.tuples ++ [MDNode.ofOperands (freshNodeAddr m) ops] })

/-- `md->replaceOperandWith(i, operands[i])` for the node at address `md`.
Nothing happens when the operand is the new one already.  A distinct node just
gets the operand.  A uniqued node is taken out of the store, gets the operand
and is uniqued again: it goes back into the store unless the store holds
another node with the same operands, in which case it is a distinct node from
then on.  Every slot of the table that refers to the node shows the change. -/
def replaceOperandWith (m : Module) (md i : Nat) (ops : Operands) : Module :=
  match m.tuples.find? fun n => decide (n.addr = md) with
  | none =>
    { m with sections := m.sections.map fun n => if n.addr = md then n.setOperand i ops else n }
  | some cur =>
    if cur.setOperand i ops = cur then m
    else
      { m with
          sections := m.sections.map fun n => if n.addr = md then n.setOperand i ops else n
          tuples :=
            if (m.tuples.filter fun n => decide (n.addr ≠ md)).any fun n =>
                decide (n.operands = (cur.setOperand i ops).operands) then
              m.tuples.filter fun n => decide (n.addr ≠ md)
            else (m.tuples.filter fun n => decide (n.addr ≠ md)) ++ [cur.setOperand i ops] }

/-- `writeSectionMeta(m, s)`.  The operands are built first, and
`ValueAsMetadata::get(s.global)` dereferences its argument: a record without a
backing object faults.  With a handle, the five operands of the node behind it
are replaced one after the other (a handle that is the address of no node of
the table or the store is a dangling pointer, and the call on it faults);
without one, `MDNode::get` supplies the node, a slot for it is appended to the
table and its address is stored in `s`. -/
def writeSectionMeta (m : Module) (s : section_meta_t) :
    Except Fault (Module × section_meta_t) :=
  if s.global = 0 then Except.error Fault.badPointer
  else
    match s.md with
    | some md =>
      if (m.sections ++ m.tuples).any fun n => decide (n.addr = md) then
        Except.ok
          ((List.range 5).foldl (fun m1 i => replaceOperandWith m1 md i (sectionOperands s)) m, s)
      else Except.error Fault.badPointer
    | none =>
      let r := MDNode.get m (sectionOperands s)
      Except.ok
        ({ r.2 with sections := r.2.sections ++ [MDNode.ofOperands r.1 (sectionOperands s)] },
          { s with md := some r.1 })

/-- The loop of `mapToSections` over the operands of the named metadata still
to visit.  The callback gets the record and the caller's `param`, which it may
update. -/
def mapToSectionsLoop {σ : Type} (fn : section_meta_t → σ → Bool × σ) :
    List MDNode → σ → Bool × σ
  | [], param => (false, param)
  | node :: rest, param =>
    let r := fn (readSectionMeta node) param
    if r.1 then (true, r.2) else mapToSectionsLoop fn rest r.2

/-- `mapToSections(m, fn, param)`. -/
def mapToSections {σ : Type} (m : Module) (fn : section_meta_t → σ → Bool × σ) (param : σ) :
    Bool × σ :=
  mapToSectionsLoop fn m.sections param

/-- The loop of `findSectionByName` over the operands of the named metadata
still to visit. -/
def findSectionLoop (name : String) : List MDNode → section_meta_t → Bool × section_meta_t
  | [], s => (false, s)
  | node :: rest, _ =>
    let s1 := readSectionMeta node
    if s1.name = name then (true, s1) else findSectionLoop name rest s1

/-- `findSectionByName(m, name, s)`: the flag and the record `s` afterwards. -/
def findSectionByName (m : Module) (name : String) (s : section_meta_t) : Bool × section_meta_t :=
  findSectionLoop name m.sections s

/-- The records of the sections table in table order, each as
`readSectionMeta` reads it from its slot. -/
def storedRecords (m : Module) : List section_meta_t :=
  m.sections.map readSectionMeta

/-- The state of `param` after the callback has run on the given records in turn. -/
def runCalls {σ : Type} (fn : section_meta_t → σ → Bool × σ) (param : σ) :
    List section_meta_t → σ
  | [] => param
  | s :: rest => runCalls fn (fn s param).2 rest

/-- The object `new` comes before every object of `old` in the list `now`. -/
def precedesAll (new : Nat) (old now : List GlobalVariable) : Bool :=
  old.all fun g =>
    decide ((now.map fun x => x.id).indexOf new < (now.map fun x => x.id).indexOf g.id)

/-- A module with one global and no section entry. -/
def sampleModule : Module :=
  { globals := [{ id := 7, name := "env", initializer := Initializer.aggregateZero 4,
                  isConstant := false, externalLinkage := true, sectionName := "", alignment := 4 }]
    sections := []
    tuples := [] }

/-- A section record that has neither an entry nor a backing object yet. -/
def sampleSection : section_meta_t :=
  { md := none, name := ".data", loadBase := 134520832, size := 4, fileOffset := 4096, global := 0 }

/-- The sample record once global 7 backs it. -/
def backedSection : section_meta_t := { sampleSection with global := 7 }

/-- A module whose table has three slots: two for the node at address 1 and,
between them, one for the node at address 2. -/
def sampleTable : Module :=
  { globals := sampleModule.globals
    sections := [
      { addr := 1, name := ".data", loadBase := 134520832, size := 4, fileOffset := 4096,
        global := 7 },
      { addr := 2, name := ".text", loadBase := 134512640, size := 64, fileOffset := 512,
        global := 7 },
      { addr := 1, name := ".data", loadBase := 134520832, size := 4, fileOffset := 4096,
        global := 7 }]
    tuples := [
      { addr := 1, name := ".data", loadBase := 134520832, size := 4, fileOffset := 4096,
        global := 7 },
      { addr := 2, name := ".text", loadBase := 134512640, size := 64, fileOffset := 512,
        global := 7 }] }

/-- A record that carries the handle of the node at address 1 of `sampleTable`
and a new size. -/
def resizedSection : section_meta_t :=
  { md := some 1, name := ".data", loadBase := 134520832, size := 8, fileOffset := 4096,
    global := 7 }

/-! ## Reading the source binary (`readFromBinary`) -/

/-- `readFromBinary(m, buf, offset, size)`: the flag and the buffer afterwards.
`file` is the content of the source binary (`none` when it cannot be opened),
`buf` the caller's buffer, which has room for `size` bytes.  The stream is
positioned at `offset` (positioning past the end of the file is no error) and
`read` stores the bytes it can get, at most `size`; the stream is good
afterwards exactly when it got `size` bytes.  On a stream that failed to open
neither call does anything. -/
def readFromBinary (file : Option (List Nat)) (buf : List Nat) (offset size : Nat) :
    Bool × List Nat :=
  match file with
  | none => (false, buf)
  | some bytes =>
    let chars := (bytes.drop offset).take size
    (decide (chars.length = size), chars ++ buf.drop chars.length)

/-! ## The successor file of `BBExport` -/

/-- The `n` bytes of `v` in memory on the little-endian host, lowest first. -/
def leBytes : Nat → Nat → List Nat
  | 0, _ => []
  | n + 1, v => v % 256 :: leBytes n (v / 256)

/-- The unsigned integer whose little-endian bytes are given. -/
def leValue : List Nat → Nat
  | [] => 0
  | b :: rest => b + 256 * leValue rest

/-- `std::set::insert` on a set kept as a sorted list without duplicates. -/
def setInsert (k : Nat) : List Nat → List Nat
  | [] => [k]
  | x :: rest =>
    if k < x then k :: x :: rest
    else if k = x then x :: rest
    else x :: setInsert k rest

/-- The key `(predPc << 32) | (succ & 0xffffffff)` of `addEdge`, computed on
64-bit unsigned integers. -/
def edgeKey (predPc succ : Nat) : Nat :=
  (predPc * 2 ^ 32) % 2 ^ 64 ||| succ % 2 ^ 32

/-- `BBExport::addEdge(predPc, succ)` on the set `m_succs`. -/
def addEdge (m_succs : List Nat) (predPc succ : Nat) : List Nat :=
  setInsert (edgeKey predPc succ) m_succs

/-- The content of `succs.dat` that `BBExport::saveLLVMModule()` writes: the
eight bytes of every key of `m_succs`, in the order of the set; nothing is
written (`none`) when the module is uninitialised. -/
def saveSuccs (moduleInitialised : Bool) (m_succs : List Nat) : Option (List Nat) :=
  if moduleInitialised then some (m_succs.flatMap (leBytes 8)) else none

/-- The loop of `readPrevSuccs` over the bytes still to read: as long as four
bytes for `succ` and four bytes for `pred` can be read, `succ` is inserted. -/
def readPrevSuccsLoop : List Nat → List Nat → List Nat
  | b0 :: b1 :: b2 :: b3 :: _ :: _ :: _ :: _ :: rest, keys =>
    readPrevSuccsLoop rest (setInsert (leValue [b0, b1, b2, b3]) keys)
  | _, keys => keys

/-- `BBExport::readPrevSuccs(path)`: the set `prevSuccsKeys` and the flag
`m_earlyTerminate` afterwards; `file` is the content of the file at `path`
(`none` when it cannot be opened). -/
def readPrevSuccs (file : Option (List Nat)) (prevSuccsKeys : List Nat)
    (m_earlyTerminate : Bool) : List Nat × Bool :=
  match file with
  | none => (prevSuccsKeys, false)
  | some bytes => (readPrevSuccsLoop bytes prevSuccsKeys, m_earlyTerminate)

/-! ## The untangler's header/latch pairs -/

/-- `HeaderLatchPair`: the header block and the latch block. -/
abbrev HeaderLatchPair := Nat × Nat

/-- A block that the untangler made for one VPC value; `backEdge` is the
target of the back edge of a latch. -/
structure SpecializedBlock where
  vpcValue : Nat
  isLatch : Bool
  backEdge : Option Nat
  deriving DecidableEq, Repr

/-- The state of `UntangleInterpreter` that `getOrCreatePair` works on:
`vpcMap` (a `std::map`, one entry per key) and the blocks made so far, a block
being identified by its position. -/
structure UntangleInterpreter where
  vpcMap : List (Nat × HeaderLatchPair)
  blocks : List SpecializedBlock
  deriving DecidableEq, Repr

/-- `vpcMap.find(vpcValue)`. -/
def vpcMapFind : List (Nat × HeaderLatchPair) → Nat → Option HeaderLatchPair
  | [], _ => none
  | (k, p) :: rest, v => if k = v then some p else vpcMapFind rest v

/-- Modelled from the spec: the body of `UntangleInterpreter::getOrCreatePair`
is not among the sources (only its declaration in `untangle_interpreter.hpp`
is).  If `vpcValue` already has a pair it is reused; otherwise a fresh header
and a fresh latch specialised to `vpcValue` are made, the back edge of the
latch is wired to its own header, and the pair is registered in `vpcMap`. -/
def getOrCreatePair (u : UntangleInterpreter) (vpcValue : Nat) :
    HeaderLatchPair × UntangleInterpreter :=
  match vpcMapFind u.vpcMap vpcValue with
  | some pair => (pair, u)
  | none =>
    let header := u.blocks.length
    let latch := u.blocks.length + 1
    ((header, latch),
      { vpcMap := u.vpcMap ++ [(vpcValue, (header, latch))]
        blocks := u.blocks ++
          [{ vpcValue := vpcValue, isLatch := false, backEdge := none },
           { vpcValue := vpcValue, isLatch := true, backEdge := some header }] })

/-! ## Vocabulary for the round count and the values of `UnrollNTimes` -/

/-- The rounds `It`, `It + 1`, ..., `It + k - 1` of the cloning loop run one
after the other: `k` rounds, stopping at the first fault. -/
def runRounds (body : Nat → UnrollState → Except Fault UnrollState) :
    Nat → Nat → UnrollState → Except Fault UnrollState
  | 0, _, st => Except.ok st
  | k + 1, It, st =>
    match body It st with
    | Except.error e => Except.error e
    | Except.ok st1 => runRounds body k (It + 1) st1

/-- The part of `UnrollNTimes` after the cloning loop: the splice of the PHI
nodes of the original header and the redirection of the last latch. -/
def finalSplice (L : Loop) (PreHeader LatchBlock : Nat) (OrigPHINodes : List Nat)
    (st : UnrollState) : Except Fault Function :=
  match spliceHeaderPHIs L PreHeader LatchBlock OrigPHINodes st with
  | Except.error e => Except.error e
  | Except.ok st1 =>
    let h := vmIndex st1.LastValueMap (Value.block L.header)
    match castBasicBlock h.1 with
    | Except.error e => Except.error e
    | Except.ok PrevHeader =>
      let l := vmIndex h.2 (Value.block LatchBlock)
      match castBasicBlock l.1 with
      | Except.error e => Except.error e
      | Except.ok PrevLatch =>
        match ReplaceSuccessor st1.F PrevLatch PrevHeader L.header with
        | Except.error e => Except.error e
        | Except.ok r => Except.ok r.2

/-! ## Vocabulary for the values of the unrolled iterations -/

/-- The value that the PHI node receives from block `BB` (the first incoming
entry for `BB`); null when there is none. -/
def PHINode.valueFor (p : PHINode) (BB : Nat) : Value :=
  match p.incoming.find? fun e => decide (e.2 = BB) with
  | some e => e.1
  | none => Value.null

/-- The PHI node with the incoming entries `extra` appended. -/
def PHINode.addInputs (p : PHINode) (extra : List (Value × Nat)) : PHINode :=
  { p with incoming := p.incoming ++ extra }

/-- The identifiers of the instructions of a block: PHI nodes, ordinary
instructions and the terminator. -/
def BasicBlock.ids (blk : BasicBlock) : List Nat :=
  (blk.phis.map fun p => p.id) ++ ((blk.insts.map fun i => i.id) ++ [blk.termId])

/-- The PHI node with identifier `k` of the header of loop `L`. -/
def headerPHI (F : Function) (L : Loop) (k : Nat) : Option PHINode :=
  match F.blocks[L.header]? with
  | some Header => Header.phis.find? fun p => decide (p.id = k)
  | none => none

/-- The value that stands for `v` in the copy of the loop body made in round
`i` (`i ≥ 1`) of the unrolling of `L` in `F`.  An instruction of a loop block
`b` becomes the instruction with the same identifier in the copy of `b` of
round `i`; a PHI node of the header has no copy: it becomes the value that
enters the iteration, which is its input from the preheader in round 1 and, in
round `i + 1`, what stands in round `i` for its input from the latch.  Every
other value stands for itself. -/
def valueInRound (F : Function) (L : Loop) (PreHeader LatchBlock : Nat) : Nat → Value → Value
  | 0, v => v
  | i + 1, v =>
    match v with
    | Value.inst b k =>
      if L.contains b then
        match (if b = L.header then headerPHI F L k else none) with
        | some p =>
          if i = 0 then p.valueFor PreHeader
          else valueInRound F L PreHeader LatchBlock i (p.valueFor LatchBlock)
        | none => Value.inst (cloneIndex F L (i + 1) b) k
      else v
    | _ => v

/-- The incoming entries that PHI node `p` of block `E` gains for the copy of
loop block `B` made in round `i`: one entry per edge from `B` to `E`. -/
def blockInputs (F : Function) (L : Loop) (PreHeader LatchBlock E : Nat) (p : PHINode)
    (i B : Nat) : List (Value × Nat) :=
  match F.blocks[B]? with
  | some blk =>
    List.replicate ((successors blk.term).count E)
      (valueInRound F L PreHeader LatchBlock i (p.valueFor B), cloneIndex F L i B)
  | none => []

/-- The incoming entries that PHI node `p` of block `E` gains in round `i`, in
the order in which the loop blocks are copied. -/
def exitInputs (F : Function) (L : Loop) (PreHeader LatchBlock E : Nat) (p : PHINode)
    (i : Nat) : List (Value × Nat) :=
  L.rpo.flatMap (blockInputs F L PreHeader LatchBlock E p i)

/-- The value `v`, used on the way out of loop block `B`, is defined where the
IR rules demand it: it is no block label, and if it is an instruction of a
loop block then that instruction exists and its block is `B` or comes before
`B` in the reverse postorder. -/
def definedBefore (F : Function) (L : Loop) (B : Nat) : Value → Bool
  | Value.inst b k =>
    if L.contains b then
      decide (L.rpo.indexOf b ≤ L.rpo.indexOf B) &&
        (match F.blocks[b]? with
         | some blk => decide (k ∈ blk.ids)
         | none => false)
    else true
  | Value.block _ => false
  | _ => true

/-- Every value that a PHI node outside the loop receives from a loop block,
and every value that a PHI node of the header receives from the latch, is
defined before its use (see `definedBefore`). -/
def usesFollowDefs (F : Function) (L : Loop) (LatchBlock : Nat) : Bool :=
  (L.rpo.all fun B =>
    match F.blocks[B]? with
    | some blk =>
      (successors blk.term).all fun E =>
        L.contains E ||
          (match F.blocks[E]? with
           | some eblk => eblk.phis.all fun p => definedBefore F L B (p.valueFor B)
           | none => true)
    | none => true) &&
  (match F.blocks[L.header]? with
   | some Header =>
     Header.phis.all fun p => definedBefore F L LatchBlock (p.valueFor LatchBlock)
   | none => true)

/-- The value is one that `LastValueMap` never has a key for: it is neither a
block nor an instruction of a loop block. -/
def outsideValue (L : Loop) : Value → Bool
  | Value.inst b _ => !L.contains b
  | Value.block _ => false
  | _ => true

/-- What `LastValueMap` holds in round `i` once the loop blocks `done` have
been copied: every instruction of these blocks is mapped to the value that
stands for it in round `i`, and no value from outside the loop has an entry. -/
structure LvmInv (F0 : Function) (L : Loop) (PreHeader LatchBlock : Nat) (i : Nat)
    (done : List Nat) (LVM : ValueToValueMapTy) : Prop where
  inside : ∀ (b k : Nat) (blk : BasicBlock), b ∈ done → F0.blocks[b]? = some blk →
    k ∈ blk.ids →
    vmFind LVM (Value.inst b k) =
      some (valueInRound F0 L PreHeader LatchBlock i (Value.inst b k))
  outside : ∀ v, outsideValue L v = true → vmFind LVM v = none

/-- The incoming entries that PHI node `p` of block `E` has gained when `i`
rounds are complete and the loop blocks `done` have been copied in round
`i + 1`. -/
def gainedInputs (F : Function) (L : Loop) (PreHeader LatchBlock E : Nat) (p : PHINode)
    (i : Nat) (done : List Nat) : List (Value × Nat) :=
  (List.range' 1 i).flatMap (exitInputs F L PreHeader LatchBlock E p) ++
    done.flatMap (blockInputs F L PreHeader LatchBlock E p (i + 1))

/-- The PHI nodes of the blocks outside the loop in function `G`, when `i`
rounds are complete and the loop blocks `done` have been copied in round
`i + 1`: those of `F0` with the entries of `gainedInputs` appended. -/
def ExitInv (F0 : Function) (L : Loop) (PreHeader LatchBlock : Nat) (i : Nat)
    (done : List Nat) (G : Function) : Prop :=
  ∀ E, L.contains E = false → E < F0.blocks.length →
    (G.blocks[E]?).map (fun blk => blk.phis) =
      (F0.blocks[E]?).map fun blk => blk.phis.map fun p =>
        p.addInputs (gainedInputs F0 L PreHeader LatchBlock E p i done)

/-- The PHI node after the final splice: an incoming entry `(v, LastLatch)` is
added and the first incoming entry for `PreHeader` is dropped. -/
def PHINode.spliced (p : PHINode) (v : Value) (LastLatch PreHeader : Nat) : PHINode :=
  { p with
      incoming := (p.incoming ++ [(v, LastLatch)]).eraseP fun e => decide (e.2 = PreHeader) }


/-! ## Basic facts -/

theorem getBlock_eq_ok {F : Function} {b : Nat} {blk : BasicBlock} :
    getBlock F b = Except.ok blk ↔ F.blocks[b]? = some blk := by
  unfold getBlock
  cases h : F.blocks[b]? <;> simp

theorem getBlock_of_lt {F : Function} {b : Nat} (h : b < F.blocks.length) :
    ∃ blk, getBlock F b = Except.ok blk ∧ F.blocks[b]? = some blk := by
  refine ⟨F.blocks[b], ?_, ?_⟩
  · rw [getBlock_eq_ok]; exact List.getElem?_eq_getElem h
  · exact List.getElem?_eq_getElem h

theorem UnrollNTimes_false_eq (F : Function) (L : Loop) (N : Nat) (G : Function)
    (h : UnrollNTimes F L N = Except.ok (false, G)) : G = F := by
  unfold UnrollNTimes at h
  repeat' split at h
  all_goals first
    | (simp at h; exact h.symm)
    | (simp at h)

theorem unrollLoop_done (body : Nat → UnrollState → Except Fault UnrollState) (N fuel : Nat)
    (st : UnrollState) : unrollLoop body N fuel N st = Except.ok st := by
  cases fuel <;> simp [unrollLoop]

theorem unrollBody_one (F : Function) (L : Loop) (PreHeader LatchBlock : Nat) (Header : BasicBlock) :
    unrollBody F L PreHeader LatchBlock Header 1 = Except.error Fault.badCast := by
  unfold unrollBody
  simp only [unrollLoop_done]
  cases hp : Header.phis.map (fun p => p.id) with
  | nil => simp [spliceHeaderPHIs, vmIndex, vmFind, castBasicBlock]
  | cons k rest => simp [spliceHeaderPHIs, vmIndex, vmFind, castBasicBlock]

/-! ## Claims on `UnrollNTimes` -/

/-- C2: for every loop that passes the five precondition checks, `UnrollNTimes`
with count 1 does not complete: no round runs, `LastValueMap` stays empty, and
the final splice casts the null result of `LastValueMap[LatchBlock]` (or of
`LastValueMap[Header]` when the header has no PHI node) to a block. -/
theorem UnrollNTimes_count_one_faults (F : Function) (L : Loop)
    (h : meetsPreconditions F L = true) :
    UnrollNTimes F L 1 = Except.error Fault.badCast := by
  unfold meetsPreconditions at h
  unfold UnrollNTimes
  cases hp : getLoopPreheader F L with
  | none => simp [hp] at h
  | some PreHeader =>
    cases hl : getLoopLatch F L with
    | none => simp [hp, hl] at h
    | some LatchBlock =>
      cases hh : F.blocks[L.header]? with
      | none => simp [hp, hl, hh] at h
      | some Header =>
        simp only [hp, hl, hh, Bool.and_eq_true] at h
        obtain ⟨⟨hs, ha⟩, ht⟩ := h
        have hgh : getBlock F L.header = Except.ok Header := getBlock_eq_ok.mpr hh
        cases hlb : F.blocks[LatchBlock]? with
        | none => simp [hlb] at ht
        | some Latch =>
          have hgl : getBlock F LatchBlock = Except.ok Latch := getBlock_eq_ok.mpr hlb
          simp only [hlb] at ht
          cases hterm : Latch.term <;> simp [hterm] at ht
          simp at ha
          simp [hs, hgh, ha, hgl, hterm, unrollBody_one]

/-- Witness for C2: the sample loop passes the checks and count 1 faults. -/
theorem UnrollNTimes_count_one_faults_witness :
    meetsPreconditions sampleFunction sampleLoop = true ∧
      UnrollNTimes sampleFunction sampleLoop 1 = Except.error Fault.badCast :=
  ⟨by decide, UnrollNTimes_count_one_faults sampleFunction sampleLoop (by decide)⟩

/-- C3 as stated fails: with the address of the latch block (a loop block that
is not the header) taken, `UnrollNTimes` with count 2 returns true and changes
the function. -/
theorem UnrollNTimes_latch_address_taken_unrolls :
    (∃ b, b ∈ sampleLoop.blocks ∧ ∃ blk, latchAddressTaken.blocks[b]? = some blk ∧
        blk.hasAddressTaken = true) ∧
      ∃ G, UnrollNTimes latchAddressTaken sampleLoop 2 = Except.ok (true, G) ∧
        G ≠ latchAddressTaken :=
  ⟨⟨2, by decide, _, rfl, rfl⟩, _, rfl, by decide⟩

/-- C3, amended: for every loop whose header block has its address taken and
for every count, `UnrollNTimes` returns false and leaves the function
unchanged. -/
theorem UnrollNTimes_header_address_taken (F : Function) (L : Loop) (N : Nat) (Header : BasicBlock)
    (hh : F.blocks[L.header]? = some Header) (ha : Header.hasAddressTaken = true) :
    UnrollNTimes F L N = Except.ok (false, F) := by
  have hgh : getBlock F L.header = Except.ok Header := getBlock_eq_ok.mpr hh
  unfold UnrollNTimes
  repeat' split
  all_goals simp_all

/-- Witness for C3, amended. -/
theorem UnrollNTimes_header_address_taken_witness :
    UnrollNTimes headerAddressTaken sampleLoop 5 = Except.ok (false, headerAddressTaken) :=
  UnrollNTimes_header_address_taken headerAddressTaken sampleLoop 5 _ rfl rfl

/-- C4: whenever `UnrollNTimes` returns false the function is unchanged, and it
does return false, for every count, when the loop has no preheader, has no
single latch, is not safe to clone, has an address-taken header, or has a latch
that does not end in an unconditional branch. -/
theorem UnrollNTimes_failure_is_clean (F : Function) (L : Loop) (N : Nat) :
    (∀ G, UnrollNTimes F L N = Except.ok (false, G) → G = F) ∧
    (L.header < F.blocks.length →
      (getLoopPreheader F L = none ∨ getLoopLatch F L = none ∨ isSafeToClone F L = false ∨
        (∃ h, F.blocks[L.header]? = some h ∧ h.hasAddressTaken = true) ∨
        (∃ l b, getLoopLatch F L = some l ∧ F.blocks[l]? = some b ∧
          ∀ d, b.term ≠ Terminator.br d)) →
      UnrollNTimes F L N = Except.ok (false, F)) := by
  refine ⟨fun G h => UnrollNTimes_false_eq F L N G h, ?_⟩
  intro hH hc
  obtain ⟨Header, hgh, hhh⟩ := getBlock_of_lt hH
  unfold UnrollNTimes
  rcases hc with hc | hc | hc | ⟨h, hh, ha⟩ | ⟨l, b, hl, hb, ht⟩
  · simp [hc]
  · simp only [hc]; split <;> rfl
  · simp only [hc]; repeat' split
    all_goals simp_all
  · repeat' split
    all_goals simp_all
  · have hgl : getBlock F l = Except.ok b := getBlock_eq_ok.mpr hb
    simp only [hl, hgh, hgl]
    repeat' split
    all_goals simp_all

/-- Witness for C4: a latch that ends in a conditional branch. -/
theorem UnrollNTimes_failure_is_clean_witness :
    UnrollNTimes conditionalLatch sampleLoop 3 = Except.ok (false, conditionalLatch) :=
  (UnrollNTimes_failure_is_clean conditionalLatch sampleLoop 3).2 (by decide)
    (Or.inr (Or.inr (Or.inr (Or.inr ⟨2, _, by decide, rfl, fun d h => by cases h⟩))))


/-! ## Claims on the section metadata -/

theorem setOperand_addr (n : MDNode) (i : Nat) (ops : Operands) :
    (n.setOperand i ops).addr = n.addr := by
  unfold MDNode.setOperand
  split <;> rfl

theorem setOperand_all (n : MDNode) (ops : Operands) :
    (List.range 5).foldl (fun n1 i => n1.setOperand i ops) n = MDNode.ofOperands n.addr ops := by
  rfl

theorem setOperand_ofOperands (a i : Nat) (ops : Operands) :
    (MDNode.ofOperands a ops).setOperand i ops = MDNode.ofOperands a ops := by
  unfold MDNode.setOperand
  split <;> rfl

theorem operands_ofOperands (a : Nat) (ops : Operands) :
    (MDNode.ofOperands a ops).operands = ops := by
  rfl

theorem ofOperands_operands (n : MDNode) : MDNode.ofOperands n.addr n.operands = n := by
  rfl

theorem heapOK_iff (m : Module) :
    m.heapOK = true ↔
      ∀ n u, n ∈ m.sections ++ m.tuples → u ∈ m.sections ++ m.tuples → n.addr = u.addr →
        n = u := by
  simp only [Module.heapOK, List.all_eq_true, decide_eq_true_eq]
  exact ⟨fun h n u hn hu => h n hn u hu, fun h n hn u hu => h n u hn hu⟩

theorem lt_freshNodeAddr (m : Module) (n : MDNode) (hn : n ∈ m.sections ++ m.tuples) :
    n.addr < freshNodeAddr m := by
  unfold freshNodeAddr
  generalize m.sections ++ m.tuples = l at hn
  induction l with
  | nil => cases hn
  | cons y rest ih =>
    simp only [List.map_cons, List.foldr_cons]
    rcases List.mem_cons.mp hn with h | h
    · subst h; omega
    · have := ih h
      omega

theorem Module_with_sections_self (m : Module) : { m with sections := m.sections } = m := by
  cases m; rfl

/-- One operand replaced: what the table and the store show afterwards. -/
theorem replaceOperandWith_spec (m : Module) (h i : Nat) (ops : Operands)
    (hok : m.heapOK = true) :
    (replaceOperandWith m h i ops).sections =
      (m.sections.map fun n => if n.addr = h then n.setOperand i ops else n) ∧
    (∀ u, u ∈ (replaceOperandWith m h i ops).tuples →
      (u.addr = h → ∃ c, c ∈ m.tuples ∧ c.addr = h ∧ u = c.setOperand i ops) ∧
      (u.addr ≠ h → u ∈ m.tuples)) ∧
    (replaceOperandWith m h i ops).globals = m.globals := by
  rw [heapOK_iff] at hok
  unfold replaceOperandWith
  cases hf : m.tuples.find? fun n => decide (n.addr = h) with
  | none =>
    simp only
    refine ⟨trivial, fun u hu => ⟨fun hua => ?_, fun _ => hu⟩, trivial⟩
    rw [List.find?_eq_none] at hf
    exact absurd (by simpa using hua) (hf u hu)
  | some cur =>
    have hcm : cur ∈ m.tuples := List.mem_of_find?_eq_some hf
    have hca : cur.addr = h := by simpa using List.find?_some hf
    simp only
    by_cases hsame : cur.setOperand i ops = cur
    · rw [if_pos hsame]
      refine ⟨?_, fun u hu => ⟨fun hua => ⟨u, hu, hua, ?_⟩, fun _ => hu⟩, rfl⟩
      · symm
        conv_rhs => rw [← List.map_id m.sections]
        apply List.map_congr_left
        intro n hn
        by_cases hna : n.addr = h
        · have : n = cur :=
            hok n cur (List.mem_append_left _ hn) (List.mem_append_right _ hcm) (hna.trans hca.symm)
          rw [if_pos hna, this, hsame]; rfl
        · rw [if_neg hna]; rfl
      · have : u = cur :=
          hok u cur (List.mem_append_right _ hu) (List.mem_append_right _ hcm) (hua.trans hca.symm)
        rw [this, hsame]
    · rw [if_neg hsame]
      refine ⟨rfl, fun u hu => ?_, rfl⟩
      simp only at hu
      have hmem : u ∈ (m.tuples.filter fun n => decide (n.addr ≠ h)) ∨
          u = cur.setOperand i ops := by
        split at hu
        · exact Or.inl hu
        · rcases List.mem_append.mp hu with h1 | h1
          · exact Or.inl h1
          · exact Or.inr (by simpa using h1)
      rcases hmem with h1 | h1
      · have := List.mem_filter.mp h1
        have hne : u.addr ≠ h := by simpa using this.2
        exact ⟨fun e => absurd e hne, fun _ => this.1⟩
      · refine ⟨fun _ => ⟨cur, hcm, hca, h1⟩, fun hne => ?_⟩
        rw [h1, setOperand_addr] at hne
        exact absurd hca hne

theorem replaceOperandWith_image (m : Module) (h i : Nat) (ops : Operands)
    (hok : m.heapOK = true) (n1 : MDNode)
    (hn1 : n1 ∈ (replaceOperandWith m h i ops).sections ++ (replaceOperandWith m h i ops).tuples) :
    ∃ x, x ∈ m.sections ++ m.tuples ∧ n1 = if x.addr = h then x.setOperand i ops else x := by
  obtain ⟨hs, ht, _⟩ := replaceOperandWith_spec m h i ops hok
  rcases List.mem_append.mp hn1 with h1 | h1
  · rw [hs] at h1
    obtain ⟨x, hx, hxe⟩ := List.mem_map.mp h1
    exact ⟨x, List.mem_append_left _ hx, hxe.symm⟩
  · by_cases ha : n1.addr = h
    · obtain ⟨c, hc, hca, hce⟩ := (ht n1 h1).1 ha
      exact ⟨c, List.mem_append_right _ hc, by rw [if_pos hca]; exact hce⟩
    · exact ⟨n1, List.mem_append_right _ ((ht n1 h1).2 ha), by rw [if_neg ha]⟩

theorem replaceOperandWith_heapOK (m : Module) (h i : Nat) (ops : Operands)
    (hok : m.heapOK = true) : (replaceOperandWith m h i ops).heapOK = true := by
  rw [heapOK_iff]
  intro n u hn hu hnu
  obtain ⟨x, hx, hxe⟩ := replaceOperandWith_image m h i ops hok n hn
  obtain ⟨y, hy, hye⟩ := replaceOperandWith_image m h i ops hok u hu
  have hax : n.addr = x.addr := by
    rw [hxe]; split
    · exact setOperand_addr _ _ _
    · rfl
  have hay : u.addr = y.addr := by
    rw [hye]; split
    · exact setOperand_addr _ _ _
    · rfl
  have hxy : x = y := (heapOK_iff m).mp hok x y hx hy (by rw [← hax, ← hay]; exact hnu)
  rw [hxe, hye, hxy]

/-- The operands replaced one after the other. -/
theorem replaceOperands_spec (h : Nat) (ops : Operands) (is : List Nat) :
    ∀ m : Module, m.heapOK = true →
      (is.foldl (fun m1 i => replaceOperandWith m1 h i ops) m).sections =
        (m.sections.map fun n =>
          if n.addr = h then is.foldl (fun n1 i => n1.setOperand i ops) n else n) ∧
      (∀ u, u ∈ (is.foldl (fun m1 i => replaceOperandWith m1 h i ops) m).tuples →
        ∃ c, c ∈ m.tuples ∧
          u = if c.addr = h then is.foldl (fun n1 i => n1.setOperand i ops) c else c) ∧
      (is.foldl (fun m1 i => replaceOperandWith m1 h i ops) m).globals = m.globals ∧
      (is.foldl (fun m1 i => replaceOperandWith m1 h i ops) m).heapOK = true := by
  induction is with
  | nil =>
    intro m hok
    refine ⟨?_, fun u hu => ⟨u, hu, by simp⟩, rfl, hok⟩
    simp only [List.foldl_nil, ite_self, List.map_id']
  | cons i rest ih =>
    intro m hok
    obtain ⟨hs, ht, hg⟩ := replaceOperandWith_spec m h i ops hok
    obtain ⟨hs1, ht1, hg1, hok1⟩ :=
      ih (replaceOperandWith m h i ops) (replaceOperandWith_heapOK m h i ops hok)
    simp only [List.foldl_cons]
    refine ⟨?_, ?_, hg1.trans hg, hok1⟩
    · rw [hs1, hs, List.map_map]
      apply List.map_congr_left
      intro n _
      simp only [Function.comp]
      by_cases hn : n.addr = h
      · rw [if_pos hn, if_pos (by rw [setOperand_addr]; exact hn), if_pos hn]
      · rw [if_neg hn, if_neg hn, if_neg hn]
    · intro u hu
      obtain ⟨c1, hc1, hue⟩ := ht1 u hu
      by_cases hc1a : c1.addr = h
      · obtain ⟨c, hc, hca, hce⟩ := (ht c1 hc1).1 hc1a
        refine ⟨c, hc, ?_⟩
        rw [hue, if_pos hc1a, if_pos hca, hce]
      · refine ⟨c1, (ht c1 hc1).2 hc1a, ?_⟩
        rw [hue, if_neg hc1a, if_neg hc1a]

theorem replaceOperandWith_noop (m : Module) (h i : Nat) (ops : Operands)
    (hall : ∀ n, n ∈ m.sections ++ m.tuples → n.addr = h → n.setOperand i ops = n) :
    replaceOperandWith m h i ops = m := by
  have hsec : (m.sections.map fun n => if n.addr = h then n.setOperand i ops else n) =
      m.sections := by
    conv_rhs => rw [← List.map_id m.sections]
    apply List.map_congr_left
    intro n hn
    by_cases hna : n.addr = h
    · rw [if_pos hna, hall n (List.mem_append_left _ hn) hna]; rfl
    · rw [if_neg hna]; rfl
  unfold replaceOperandWith
  cases hf : m.tuples.find? fun n => decide (n.addr = h) with
  | none =>
    simp only
    rw [hsec]
  | some cur =>
    have hcm : cur ∈ m.tuples := List.mem_of_find?_eq_some hf
    have hca : cur.addr = h := by simpa using List.find?_some hf
    simp only
    rw [if_pos (hall cur (List.mem_append_right _ hcm) hca)]

theorem replaceOperands_noop (h : Nat) (ops : Operands) (m : Module) (is : List Nat)
    (hall : ∀ n, n ∈ m.sections ++ m.tuples → n.addr = h → n = MDNode.ofOperands h ops) :
    is.foldl (fun m1 i => replaceOperandWith m1 h i ops) m = m := by
  induction is with
  | nil => rfl
  | cons i rest ih =>
    rw [List.foldl_cons, replaceOperandWith_noop m h i ops (fun n hn hna => by
      rw [hall n hn hna]; exact setOperand_ofOperands _ _ _)]
    exact ih

/-- `MDNode::get` followed by the new slot: what the table and the store show. -/
theorem MDNode_get_spec (m : Module) (ops : Operands) (hok : m.heapOK = true) :
    (MDNode.get m ops).2.sections = m.sections ∧
    (MDNode.get m ops).2.globals = m.globals ∧
    (∀ n, n ∈ (MDNode.get m ops).2.sections ++ (MDNode.get m ops).2.tuples →
      n.addr = (MDNode.get m ops).1 → n = MDNode.ofOperands (MDNode.get m ops).1 ops) ∧
    (∀ n u, n ∈ (MDNode.get m ops).2.sections ++ (MDNode.get m ops).2.tuples →
      u ∈ (MDNode.get m ops).2.sections ++ (MDNode.get m ops).2.tuples →
      n.addr = u.addr → n = u) := by
  have hok1 := (heapOK_iff m).mp hok
  unfold MDNode.get
  cases hf : m.tuples.find? fun n => decide (n.operands = ops) with
  | some c =>
    have hcm : c ∈ m.tuples := List.mem_of_find?_eq_some hf
    have hco : c.operands = ops := by simpa using List.find?_some hf
    refine ⟨rfl, rfl, fun n hn hna => ?_, hok1⟩
    have : n = c := hok1 n c hn (List.mem_append_right _ hcm) hna
    rw [this, ← hco]
    rfl
  | none =>
    have hfresh : ∀ n, n ∈ m.sections ++ (m.tuples ++ [MDNode.ofOperands (freshNodeAddr m) ops]) →
        n ∈ m.sections ++ m.tuples ∨ n = MDNode.ofOperands (freshNodeAddr m) ops := by
      intro n hn
      simp only [List.mem_append, List.mem_singleton] at hn ⊢
      tauto
    refine ⟨rfl, rfl, fun n hn hna => ?_, fun n u hn hu hnu => ?_⟩
    · rcases hfresh n hn with h1 | h1
      · have := lt_freshNodeAddr m n h1
        simp only at hna
        omega
      · exact h1
    · rcases hfresh n hn with h1 | h1 <;> rcases hfresh u hu with h2 | h2
      · exact hok1 n u h1 h2 hnu
      · have := lt_freshNodeAddr m n h1
        rw [h2] at hnu
        simp only [MDNode.ofOperands] at hnu
        omega
      · have := lt_freshNodeAddr m u h2
        rw [h1] at hnu
        simp only [MDNode.ofOperands] at hnu
        omega
      · rw [h1, h2]

theorem writeSectionMeta_null_global (m : Module) (s : section_meta_t) (hg : s.global = 0) :
    writeSectionMeta m s = Except.error Fault.badPointer := by
  simp [writeSectionMeta, hg]

/-- What `writeSectionMeta` does for a record that has a backing object. -/
theorem writeSectionMeta_spec (m : Module) (s : section_meta_t) (hg : s.global ≠ 0)
    (hok : m.heapOK = true)
    (hmd : ∀ h, s.md = some h → ∃ n, n ∈ m.sections ∧ n.addr = h) :
    ∃ m1 s1, writeSectionMeta m s = Except.ok (m1, s1) ∧
      (∀ h, s.md = some h → s1 = s ∧
        m1.sections = m.sections.map fun n =>
          if n.addr = h then MDNode.ofOperands h (sectionOperands s) else n) ∧
      (s.md = none → ∃ a, s1 = { s with md := some a } ∧
        m1.sections = m.sections ++ [MDNode.ofOperands a (sectionOperands s)]) ∧
      m1.globals = m.globals ∧
      m1.heapOK = true ∧
      ∃ h, s1.md = some h ∧
        (∃ n, n ∈ m1.sections ∧ n.addr = h) ∧
        ∀ n, n ∈ m1.sections ++ m1.tuples → n.addr = h →
          n = MDNode.ofOperands h (sectionOperands s) := by
  unfold writeSectionMeta
  rw [if_neg hg]
  cases hm : s.md with
  | some h =>
    obtain ⟨n0, hn0, hn0a⟩ := hmd h hm
    have hany : ((m.sections ++ m.tuples).any fun n => decide (n.addr = h)) = true :=
      List.any_eq_true.mpr ⟨n0, List.mem_append_left _ hn0, by simp [hn0a]⟩
    simp only [hany, if_true]
    obtain ⟨hs, ht, hgl, hok1⟩ := replaceOperands_spec h (sectionOperands s) (List.range 5) m hok
    have hfold : ∀ n : MDNode, n.addr = h →
        (List.range 5).foldl (fun n1 i => n1.setOperand i (sectionOperands s)) n =
          MDNode.ofOperands h (sectionOperands s) := by
      intro n hn
      rw [setOperand_all, hn]
    refine ⟨_, _, rfl, ?_, fun hc => (by cases hc), hgl, hok1, h, hm, ?_, ?_⟩
    · intro h1 hh1
      cases hh1
      refine ⟨rfl, ?_⟩
      rw [hs]
      apply List.map_congr_left
      intro n _
      by_cases hn : n.addr = h
      · rw [if_pos hn, if_pos hn, hfold n hn]
      · rw [if_neg hn, if_neg hn]
    · refine ⟨(List.range 5).foldl (fun n1 i => n1.setOperand i (sectionOperands s)) n0, ?_, ?_⟩
      · rw [hs]
        exact List.mem_map.mpr ⟨n0, hn0, by rw [if_pos hn0a]⟩
      · rw [hfold n0 hn0a]
        rfl
    · intro n hn hna
      rcases List.mem_append.mp hn with h1 | h1
      · rw [hs] at h1
        obtain ⟨x, _, hxe⟩ := List.mem_map.mp h1
        by_cases hx : x.addr = h
        · rw [if_pos hx, hfold x hx] at hxe
          exact hxe.symm
        · rw [if_neg hx] at hxe
          rw [← hxe] at hna
          exact absurd hna hx
      · obtain ⟨c, _, hce⟩ := ht n h1
        by_cases hc : c.addr = h
        · rw [if_pos hc, hfold c hc] at hce
          exact hce
        · rw [if_neg hc] at hce
          rw [hce] at hna
          exact absurd hna hc
  | none =>
    obtain ⟨hs, hgl, hone, hheap⟩ := MDNode_get_spec m (sectionOperands s) hok
    have hmem : ∀ n, n ∈ ((MDNode.get m (sectionOperands s)).2.sections ++
          [MDNode.ofOperands (MDNode.get m (sectionOperands s)).1 (sectionOperands s)]) ++
          (MDNode.get m (sectionOperands s)).2.tuples →
        n ∈ (MDNode.get m (sectionOperands s)).2.sections ++
            (MDNode.get m (sectionOperands s)).2.tuples ∨
          n = MDNode.ofOperands (MDNode.get m (sectionOperands s)).1 (sectionOperands s) := by
      intro n hn
      simp only [List.mem_append, List.mem_singleton] at hn ⊢
      tauto
    have hnew : ∀ n, n ∈ ((MDNode.get m (sectionOperands s)).2.sections ++
          [MDNode.ofOperands (MDNode.get m (sectionOperands s)).1 (sectionOperands s)]) ++
          (MDNode.get m (sectionOperands s)).2.tuples →
        n.addr = (MDNode.get m (sectionOperands s)).1 →
        n = MDNode.ofOperands (MDNode.get m (sectionOperands s)).1 (sectionOperands s) := by
      intro n hn hna
      rcases hmem n hn with h1 | h1
      · exact hone n h1 hna
      · exact h1
    refine ⟨_, _, rfl, fun h hc => (by cases hc), fun _ => ⟨_, rfl, (by simp only; rw [hs])⟩,
      hgl, ?_, _, rfl, ⟨_, List.mem_append_right _ (List.mem_singleton.mpr rfl), rfl⟩, hnew⟩
    rw [heapOK_iff]
    intro n u hn hu hnu
    rcases hmem n hn with h1 | h1 <;> rcases hmem u hu with h2 | h2
    · exact hheap n u h1 h2 hnu
    · rw [h2] at hnu ⊢
      exact hone n h1 hnu
    · rw [h1] at hnu ⊢
      exact (hone u h2 hnu.symm).symm
    · rw [h1, h2]

theorem writeSectionMeta_dangling_handle (m : Module) (s : section_meta_t) (h : Nat)
    (hm : s.md = some h) (hno : ∀ n, n ∈ m.sections ++ m.tuples → n.addr ≠ h) :
    writeSectionMeta m s = Except.error Fault.badPointer := by
  unfold writeSectionMeta
  split
  · rfl
  · rw [hm]
    have : ((m.sections ++ m.tuples).any fun n => decide (n.addr = h)) = false := by
      rw [List.any_eq_false]
      intro n hn
      simpa using hno n hn
    simp only [this]
    rfl

theorem insertBeforeGlobal_spec (g : GlobalVariable) (anchor : Nat) (l : List GlobalVariable)
    (h : ∃ x, x ∈ l ∧ x.id = anchor) :
    ∃ before a after, l = before ++ a :: after ∧ a.id = anchor ∧
      (∀ x, x ∈ before → x.id ≠ anchor) ∧
      insertBeforeGlobal g anchor l = Except.ok (before ++ g :: a :: after) := by
  induction l with
  | nil => obtain ⟨x, hx, _⟩ := h; cases hx
  | cons y rest ih =>
    by_cases hy : y.id = anchor
    · exact ⟨[], y, rest, rfl, hy, by simp, by simp [insertBeforeGlobal, hy]⟩
    · have h1 : ∃ x, x ∈ rest ∧ x.id = anchor := by
        obtain ⟨x, hx, hxa⟩ := h
        rcases List.mem_cons.mp hx with hxy | hxr
        · subst hxy; exact absurd hxa hy
        · exact ⟨x, hxr, hxa⟩
      obtain ⟨before, a, after, hl, ha, hb, hins⟩ := ih h1
      refine ⟨y :: before, a, after, by simp [hl], ha, ?_, ?_⟩
      · intro x hx
        rcases List.mem_cons.mp hx with hxy | hxr
        · subst hxy; exact hy
        · exact hb x hxr
      · simp [insertBeforeGlobal, hy, hins]

theorem lt_freshGlobalId (gs : List GlobalVariable) (x : GlobalVariable) (hx : x ∈ gs) :
    x.id < freshGlobalId gs := by
  unfold freshGlobalId
  induction gs with
  | nil => cases hx
  | cons y rest ih =>
    simp only [List.map_cons, List.foldr_cons]
    rcases List.mem_cons.mp hx with hxy | hxr
    · subst hxy; omega
    · have := ih hxr; omega

/-- The result of `copySection` when the static anchor, once set, is a global
of the module and the buffer holds `s.size` bytes. -/
theorem copySection_ok (st : Option Nat) (m : Module) (s : section_meta_t)
    (data : Option (List Nat)) (readonly : Bool)
    (hne : m.globals ≠ [])
    (hanchor : ∀ a, st = some a → ∃ x, x ∈ m.globals ∧ x.id = a)
    (hdata : ∀ buf, data = some buf → s.size ≤ buf.length) :
    ∃ before a after init,
      m.globals = before ++ a :: after ∧
      (∀ x, x ∈ before → x.id ≠ a.id) ∧
      (st = none → before = []) ∧
      (∀ b, st = some b → a.id = b) ∧
      (∀ buf, data = some buf → init = Initializer.dataArray (buf.take s.size)) ∧
      (data = none → init = Initializer.aggregateZero s.size) ∧
      copySection st m s data readonly =
        Except.ok (some a.id,
          { m with globals := before ++
              { id := freshGlobalId m.globals, name := s.name, initializer := init,
                isConstant := readonly, externalLinkage := true, sectionName := s.name,
                alignment := 1 } :: a :: after },
          { s with global := freshGlobalId m.globals }) := by
  cases hg : m.globals with
  | nil => exact absurd hg hne
  | cons first rest =>
    have hinit : ∃ init, (match data with
        | some buf =>
          if s.size ≤ buf.length then Except.ok (Initializer.dataArray (buf.take s.size))
          else Except.error Fault.badPointer
        | none => Except.ok (Initializer.aggregateZero s.size)) = Except.ok init ∧
        (∀ buf, data = some buf → init = Initializer.dataArray (buf.take s.size)) ∧
        (data = none → init = Initializer.aggregateZero s.size) := by
      cases data with
      | none => exact ⟨_, rfl, by simp, by simp⟩
      | some buf =>
        have := hdata buf rfl
        exact ⟨Initializer.dataArray (buf.take s.size), by simp [this], by simp, by simp⟩
    obtain ⟨init, hi1, hi2, hi3⟩ := hinit
    cases st with
    | none =>
      refine ⟨[], first, rest, init, rfl, by simp, by simp, by simp, hi2, hi3, ?_⟩
      unfold copySection
      simp only [hi1, hg]
      simp [insertBeforeGlobal]
    | some b =>
      have hx : ∃ x, x ∈ first :: rest ∧ x.id = b := by
        obtain ⟨x, hx, hxb⟩ := hanchor b rfl
        exact ⟨x, hg ▸ hx, hxb⟩
      obtain ⟨before, a, after, hl, ha, hb, hins⟩ :=
        insertBeforeGlobal_spec
          { id := freshGlobalId (first :: rest), name := s.name, initializer := init,
            isConstant := readonly, externalLinkage := true, sectionName := s.name,
            alignment := 1 } b (first :: rest) hx
      refine ⟨before, a, after, init, hl, ?_, by simp, ?_, hi2, hi3, ?_⟩
      · intro x hx1; rw [ha]; exact hb x hx1
      · intro c hc; cases hc; exact ha
      · unfold copySection
        simp only [hi1, hg]
        simp only [hins, ha]


/-- C6 as stated fails on a later call: after a first call on the sample module
a second call puts its object behind the object the first call created, which
was in the list when the second call began. -/
theorem copySection_later_call_not_ahead :
    ∃ st1 m1 s1 st2 m2 s2,
      copySection none sampleModule sampleSection none false = Except.ok (st1, m1, s1) ∧
      copySection st1 m1 sampleSection none false = Except.ok (st2, m2, s2) ∧
      m1.globals ≠ [] ∧
      (m1.globals.map fun g => g.id) = [8, 7] ∧
      s2.global = 9 ∧
      (m2.globals.map fun g => g.id) = [8, 9, 7] ∧
      precedesAll s2.global m1.globals m2.globals = false :=
  ⟨_, _, _, _, _, _, rfl, rfl, by decide, by decide, by decide, by decide, by decide⟩

/-- C6, amended: `copySection` puts the new object immediately before the
anchor held in its static variable.  On the first call the anchor is the head
of the global list, so the new object comes before every global that was in
the list; on a later call the anchor is the global remembered from the first
call, so the new object comes after the globals listed before that anchor
(among them the objects of earlier calls) and before the anchor and
everything behind it.  The anchor is kept for the next call. -/
theorem copySection_placement (st : Option Nat) (m : Module) (s : section_meta_t)
    (data : Option (List Nat)) (readonly : Bool)
    (hne : m.globals ≠ [])
    (hanchor : ∀ a, st = some a → ∃ x, x ∈ m.globals ∧ x.id = a)
    (hdata : ∀ buf, data = some buf → s.size ≤ buf.length) :
    ∃ st1 m1 s1 g before a after,
      copySection st m s data readonly = Except.ok (st1, m1, s1) ∧
      s1.global = g.id ∧
      (∀ x, x ∈ m.globals → x.id ≠ g.id) ∧
      m.globals = before ++ a :: after ∧
      m1.globals = before ++ g :: a :: after ∧
      st1 = some a.id ∧
      (st = none → before = [] ∧ m1.globals = g :: m.globals) ∧
      (∀ b, st = some b → a.id = b ∧ ∀ x, x ∈ before → x.id ≠ b) := by
  obtain ⟨before, a, after, init, hl, hb, hfirst, hlater, _, _, hc⟩ :=
    copySection_ok st m s data readonly hne hanchor hdata
  refine ⟨_, _, _,
    { id := freshGlobalId m.globals, name := s.name, initializer := init,
      isConstant := readonly, externalLinkage := true, sectionName := s.name, alignment := 1 },
    before, a, after, hc, rfl, ?_, hl, rfl, rfl, ?_, ?_⟩
  · intro x hx
    exact Nat.ne_of_lt (lt_freshGlobalId m.globals x hx)
  · intro h
    have hb0 := hfirst h
    subst hb0
    exact ⟨rfl, by simp [hl]⟩
  · intro b h
    have := hlater b h
    exact ⟨this, fun x hx => this ▸ hb x hx⟩

/-- Witness for C6, amended: a first call on the sample module. -/
theorem copySection_placement_witness :
    ∃ st1 m1 s1 g before a after,
      copySection none sampleModule sampleSection none false = Except.ok (st1, m1, s1) ∧
      s1.global = g.id ∧
      (∀ x, x ∈ sampleModule.globals → x.id ≠ g.id) ∧
      sampleModule.globals = before ++ a :: after ∧
      m1.globals = before ++ g :: a :: after ∧
      st1 = some a.id ∧
      ((none : Option Nat) = none → before = [] ∧ m1.globals = g :: sampleModule.globals) ∧
      (∀ b, (none : Option Nat) = some b → a.id = b ∧ ∀ x, x ∈ before → x.id ≠ b) :=
  copySection_placement none sampleModule sampleSection none false (by decide)
    (fun _ h => by cases h) (fun _ h => by cases h)

/-- C7: `copySection` on a module with at least one global creates exactly one
global object; it has `s.size` bytes, holding the first `s.size` bytes of the
buffer when data is supplied (the whole buffer when that has `s.size` bytes)
and zero bytes otherwise; it is constant exactly when `readonly` is set, has
alignment 1 and section `s.name`; and the record refers to it afterwards, its
other fields unchanged. -/
theorem copySection_creates_object (st : Option Nat) (m : Module) (s : section_meta_t)
    (data : Option (List Nat)) (readonly : Bool)
    (hne : m.globals ≠ [])
    (hanchor : ∀ a, st = some a → ∃ x, x ∈ m.globals ∧ x.id = a)
    (hdata : ∀ buf, data = some buf → s.size ≤ buf.length) :
    ∃ st1 m1 s1 g,
      copySection st m s data readonly = Except.ok (st1, m1, s1) ∧
      (∀ x, x ∈ m1.globals ↔ x = g ∨ x ∈ m.globals) ∧
      m1.globals.length = m.globals.length + 1 ∧
      (∀ x, x ∈ m.globals → x.id ≠ g.id) ∧
      g.initializer.numBytes = s.size ∧
      g.initializer.contents.length = s.size ∧
      (∀ buf, data = some buf → g.initializer.contents = buf.take s.size) ∧
      (∀ buf, data = some buf → buf.length = s.size → g.initializer.contents = buf) ∧
      (data = none → g.initializer.contents = List.replicate s.size 0) ∧
      (g.isConstant = true ↔ readonly = true) ∧
      g.alignment = 1 ∧
      g.sectionName = s.name ∧
      s1 = { s with global := g.id } ∧
      m1.sections = m.sections := by
  obtain ⟨before, a, after, init, hl, hb, hfirst, hlater, hi1, hi2, hc⟩ :=
    copySection_ok st m s data readonly hne hanchor hdata
  have hcont : init.numBytes = s.size ∧ init.contents.length = s.size := by
    cases data with
    | none =>
      rw [hi2 rfl]
      simp [Initializer.numBytes, Initializer.contents]
    | some buf =>
      rw [hi1 buf rfl]
      have := hdata buf rfl
      simp [Initializer.numBytes, Initializer.contents, this]
  refine ⟨_, _, _,
    { id := freshGlobalId m.globals, name := s.name, initializer := init,
      isConstant := readonly, externalLinkage := true, sectionName := s.name, alignment := 1 },
    hc, ?_, ?_, ?_, hcont.1, hcont.2, ?_, ?_, ?_, Iff.rfl, rfl, rfl, rfl, rfl⟩
  · intro x
    simp only [hl, List.mem_append, List.mem_cons]
    tauto
  · simp [hl]
    omega
  · intro x hx
    exact Nat.ne_of_lt (lt_freshGlobalId m.globals x hx)
  · intro buf h
    simp [hi1 buf h, Initializer.contents]
  · intro buf h hlen
    simp [hi1 buf h, Initializer.contents, ← hlen]
  · intro h
    simp [hi2 h, Initializer.contents]

/-- Witness for C7: sixteen raw bytes copied into the sample module. -/
theorem copySection_creates_object_witness :
    ∃ st1 m1 s1 g,
      copySection none sampleModule { sampleSection with size := 16 }
        (some (List.range 16)) false = Except.ok (st1, m1, s1) ∧
      (∀ x, x ∈ m1.globals ↔ x = g ∨ x ∈ sampleModule.globals) ∧
      m1.globals.length = sampleModule.globals.length + 1 ∧
      (∀ x, x ∈ sampleModule.globals → x.id ≠ g.id) ∧
      g.initializer.numBytes = 16 ∧
      g.initializer.contents.length = 16 ∧
      (∀ buf, some (List.range 16) = some buf → g.initializer.contents = buf.take 16) ∧
      (∀ buf, some (List.range 16) = some buf → buf.length = 16 → g.initializer.contents = buf) ∧
      ((some (List.range 16) : Option (List Nat)) = none →
        g.initializer.contents = List.replicate 16 0) ∧
      (g.isConstant = true ↔ false = true) ∧
      g.alignment = 1 ∧
      g.sectionName = ".data" ∧
      s1 = { sampleSection with size := 16, global := g.id } ∧
      m1.sections = sampleModule.sections :=
  copySection_creates_object none sampleModule { sampleSection with size := 16 }
    (some (List.range 16)) false (by decide) (fun _ h => by cases h)
    (fun buf h => by cases h; decide)

/-- C8, counterexample: the backed sample record written twice without a
handle gets the same uniqued node from `MDNode::get` both times, so the table
has two slots for the node at address 1; an update through that handle (the
record with size 8) then shows in both slots: no slot of the table is left as
it was. -/
theorem writeSectionMeta_shared_node_rewritten :
    ∃ m1 s1 m2 s2 m3 s3,
      writeSectionMeta sampleModule backedSection = Except.ok (m1, s1) ∧
      writeSectionMeta m1 backedSection = Except.ok (m2, s2) ∧
      s1.md = some 1 ∧ s2.md = some 1 ∧
      m2.sections.map (fun n => (n.addr, n.size)) = [(1, 4), (1, 4)] ∧
      writeSectionMeta m2 { s2 with size := 8 } = Except.ok (m3, s3) ∧
      m3.sections.map (fun n => (n.addr, n.size)) = [(1, 8), (1, 8)] ∧
      m3.sections[0]? ≠ m2.sections[0]? ∧ m3.sections[1]? ≠ m2.sections[1]? :=
  ⟨_, _, _, _, _, _, rfl, rfl, rfl, rfl, rfl, rfl, rfl, by decide, by decide⟩

/-- C8: `writeSectionMeta` on a record that has a backing object and carries
the handle of a node of the table rewrites the node behind the handle: the record is unchanged, the table
keeps its length and the order of its slots, every slot that refers to another
node is unchanged, and every slot that refers to this node shows the written
operands.  On a record without a handle it appends one slot at the end and
stores the node's address in the record.  The globals are unchanged, and
applying it a second time to the record it returned changes neither module
nor record. -/
theorem writeSectionMeta_in_place (m : Module) (s : section_meta_t)
    (hg : s.global ≠ 0) (hok : m.heapOK = true)
    (hmd : ∀ h, s.md = some h → ∃ n, n ∈ m.sections ∧ n.addr = h) :
    ∃ m1 s1, writeSectionMeta m s = Except.ok (m1, s1) ∧
      (∀ h, s.md = some h →
        s1 = s ∧ m1.sections.length = m.sections.length ∧
        (∀ (j : Nat) (n : MDNode), m.sections[j]? = some n → n.addr ≠ h → m1.sections[j]? = some n) ∧
        (∀ (j : Nat) (n : MDNode), m.sections[j]? = some n → n.addr = h →
          m1.sections[j]? = some (MDNode.ofOperands h (sectionOperands s)))) ∧
      (s.md = none → ∃ a, s1 = { s with md := some a } ∧
        m1.sections = m.sections ++ [MDNode.ofOperands a (sectionOperands s)]) ∧
      m1.globals = m.globals ∧
      writeSectionMeta m1 s1 = Except.ok (m1, s1) := by
  obtain ⟨m1, s1, hw, hin, hap, hgl, _, h, hh, ⟨n0, hn0, hn0a⟩, hall⟩ :=
    writeSectionMeta_spec m s hg hok hmd
  refine ⟨m1, s1, hw, ?_, hap, hgl, ?_⟩
  · intro k hk
    obtain ⟨e, hsec⟩ := hin k hk
    refine ⟨e, by rw [hsec, List.length_map], ?_, ?_⟩
    · intro j n hj hn
      rw [hsec, List.getElem?_map, hj, Option.map_some', if_neg hn]
    · intro j n hj hn
      rw [hsec, List.getElem?_map, hj, Option.map_some', if_pos hn]
  · have hops : sectionOperands s1 = sectionOperands s ∧ s1.global = s.global := by
      cases hm : s.md with
      | none =>
        obtain ⟨a, ha, _⟩ := hap hm
        rw [ha]
        exact ⟨rfl, rfl⟩
      | some k =>
        obtain ⟨e, _⟩ := hin k hm
        rw [e]
        exact ⟨rfl, rfl⟩
    have hg1 : ¬ s1.global = 0 := by rw [hops.2]; exact hg
    unfold writeSectionMeta
    have hany : ((m1.sections ++ m1.tuples).any fun n => decide (n.addr = h)) = true :=
      List.any_eq_true.mpr ⟨n0, List.mem_append_left _ hn0, by simp [hn0a]⟩
    rw [if_neg hg1, hh]
    simp only [hany, if_true]
    rw [hops.1, replaceOperands_noop h (sectionOperands s) m1 (List.range 5) hall]

/-- Witness for C8: the node at address 1 of `sampleTable`, which two of the
three slots refer to, is updated through its handle. -/
theorem writeSectionMeta_in_place_witness :
    ∃ m1 s1, writeSectionMeta sampleTable resizedSection = Except.ok (m1, s1) ∧
      (∀ h, resizedSection.md = some h →
        s1 = resizedSection ∧ m1.sections.length = sampleTable.sections.length ∧
        (∀ (j : Nat) (n : MDNode), sampleTable.sections[j]? = some n → n.addr ≠ h →
          m1.sections[j]? = some n) ∧
        (∀ (j : Nat) (n : MDNode), sampleTable.sections[j]? = some n → n.addr = h →
          m1.sections[j]? = some (MDNode.ofOperands h (sectionOperands resizedSection)))) ∧
      (resizedSection.md = none → ∃ a, s1 = { resizedSection with md := some a } ∧
        m1.sections = sampleTable.sections ++
          [MDNode.ofOperands a (sectionOperands resizedSection)]) ∧
      m1.globals = sampleTable.globals ∧
      writeSectionMeta m1 s1 = Except.ok (m1, s1) :=
  writeSectionMeta_in_place sampleTable resizedSection (by decide) (by decide)
    (fun h hh => ⟨_, List.mem_cons_self _ _, by cases hh; rfl⟩)

theorem findSectionLoop_spec (name : String) (l : List MDNode) (s : section_meta_t) :
    ((findSectionLoop name l s).1 = true ↔ ∃ node, node ∈ l ∧ node.name = name) ∧
    ((findSectionLoop name l s).1 = true →
      ∃ (k : Nat) (node : MDNode), l[k]? = some node ∧ node.name = name ∧
        (∀ (j : Nat) (n : MDNode), j < k → l[j]? = some n → n.name ≠ name) ∧
        (findSectionLoop name l s).2 = readSectionMeta node) := by
  induction l generalizing s with
  | nil => simp [findSectionLoop]
  | cons node rest ih =>
    by_cases hn : node.name = name
    · have h1 : findSectionLoop name (node :: rest) s = (true, readSectionMeta node) := by
        simp [findSectionLoop, readSectionMeta, hn]
      rw [h1]
      refine ⟨⟨fun _ => ⟨node, by simp, hn⟩, fun _ => rfl⟩, fun _ => ⟨0, node, by simp, hn, ?_, rfl⟩⟩
      intro j n hj
      omega
    · have h1 : findSectionLoop name (node :: rest) s =
          findSectionLoop name rest (readSectionMeta node) := by
        simp [findSectionLoop, readSectionMeta, hn]
      rw [h1]
      obtain ⟨ih1, ih2⟩ := ih (readSectionMeta node)
      refine ⟨?_, ?_⟩
      · rw [ih1]
        constructor
        · rintro ⟨x, hx, hxn⟩
          exact ⟨x, List.mem_cons_of_mem _ hx, hxn⟩
        · rintro ⟨x, hx, hxn⟩
          rcases List.mem_cons.mp hx with hxy | hxr
          · subst hxy; exact absurd hxn hn
          · exact ⟨x, hxr, hxn⟩
      · intro ht
        obtain ⟨k, nd, hk, hnd, hfirst, hres⟩ := ih2 ht
        refine ⟨k + 1, nd, by simpa using hk, hnd, ?_, hres⟩
        intro j n hj hjn
        cases j with
        | zero =>
          simp at hjn
          subst hjn
          exact hn
        | succ j =>
          simp at hjn
          exact hfirst j n (by omega) hjn

/-- C9: `findSectionByName` returns true exactly when some entry of the table
has the requested name, and then the output record is the one read from the
entry at the smallest index that has this name (its handle is that entry and
its five fields are the entry's operands); it returns false exactly when no
entry has the name. -/
theorem findSectionByName_first_match (m : Module) (name : String) (s : section_meta_t) :
    ((findSectionByName m name s).1 = true ↔ ∃ node, node ∈ m.sections ∧ node.name = name) ∧
    ((findSectionByName m name s).1 = true →
      ∃ (k : Nat) (node : MDNode), m.sections[k]? = some node ∧ node.name = name ∧
        (∀ (j : Nat) (n : MDNode), j < k → m.sections[j]? = some n → n.name ≠ name) ∧
        (findSectionByName m name s).2 = readSectionMeta node ∧
        (findSectionByName m name s).2 =
          { md := some node.addr, name := node.name, loadBase := node.loadBase,
            size := node.size, fileOffset := node.fileOffset, global := node.global }) ∧
    ((findSectionByName m name s).1 = false ↔ ∀ node, node ∈ m.sections → node.name ≠ name) := by
  obtain ⟨h1, h2⟩ := findSectionLoop_spec name m.sections s
  refine ⟨h1, ?_, ?_⟩
  · intro ht
    obtain ⟨k, nd, hk, hnd, hfirst, hres⟩ := h2 ht
    exact ⟨k, nd, hk, hnd, hfirst, hres, hres⟩
  · unfold findSectionByName
    constructor
    · intro hf node hnode hname
      have := h1.mpr ⟨node, hnode, hname⟩
      rw [hf] at this
      cases this
    · intro hall
      cases hres : (findSectionLoop name m.sections s).1 with
      | false => rfl
      | true =>
        obtain ⟨node, hnode, hname⟩ := h1.mp hres
        exact absurd hname (hall node hnode)

theorem mapToSectionsLoop_spec {σ : Type} (fn : section_meta_t → σ → Bool × σ)
    (l : List MDNode) (param : σ) :
    ∃ k, k ≤ (l.map readSectionMeta).length ∧
      (mapToSectionsLoop fn l param).2 = runCalls fn param ((l.map readSectionMeta).take k) ∧
      (∀ j r, j + 1 < k → (l.map readSectionMeta)[j]? = some r →
        (fn r (runCalls fn param ((l.map readSectionMeta).take j))).1 = false) ∧
      ((mapToSectionsLoop fn l param).1 = true →
        ∃ r, 1 ≤ k ∧ (l.map readSectionMeta)[k - 1]? = some r ∧
          (fn r (runCalls fn param ((l.map readSectionMeta).take (k - 1)))).1 = true) ∧
      ((mapToSectionsLoop fn l param).1 = false →
        k = (l.map readSectionMeta).length ∧
        ∀ j r, j < k → (l.map readSectionMeta)[j]? = some r →
          (fn r (runCalls fn param ((l.map readSectionMeta).take j))).1 = false) := by
  induction l generalizing param with
  | nil =>
    refine ⟨0, by simp, by simp [mapToSectionsLoop, runCalls], ?_, ?_, ?_⟩
    · intro j r hj; omega
    · simp [mapToSectionsLoop]
    · intro _
      exact ⟨by simp, fun j r hj => by omega⟩
  | cons node rest ih =>
    by_cases hf : (fn (readSectionMeta node) param).1 = true
    · have h1 : mapToSectionsLoop fn (node :: rest) param =
          (true, (fn (readSectionMeta node) param).2) := by
        simp [mapToSectionsLoop, hf]
      refine ⟨1, by simp, by simp [h1, runCalls], ?_, ?_, ?_⟩
      · intro j r hj; omega
      · intro _
        exact ⟨readSectionMeta node, le_refl _, by simp,
          by simpa [runCalls] using hf⟩
      · intro h; rw [h1] at h; cases h
    · have hf0 : (fn (readSectionMeta node) param).1 = false := by
        cases h : (fn (readSectionMeta node) param).1 with
        | false => rfl
        | true => exact absurd h hf
      have h1 : mapToSectionsLoop fn (node :: rest) param =
          mapToSectionsLoop fn rest (fn (readSectionMeta node) param).2 := by
        simp [mapToSectionsLoop, hf0]
      obtain ⟨k, hk, hst, hbefore, htrue, hfalse⟩ :=
        ih (fn (readSectionMeta node) param).2
      have hstep : ∀ j r, (rest.map readSectionMeta)[j]? = some r →
          (fn r (runCalls fn (fn (readSectionMeta node) param).2
            ((rest.map readSectionMeta).take j))).1 = false →
          (fn r (runCalls fn param
            (((node :: rest).map readSectionMeta).take (j + 1)))).1 = false := by
        intro j r _ h
        simpa [runCalls] using h
      refine ⟨k + 1, by simpa using hk, ?_, ?_, ?_, ?_⟩
      · rw [h1, hst]
        simp [runCalls]
      · intro j r hj hr
        cases j with
        | zero =>
          simp at hr
          subst hr
          simpa [runCalls] using hf0
        | succ j =>
          have hr1 : (rest.map readSectionMeta)[j]? = some r := by
            simpa using hr
          exact hstep j r hr1 (hbefore j r (by omega) hr1)
      · intro ht
        rw [h1] at ht
        obtain ⟨r, hk1, hr, hfr⟩ := htrue ht
        refine ⟨r, by omega, ?_, ?_⟩
        · have : k + 1 - 1 = (k - 1) + 1 := by omega
          rw [this]
          simpa using hr
        · have : k + 1 - 1 = (k - 1) + 1 := by omega
          rw [this]
          simpa [runCalls] using hfr
      · intro hfl
        rw [h1] at hfl
        obtain ⟨hkl, hall⟩ := hfalse hfl
        refine ⟨by simp [hkl], ?_⟩
        intro j r hj hr
        cases j with
        | zero =>
          simp at hr
          subst hr
          simpa [runCalls] using hf0
        | succ j =>
          have hr1 : (rest.map readSectionMeta)[j]? = some r := by
            simpa using hr
          exact hstep j r hr1 (hall j r (by omega) hr1)

/-- C10: `mapToSections` calls the callback on the records of the table in
table order (`storedRecords`: the record at position `j` is the one read from
slot `j`; its handle is the node of that slot and its name, load base, size,
file offset and backing object are the node's five operands).  There is a
number `k` of calls such that `param` ends as the calls on the first `k`
records leave it and every call but the last returned false; if
`mapToSections` returns true, the last call (on record `k - 1`) returned true;
if it returns false, the callback was called on every record and returned
false each time. -/
theorem mapToSections_until_match {σ : Type} (m : Module)
    (fn : section_meta_t → σ → Bool × σ) (param : σ) :
    (storedRecords m).length = m.sections.length ∧
    (∀ j : Nat, (storedRecords m)[j]? = (m.sections[j]?).map readSectionMeta) ∧
    (∀ (j : Nat) (node : MDNode), m.sections[j]? = some node →
      (storedRecords m)[j]? = some
        { md := some node.addr, name := node.name, loadBase := node.loadBase,
          size := node.size, fileOffset := node.fileOffset, global := node.global }) ∧
    ∃ k, k ≤ (storedRecords m).length ∧
      (mapToSections m fn param).2 = runCalls fn param ((storedRecords m).take k) ∧
      (∀ j r, j + 1 < k → (storedRecords m)[j]? = some r →
        (fn r (runCalls fn param ((storedRecords m).take j))).1 = false) ∧
      ((mapToSections m fn param).1 = true →
        ∃ r, 1 ≤ k ∧ (storedRecords m)[k - 1]? = some r ∧
          (fn r (runCalls fn param ((storedRecords m).take (k - 1)))).1 = true) ∧
      ((mapToSections m fn param).1 = false →
        k = (storedRecords m).length ∧
        ∀ j r, j < k → (storedRecords m)[j]? = some r →
          (fn r (runCalls fn param ((storedRecords m).take j))).1 = false) := by
  refine ⟨by simp [storedRecords], fun j => by simp [storedRecords], ?_,
    mapToSectionsLoop_spec fn m.sections param⟩
  intro j node hj
  simp [storedRecords, hj, readSectionMeta]

/-! ## Facts about value maps and PHI nodes -/

theorem vmFind_append (a b : ValueToValueMapTy) (k : Value) :
    vmFind (a ++ b) k = (vmFind a k).orElse fun _ => vmFind b k := by
  induction a with
  | nil => simp [vmFind]
  | cons e rest ih =>
    obtain ⟨k1, v1⟩ := e
    by_cases h : k1 = k
    · simp [vmFind, h]
    · simp [vmFind, h, ih]

theorem vmFind_vmSet (m : ValueToValueMapTy) (k v k1 : Value) :
    vmFind (vmSet m k v) k1 = if k = k1 then some v else vmFind m k1 := by
  simp [vmSet, vmFind]

theorem vmIndex_of_find {m : ValueToValueMapTy} {k v : Value} (h : vmFind m k = some v) :
    vmIndex m k = (v, m) := by
  simp [vmIndex, h]

theorem vmFind_vmIndex_ne (m : ValueToValueMapTy) (k k1 : Value) (h : k ≠ k1) :
    vmFind (vmIndex m k).2 k1 = vmFind m k1 := by
  unfold vmIndex
  cases hf : vmFind m k with
  | some v => rfl
  | none => simp [vmFind_vmSet, h]

theorem vmFind_block_of_inst_keys (m : ValueToValueMapTy)
    (h : ∀ e, e ∈ m → ∃ b k, e.1 = Value.inst b k) (c : Nat) :
    vmFind m (Value.block c) = none := by
  induction m with
  | nil => rfl
  | cons e rest ih =>
    obtain ⟨k1, v1⟩ := e
    obtain ⟨b, k, hk⟩ := h (k1, v1) (by simp)
    simp only at hk
    subst hk
    simp only [vmFind, reduceCtorEq, ↓reduceIte]
    exact ih fun e he => h e (List.mem_cons_of_mem _ he)

theorem getIncoming_of_has (p : PHINode) (BB : Nat) (h : p.hasIncomingFor BB = true) :
    ∃ v, p.getIncomingValueForBlock BB = Except.ok v := by
  unfold PHINode.hasIncomingFor at h
  unfold PHINode.getIncomingValueForBlock
  cases hf : p.incoming.find? fun e => decide (e.2 = BB) with
  | some e => exact ⟨e.1, rfl⟩
  | none =>
    rw [List.find?_eq_none] at hf
    rw [List.any_eq_true] at h
    obtain ⟨e, he, hd⟩ := h
    exact absurd hd (hf e he)

theorem hasIncomingFor_of_append (p q : PHINode) (extra : List (Value × Nat)) (X : Nat)
    (hq : q.incoming = p.incoming ++ extra) (h : p.hasIncomingFor X = true) :
    q.hasIncomingFor X = true := by
  unfold PHINode.hasIncomingFor at *
  rw [hq, List.any_append, h]
  rfl

theorem PhisExt_refl (ps : List PHINode) : PhisExt ps ps := by
  induction ps with
  | nil => exact List.Forall₂.nil
  | cons p rest ih => exact List.Forall₂.cons ⟨rfl, [], by simp⟩ ih

theorem PhisExt_trans {ps qs rs : List PHINode} (h1 : PhisExt ps qs) (h2 : PhisExt qs rs) :
    PhisExt ps rs := by
  unfold PhisExt at *
  induction h1 generalizing rs with
  | nil => cases h2; exact List.Forall₂.nil
  | cons hpq _ ih =>
    cases h2 with
    | cons hqr hrest =>
      refine List.Forall₂.cons ⟨hqr.1.trans hpq.1, ?_⟩ (ih hrest)
      obtain ⟨e1, he1⟩ := hpq.2
      obtain ⟨e2, he2⟩ := hqr.2
      exact ⟨e1 ++ e2, by rw [he2, he1, List.append_assoc]⟩

theorem PhisExt_hasIncoming {ps qs : List PHINode} (h : PhisExt ps qs) (X : Nat)
    (hp : ∀ p, p ∈ ps → p.hasIncomingFor X = true) :
    ∀ q, q ∈ qs → q.hasIncomingFor X = true := by
  unfold PhisExt at h
  induction h with
  | nil => intro q hq; cases hq
  | cons hpq _ ih =>
    intro q hq
    rcases List.mem_cons.mp hq with hq1 | hq2
    · subst hq1
      obtain ⟨extra, he⟩ := hpq.2
      exact hasIncomingFor_of_append _ _ extra X he (hp _ (by simp))
    · exact ih (fun p hp1 => hp p (List.mem_cons_of_mem _ hp1)) q hq2

theorem find?_eraseP_ne (l : List PHINode) (k k1 : Nat) (h : k ≠ k1) :
    (l.eraseP fun p => decide (p.id = k)).find? (fun p => decide (p.id = k1)) =
      l.find? fun p => decide (p.id = k1) := by
  induction l with
  | nil => rfl
  | cons p rest ih =>
    by_cases hp : p.id = k
    · have hp1 : ¬ p.id = k1 := fun h1 => h (hp.symm.trans h1)
      have e1 : List.eraseP (fun p => decide (p.id = k)) (p :: rest) = rest := by
        rw [List.eraseP_cons]; simp [hp]
      rw [e1, List.find?_cons]
      simp [hp1]
    · have e1 : List.eraseP (fun p => decide (p.id = k)) (p :: rest) =
          p :: List.eraseP (fun p => decide (p.id = k)) rest := by
        rw [List.eraseP_cons]; simp [hp]
      rw [e1, List.find?_cons, List.find?_cons, ih]


/-! ## The header clone -/

theorem resolveHeaderPHIs_ok (L : Loop) (It PreHeader LatchBlock newIdx : Nat)
    (ks : List Nat) (New : BasicBlock) (VMap LVM : ValueToValueMapTy)
    (hnd : ks.Nodup)
    (hmap : ∀ k, k ∈ ks → vmFind VMap (Value.inst L.header k) = some (Value.inst newIdx k))
    (hphi : ∀ k, k ∈ ks → ∃ p, New.phis.find? (fun p => decide (p.id = k)) = some p ∧
      p.hasIncomingFor PreHeader = true ∧ p.hasIncomingFor LatchBlock = true)
    (hkeys : ∀ c, vmFind VMap (Value.block c) = none) :
    ∃ New1 VMap1 LVM1,
      resolveHeaderPHIs L It PreHeader LatchBlock newIdx ks New VMap LVM =
        Except.ok (New1, VMap1, LVM1) ∧
      New1.name = New.name ∧ New1.insts = New.insts ∧ New1.termId = New.termId ∧
      New1.term = New.term ∧
      (∀ c, vmFind VMap1 (Value.block c) = none) ∧
      (∀ c, vmFind LVM1 (Value.block c) = vmFind LVM (Value.block c)) := by
  induction ks generalizing New VMap LVM with
  | nil => exact ⟨New, VMap, LVM, rfl, rfl, rfl, rfl, rfl, hkeys, fun _ => rfl⟩
  | cons k rest ih =>
    obtain ⟨p, hp, hpre, hlat⟩ := hphi k (by simp)
    have hk : vmIndex VMap (Value.inst L.header k) = (Value.inst newIdx k, VMap) :=
      vmIndex_of_find (hmap k (by simp))
    have hnd1 : rest.Nodup := (List.nodup_cons.mp hnd).2
    have hnotin : k ∉ rest := (List.nodup_cons.mp hnd).1
    have hphi1 : ∀ k1, k1 ∈ rest →
        ∃ q, ({ New with phis := New.phis.eraseP fun p => decide (p.id = k) } : BasicBlock).phis.find?
          (fun p => decide (p.id = k1)) = some q ∧
          q.hasIncomingFor PreHeader = true ∧ q.hasIncomingFor LatchBlock = true := by
      intro k1 hk1
      have hne : k ≠ k1 := fun h => hnotin (h ▸ hk1)
      obtain ⟨q, hq, h1, h2⟩ := hphi k1 (List.mem_cons_of_mem _ hk1)
      exact ⟨q, by simpa [find?_eraseP_ne _ _ _ hne] using hq, h1, h2⟩
    have hmap1 : ∀ v k1, k1 ∈ rest →
        vmFind (vmSet VMap (Value.inst L.header k) v) (Value.inst L.header k1) =
          some (Value.inst newIdx k1) := by
      intro v k1 hk1
      have hne : k ≠ k1 := fun h => hnotin (h ▸ hk1)
      rw [vmFind_vmSet]
      simp [hne, hmap k1 (List.mem_cons_of_mem _ hk1)]
    have hkeys1 : ∀ v c, vmFind (vmSet VMap (Value.inst L.header k) v) (Value.block c) = none := by
      intro v c
      rw [vmFind_vmSet]
      simp [hkeys c]
    unfold resolveHeaderPHIs
    simp only [hk, hp, ↓reduceIte]
    by_cases hIt : It = 1
    · obtain ⟨v, hv⟩ := getIncoming_of_has p PreHeader hpre
      simp only [hIt, ↓reduceIte, hv]
      obtain ⟨New1, VMap1, LVM1, hres, h1, h2, h3, h4, h5, h6⟩ :=
        ih { New with phis := New.phis.eraseP fun p => decide (p.id = k) }
          (vmSet VMap (Value.inst L.header k) v) LVM hnd1 (hmap1 v) hphi1 (hkeys1 v)
      exact ⟨New1, VMap1, LVM1, hIt ▸ hres, h1, h2, h3, h4, h5, h6⟩
    · obtain ⟨v, hv⟩ := getIncoming_of_has p LatchBlock hlat
      simp only [hIt, ↓reduceIte, hv]
      generalize hr : (match v with
        | Value.inst b _ => if L.contains b = true then vmIndex LVM v else (v, LVM)
        | _ => (v, LVM)) = r
      have hr2 : ∀ c, vmFind r.2 (Value.block c) = vmFind LVM (Value.block c) := by
        intro c
        subst hr
        split
        · split
          · exact vmFind_vmIndex_ne _ _ _ (by simp)
          · rfl
        · rfl
      obtain ⟨New1, VMap1, LVM1, hres, h1, h2, h3, h4, h5, h6⟩ :=
        ih { New with phis := New.phis.eraseP fun p => decide (p.id = k) }
          (vmSet VMap (Value.inst L.header k) r.1) r.2 hnd1 (hmap1 r.1) hphi1 (hkeys1 r.1)
      exact ⟨New1, VMap1, LVM1, hres, h1, h2, h3, h4, h5, fun c => (h6 c).trans (hr2 c)⟩


/-! ## The exit blocks -/

theorem setBlock_length (F : Function) (b : Nat) (x : BasicBlock) :
    (setBlock F b x).blocks.length = F.blocks.length := by
  simp [setBlock]

theorem setBlock_getElem?_ne (F : Function) (b c : Nat) (x : BasicBlock) (h : b ≠ c) :
    (setBlock F b x).blocks[c]? = F.blocks[c]? := by
  simp [setBlock, List.getElem?_set, h]

theorem setBlock_getElem?_self (F : Function) (b : Nat) (x : BasicBlock)
    (h : b < F.blocks.length) : (setBlock F b x).blocks[b]? = some x := by
  simp [setBlock, List.getElem?_set, h]

theorem lt_of_getElem?_eq_some {F : Function} {b : Nat} {blk : BasicBlock}
    (h : F.blocks[b]? = some blk) : b < F.blocks.length := by
  by_contra hn
  rw [List.getElem?_eq_none (by omega)] at h
  cases h

theorem addExitIncoming_ok (BB New : Nat) (LVM : ValueToValueMapTy) (phis : List PHINode)
    (h : ∀ p, p ∈ phis → p.hasIncomingFor BB = true) :
    ∃ phis1, addExitIncoming BB New LVM phis = Except.ok phis1 ∧ PhisExt phis phis1 := by
  induction phis with
  | nil => exact ⟨[], rfl, List.Forall₂.nil⟩
  | cons p rest ih =>
    obtain ⟨v, hv⟩ := getIncoming_of_has p BB (h p (by simp))
    obtain ⟨rest1, hr, hext⟩ := ih fun q hq => h q (List.mem_cons_of_mem _ hq)
    refine ⟨p.addIncoming (remapValue LVM v) New :: rest1, ?_, ?_⟩
    · simp [addExitIncoming, hv, hr]
    · exact List.Forall₂.cons ⟨rfl, [(remapValue LVM v, New)], rfl⟩ hext

theorem addExitPHIEntries_ok (L : Loop) (BB New : Nat) (LVM : ValueToValueMapTy)
    (succs : List Nat) (F : Function)
    (h : ∀ SI, SI ∈ succs → L.contains SI = false →
      ∃ sblk, F.blocks[SI]? = some sblk ∧ ∀ p, p ∈ sblk.phis → p.hasIncomingFor BB = true) :
    ∃ F1, addExitPHIEntries L BB New LVM succs F = Except.ok F1 ∧
      F1.blocks.length = F.blocks.length ∧
      ∀ b blk, F.blocks[b]? = some blk →
        ∃ phis1, F1.blocks[b]? = some { blk with phis := phis1 } ∧ PhisExt blk.phis phis1 ∧
          ((L.contains b = true ∨ b ∉ succs) → phis1 = blk.phis) := by
  induction succs generalizing F with
  | nil =>
    exact ⟨F, rfl, rfl, fun b blk hb => ⟨blk.phis, hb, PhisExt_refl _, fun _ => rfl⟩⟩
  | cons SI rest ih =>
    by_cases hc : L.contains SI = true
    · obtain ⟨F1, hF1, hlen, hblk⟩ :=
        ih F fun S hS hSc => h S (List.mem_cons_of_mem _ hS) hSc
      refine ⟨F1, by simp [addExitPHIEntries, hc, hF1], hlen, ?_⟩
      intro b blk hb
      obtain ⟨phis1, h1, h2, h3⟩ := hblk b blk hb
      refine ⟨phis1, h1, h2, ?_⟩
      rintro (hbc | hbn)
      · exact h3 (Or.inl hbc)
      · exact h3 (Or.inr fun hmem => hbn (List.mem_cons_of_mem _ hmem))
    · have hc0 : L.contains SI = false := by
        cases hcc : L.contains SI with
        | false => rfl
        | true => exact absurd hcc hc
      obtain ⟨sblk, hs, hsp⟩ := h SI (by simp) hc0
      obtain ⟨phisS, hadd, hextS⟩ := addExitIncoming_ok BB New LVM sblk.phis hsp
      have hSIlt := lt_of_getElem?_eq_some hs
      have hpre : ∀ S, S ∈ rest → L.contains S = false →
          ∃ sb, (setBlock F SI { sblk with phis := phisS }).blocks[S]? = some sb ∧
            ∀ p, p ∈ sb.phis → p.hasIncomingFor BB = true := by
        intro S hS hSc
        by_cases hSS : SI = S
        · subst hSS
          exact ⟨_, setBlock_getElem?_self F SI _ hSIlt, PhisExt_hasIncoming hextS BB hsp⟩
        · obtain ⟨sb, hsb, hsbp⟩ := h S (List.mem_cons_of_mem _ hS) hSc
          exact ⟨sb, by rw [setBlock_getElem?_ne F SI S _ hSS]; exact hsb, hsbp⟩
      obtain ⟨F1, hF1, hlen, hblk⟩ := ih (setBlock F SI { sblk with phis := phisS }) hpre
      refine ⟨F1, ?_, by rw [hlen, setBlock_length], ?_⟩
      · simp [addExitPHIEntries, hc0, getBlock_eq_ok.mpr hs, hadd, hF1]
      · intro b blk hb
        by_cases hbS : SI = b
        · subst hbS
          have hblk1 : blk = sblk := by rw [hs] at hb; cases hb; rfl
          subst hblk1
          obtain ⟨phis1, h1, h2, h3⟩ :=
            hblk SI { blk with phis := phisS } (setBlock_getElem?_self F SI _ hSIlt)
          refine ⟨phis1, h1, PhisExt_trans hextS h2, ?_⟩
          rintro (hbc | hbn)
          · rw [hc0] at hbc; cases hbc
          · exact absurd (List.mem_cons_self _ _) hbn
        · obtain ⟨phis1, h1, h2, h3⟩ :=
            hblk b blk (by rw [setBlock_getElem?_ne F SI b _ hbS]; exact hb)
          refine ⟨phis1, h1, h2, ?_⟩
          rintro (hbc | hbn)
          · exact h3 (Or.inl hbc)
          · exact h3 (Or.inr fun hmem => hbn (List.mem_cons_of_mem _ hmem))


/-! ## One block of one round -/

theorem vmFind_clone_phis (src new k : Nat) (l : List PHINode) (rest : ValueToValueMapTy)
    (h : k ∈ l.map fun p => p.id) :
    vmFind (l.map (fun p => (Value.inst src p.id, Value.inst new p.id)) ++ rest)
      (Value.inst src k) = some (Value.inst new k) := by
  induction l with
  | nil => simp at h
  | cons p tl ih =>
    by_cases hp : p.id = k
    · simp [vmFind, hp]
    · have h1 : k ∈ tl.map fun p => p.id := by
        simp only [List.map_cons, List.mem_cons] at h
        rcases h with h | h
        · exact absurd h.symm hp
        · exact h
      simp [vmFind, hp, ih h1]

theorem CloneBasicBlock_keys (BB : BasicBlock) (src new : Nat) (suffix : String) :
    ∀ e, e ∈ (CloneBasicBlock BB src new suffix).2 → ∃ b k, e.1 = Value.inst b k := by
  intro e he
  simp only [CloneBasicBlock, List.mem_append, List.mem_map, List.mem_singleton] at he
  rcases he with ⟨p, _, hp⟩ | ⟨i, _, hi⟩ | he
  · exact ⟨src, p.id, by rw [← hp]⟩
  · exact ⟨src, i.id, by rw [← hi]⟩
  · exact ⟨src, BB.termId, by rw [he]⟩

theorem find?_of_mem_ids (l : List PHINode) (k : Nat) (h : k ∈ l.map fun p => p.id) :
    ∃ p, l.find? (fun p => decide (p.id = k)) = some p ∧ p ∈ l := by
  induction l with
  | nil => simp at h
  | cons p tl ih =>
    by_cases hp : p.id = k
    · exact ⟨p, by simp [List.find?_cons, hp], by simp⟩
    · have h1 : k ∈ tl.map fun p => p.id := by
        simp only [List.map_cons, List.mem_cons] at h
        rcases h with h | h
        · exact absurd h.symm hp
        · exact h
      obtain ⟨q, hq, hqm⟩ := ih h1
      exact ⟨q, by simp [List.find?_cons, hp, hq], List.mem_cons_of_mem _ hqm⟩

theorem exits_premise {F0 : Function} {L : Loop} {PreHeader LatchBlock : Nat}
    (ctx : UnrollCtx F0 L PreHeader LatchBlock) (G : Function) (BB : Nat) (orig : BasicBlock)
    (horig : F0.blocks[BB]? = some orig)
    (hG : KeepsPhis F0 G) :
    ∀ SI, SI ∈ successors orig.term → L.contains SI = false →
      ∃ sblk, G.blocks[SI]? = some sblk ∧ ∀ p, p ∈ sblk.phis → p.hasIncomingFor BB = true := by
  intro SI hSI _
  obtain ⟨sblk0, hs0, hp0⟩ := ctx.exits BB orig horig SI hSI
  obtain ⟨sblk, hs, hext⟩ := hG SI sblk0 hs0
  exact ⟨sblk, hs, PhisExt_hasIncoming hext BB hp0⟩

theorem cloneBlock_other {F0 : Function} {L : Loop} {PreHeader LatchBlock : Nat}
    (ctx : UnrollCtx F0 L PreHeader LatchBlock) (Orig : List Nat) (It : Nat)
    (st : UnrollState) (inv : StepInv F0 L st) (BB : Nat) (hBB : BB ∈ L.rpo)
    (hne : BB ≠ L.header) (orig : BasicBlock) (horig : F0.blocks[BB]? = some orig) :
    ∃ st1, cloneBlock L PreHeader LatchBlock Orig It st BB = Except.ok st1 ∧
      st1.F.blocks.length = st.F.blocks.length + 1 ∧
      st1.F.blocks[st.F.blocks.length]? =
        some (CloneBasicBlock orig BB st.F.blocks.length ("." ++ toString It)).1 ∧
      (∀ b blk, st.F.blocks[b]? = some blk →
        ∃ phis1, st1.F.blocks[b]? = some { blk with phis := phis1 } ∧ PhisExt blk.phis phis1 ∧
          ((L.contains b = true ∨ F0.blocks.length ≤ b) → phis1 = blk.phis)) ∧
      vmFind st1.LastValueMap (Value.block BB) = some (Value.block st.F.blocks.length) ∧
      (∀ c, c ≠ BB →
        vmFind st1.LastValueMap (Value.block c) = vmFind st.LastValueMap (Value.block c)) := by
  have hcur : st.F.blocks[BB]? = some orig := by
    rw [inv.loop_same BB (ctx.rpo_loop BB hBB)]; exact horig
  have hlen := inv.len_ge
  -- the function with the clone appended
  have hF1 : KeepsPhis F0 { blocks := st.F.blocks ++
      [(CloneBasicBlock orig BB st.F.blocks.length ("." ++ toString It)).1] } := by
    intro b blk hb
    obtain ⟨blk1, h1, h2⟩ := inv.phis_ext b blk hb
    exact ⟨blk1, by
      simp only
      rw [List.getElem?_append_left (lt_of_getElem?_eq_some h1)]; exact h1, h2⟩
  obtain ⟨F3, hF3, hlen3, hblk3⟩ :=
    addExitPHIEntries_ok L BB st.F.blocks.length
      ((CloneBasicBlock orig BB st.F.blocks.length ("." ++ toString It)).2 ++
        vmSet st.LastValueMap (Value.block BB) (Value.block st.F.blocks.length))
      (successors orig.term)
      { blocks := st.F.blocks ++
          [(CloneBasicBlock orig BB st.F.blocks.length ("." ++ toString It)).1] }
      (exits_premise ctx _ BB orig horig hF1)
  have hnotsucc : ∀ b, F0.blocks.length ≤ b → b ∉ successors orig.term := by
    intro b hb hmem
    have := ctx.succ_lt BB orig horig b hmem
    omega
  refine ⟨{ F := F3
            LastValueMap :=
              (CloneBasicBlock orig BB st.F.blocks.length ("." ++ toString It)).2 ++
                vmSet st.LastValueMap (Value.block BB) (Value.block st.F.blocks.length) },
    ?_, ?_, ?_, ?_, ?_, ?_⟩
  · unfold cloneBlock
    simp only [getBlock_eq_ok.mpr hcur, hne, ↓reduceIte, hF3]
  · simp only [hlen3, List.length_append, List.length_singleton]
  · obtain ⟨phis1, h1, _, h3⟩ := hblk3 st.F.blocks.length
      (CloneBasicBlock orig BB st.F.blocks.length ("." ++ toString It)).1
      (by simp)
    rw [h1, h3 (Or.inr (hnotsucc _ hlen))]
  · intro b blk hb
    obtain ⟨phis1, h1, h2, h3⟩ := hblk3 b blk
      (by simp only
          rw [List.getElem?_append_left (lt_of_getElem?_eq_some hb)]; exact hb)
    refine ⟨phis1, h1, h2, ?_⟩
    rintro (hc | hge)
    · exact h3 (Or.inl hc)
    · exact h3 (Or.inr (hnotsucc b hge))
  · simp only [vmFind_append,
      vmFind_block_of_inst_keys _ (CloneBasicBlock_keys orig BB _ _), vmFind_vmSet]
    simp
  · intro c hc
    simp only [vmFind_append,
      vmFind_block_of_inst_keys _ (CloneBasicBlock_keys orig BB _ _), vmFind_vmSet]
    have : Value.block BB ≠ Value.block c := fun h => hc (by cases h; rfl)
    simp [this]


theorem ReplaceSuccessor_ok (F : Function) (BB Succ Repl : Nat) (blk : BasicBlock)
    (h : F.blocks[BB]? = some blk) :
    ReplaceSuccessor F BB Succ Repl =
      Except.ok ((replaceSuccessorTerm blk.term Succ Repl).1,
        setBlock F BB { blk with term := (replaceSuccessorTerm blk.term Succ Repl).2 }) := by
  simp [ReplaceSuccessor, getBlock_eq_ok.mpr h]

theorem cloneBlock_header {F0 : Function} {L : Loop} {PreHeader LatchBlock : Nat}
    (ctx : UnrollCtx F0 L PreHeader LatchBlock) (It : Nat)
    (st : UnrollState) (inv : StepInv F0 L st)
    (orig : BasicBlock) (horig : F0.blocks[L.header]? = some orig)
    (target Succ : Nat) (htl : target < st.F.blocks.length)
    (hIt : (It = 1 ∧ target = PreHeader ∧ Succ = L.header) ∨
      (It ≠ 1 ∧ vmFind st.LastValueMap (Value.block L.header) = some (Value.block Succ) ∧
        vmFind st.LastValueMap (Value.block LatchBlock) = some (Value.block target))) :
    ∃ st1 New,
      cloneBlock L PreHeader LatchBlock (orig.phis.map fun p => p.id) It st L.header =
        Except.ok st1 ∧
      st1.F.blocks.length = st.F.blocks.length + 1 ∧
      st1.F.blocks[st.F.blocks.length]? = some New ∧
      New.name = (CloneBasicBlock orig L.header st.F.blocks.length ("." ++ toString It)).1.name ∧
      New.insts = orig.insts ∧ New.termId = orig.termId ∧ New.term = orig.term ∧
      (∀ b blk, st.F.blocks[b]? = some blk →
        ∃ phis1, st1.F.blocks[b]? = some
            { blk with
                phis := phis1
                term := if b = target then
                    (replaceSuccessorTerm blk.term Succ st.F.blocks.length).2
                  else blk.term } ∧
          PhisExt blk.phis phis1 ∧
          ((L.contains b = true ∨ F0.blocks.length ≤ b) → phis1 = blk.phis)) ∧
      vmFind st1.LastValueMap (Value.block L.header) = some (Value.block st.F.blocks.length) ∧
      (∀ c, c ≠ L.header →
        vmFind st1.LastValueMap (Value.block c) = vmFind st.LastValueMap (Value.block c)) := by
  obtain ⟨tail, hrpo⟩ := ctx.rpo_head
  have hHrpo : L.header ∈ L.rpo := by rw [hrpo]; simp
  have hcur : st.F.blocks[L.header]? = some orig := by
    rw [inv.loop_same _ (ctx.rpo_loop _ hHrpo)]; exact horig
  have hlen := inv.len_ge
  obtain ⟨hnd, hphis⟩ := ctx.hdr_phis orig horig
  -- the PHI nodes of the clone
  obtain ⟨New, VMap1, LVM1, hres, hn1, hn2, hn3, hn4, hkeys1, hlvm1⟩ :=
    resolveHeaderPHIs_ok L It PreHeader LatchBlock st.F.blocks.length
      (orig.phis.map fun p => p.id)
      (CloneBasicBlock orig L.header st.F.blocks.length ("." ++ toString It)).1
      (CloneBasicBlock orig L.header st.F.blocks.length ("." ++ toString It)).2
      st.LastValueMap hnd
      (fun k hk => vmFind_clone_phis _ _ k orig.phis _ hk)
      (fun k hk => by
        obtain ⟨p, hp, hpm⟩ := find?_of_mem_ids orig.phis k hk
        exact ⟨p, hp, hphis p hpm⟩)
      (vmFind_block_of_inst_keys _ (CloneBasicBlock_keys orig L.header _ _))
  obtain ⟨blkT, hT⟩ : ∃ blkT, st.F.blocks[target]? = some blkT :=
    ⟨_, List.getElem?_eq_getElem htl⟩
  -- the function after the clone has been stored and the branch redirected
  let F2 : Function := setBlock
    { blocks := st.F.blocks ++
        [(CloneBasicBlock orig L.header st.F.blocks.length ("." ++ toString It)).1] }
    st.F.blocks.length New
  have hF2len : F2.blocks.length = st.F.blocks.length + 1 := by
    simp [F2, setBlock_length]
  have hF2old : ∀ b, b < st.F.blocks.length → F2.blocks[b]? = st.F.blocks[b]? := by
    intro b hb
    simp only [F2]
    rw [setBlock_getElem?_ne _ _ _ _ (by omega)]
    exact List.getElem?_append_left hb
  have hF2new : F2.blocks[st.F.blocks.length]? = some New := by
    simp only [F2]
    exact setBlock_getElem?_self _ _ _ (by simp)
  let F2r : Function := setBlock F2 target
    { blkT with term := (replaceSuccessorTerm blkT.term Succ st.F.blocks.length).2 }
  have hRS : ReplaceSuccessor F2 target Succ st.F.blocks.length =
      Except.ok ((replaceSuccessorTerm blkT.term Succ st.F.blocks.length).1, F2r) :=
    ReplaceSuccessor_ok F2 target Succ _ blkT (by rw [hF2old target htl]; exact hT)
  have hF2rlen : F2r.blocks.length = st.F.blocks.length + 1 := by
    simp only [F2r, setBlock_length, hF2len]
  have hF2rold : ∀ (b : Nat) (blk : BasicBlock), st.F.blocks[b]? = some blk →
      F2r.blocks[b]? = some
        { blk with term := if b = target then
            (replaceSuccessorTerm blk.term Succ st.F.blocks.length).2 else blk.term } := by
    intro b blk hb
    have hblt := lt_of_getElem?_eq_some hb
    by_cases hbt : b = target
    · subst hbt
      have : blk = blkT := by rw [hT] at hb; cases hb; rfl
      subst this
      simp only [F2r, ↓reduceIte]
      exact setBlock_getElem?_self _ _ _ (by rw [hF2len]; omega)
    · simp only [F2r, hbt, ↓reduceIte]
      rw [setBlock_getElem?_ne _ _ _ _ (Ne.symm hbt), hF2old b hblt]
      exact hb
  have hF2rnew : F2r.blocks[st.F.blocks.length]? = some New := by
    simp only [F2r]
    rw [setBlock_getElem?_ne _ _ _ _ (by omega)]
    exact hF2new
  have hkeep : KeepsPhis F0 F2r := by
    intro b blk hb
    obtain ⟨blk1, h1, h2⟩ := inv.phis_ext b blk hb
    exact ⟨_, hF2rold b blk1 h1, h2⟩
  -- the map after the header step
  obtain ⟨LVM2, hhdr, hlvm2⟩ : ∃ LVM2,
      (if It = 1 then
        match ReplaceSuccessor F2 PreHeader L.header st.F.blocks.length with
        | Except.error e => Except.error e
        | Except.ok r => Except.ok (r.2, VMap1, LVM1)
      else
        match castBasicBlock (vmIndex LVM1 (Value.block L.header)).1 with
        | Except.error e => Except.error e
        | Except.ok PrevHeader =>
          match castBasicBlock
              (vmIndex (vmIndex LVM1 (Value.block L.header)).2 (Value.block LatchBlock)).1 with
          | Except.error e => Except.error e
          | Except.ok PrevLatch =>
            match ReplaceSuccessor F2 PrevLatch PrevHeader st.F.blocks.length with
            | Except.error e => Except.error e
            | Except.ok r =>
              Except.ok (r.2, VMap1,
                (vmIndex (vmIndex LVM1 (Value.block L.header)).2 (Value.block LatchBlock)).2) :
          Except Fault (Function × ValueToValueMapTy × ValueToValueMapTy)) =
        Except.ok (F2r, VMap1, LVM2) ∧
      ∀ c, vmFind LVM2 (Value.block c) = vmFind st.LastValueMap (Value.block c) := by
    rcases hIt with ⟨h1, h2, h3⟩ | ⟨h1, h2, h3⟩
    · subst h2 h3
      exact ⟨LVM1, by simp only [h1, ↓reduceIte, hRS], hlvm1⟩
    · have e1 : vmIndex LVM1 (Value.block L.header) = (Value.block Succ, LVM1) :=
        vmIndex_of_find (by rw [hlvm1]; exact h2)
      have e2 : vmIndex LVM1 (Value.block LatchBlock) = (Value.block target, LVM1) :=
        vmIndex_of_find (by rw [hlvm1]; exact h3)
      exact ⟨LVM1, by simp only [h1, ↓reduceIte, e1, e2, castBasicBlock, hRS], hlvm1⟩
  obtain ⟨F3, hF3, hlen3, hblk3⟩ :=
    addExitPHIEntries_ok L L.header st.F.blocks.length
      (VMap1 ++ vmSet LVM2 (Value.block L.header) (Value.block st.F.blocks.length))
      (successors orig.term) F2r
      (exits_premise ctx _ L.header orig horig hkeep)
  have hnotsucc : ∀ b, F0.blocks.length ≤ b → b ∉ successors orig.term := by
    intro b hb hmem
    have := ctx.succ_lt L.header orig horig b hmem
    omega
  refine ⟨{ F := F3
            LastValueMap :=
              VMap1 ++ vmSet LVM2 (Value.block L.header) (Value.block st.F.blocks.length) },
    New, ?_, ?_, ?_, hn1, hn2, hn3, hn4, ?_, ?_, ?_⟩
  · unfold cloneBlock
    simp only [getBlock_eq_ok.mpr hcur, ↓reduceIte, hres]
    rw [hhdr]
    simp only [hF3]
  · rw [hlen3, hF2rlen]
  · obtain ⟨phis1, h1, _, h3⟩ := hblk3 st.F.blocks.length New hF2rnew
    rw [h1, h3 (Or.inr (hnotsucc _ hlen))]
  · intro b blk hb
    obtain ⟨phis1, h1, h2, h3⟩ := hblk3 b _ (hF2rold b blk hb)
    refine ⟨phis1, h1, h2, ?_⟩
    rintro (hc | hge)
    · exact h3 (Or.inl hc)
    · exact h3 (Or.inr (hnotsucc b hge))
  · simp only [vmFind_append, hkeys1, vmFind_vmSet]
    simp
  · intro c hc
    simp only [vmFind_append, hkeys1, vmFind_vmSet]
    have : Value.block L.header ≠ Value.block c := fun h => hc (by cases h; rfl)
    simp [this, hlvm2]


/-! ## The blocks of one round -/

theorem BasicBlock_with_phis_self (blk : BasicBlock) : { blk with phis := blk.phis } = blk := by
  cases blk; rfl

theorem not_contains_of_ge {F0 : Function} {L : Loop} {PreHeader LatchBlock : Nat}
    (ctx : UnrollCtx F0 L PreHeader LatchBlock) (b : Nat) (h : F0.blocks.length ≤ b) :
    L.contains b = false := by
  cases hc : L.contains b with
  | false => rfl
  | true => have := ctx.loop_lt b hc; omega

theorem StepInv_step {F0 : Function} {L : Loop} {PreHeader LatchBlock : Nat}
    (ctx : UnrollCtx F0 L PreHeader LatchBlock) {st st1 : UnrollState}
    (inv : StepInv F0 L st) (T : Nat → Terminator → Terminator)
    (hlen : st.F.blocks.length ≤ st1.F.blocks.length)
    (hold : ∀ (b : Nat) (blk : BasicBlock), st.F.blocks[b]? = some blk →
      ∃ phis1, st1.F.blocks[b]? = some { blk with phis := phis1, term := T b blk.term } ∧
        PhisExt blk.phis phis1 ∧
        ((L.contains b = true ∨ F0.blocks.length ≤ b) → phis1 = blk.phis))
    (hT : ∀ b t, L.contains b = true → T b t = t) : StepInv F0 L st1 := by
  refine ⟨le_trans inv.len_ge hlen, ?_, ?_⟩
  · intro b hb
    rw [← inv.loop_same b hb]
    have hblt : b < st.F.blocks.length := lt_of_lt_of_le (ctx.loop_lt b hb) inv.len_ge
    obtain ⟨phis1, h1, _, h3⟩ := hold b _ (List.getElem?_eq_getElem hblt)
    rw [h1, h3 (Or.inl hb), hT b _ hb, List.getElem?_eq_getElem hblt]
  · intro b blk hb
    obtain ⟨blk1, h1, h2⟩ := inv.phis_ext b blk hb
    obtain ⟨phis1, h3, h4, _⟩ := hold b blk1 h1
    exact ⟨_, h3, PhisExt_trans h2 h4⟩

theorem exists_orig {F0 : Function} {L : Loop} {PreHeader LatchBlock : Nat}
    (ctx : UnrollCtx F0 L PreHeader LatchBlock) (BB : Nat) (h : BB ∈ L.rpo) :
    ∃ orig, F0.blocks[BB]? = some orig :=
  ⟨_, List.getElem?_eq_getElem (ctx.loop_lt BB (ctx.rpo_loop BB h))⟩

theorem cloneBlocks_others {F0 : Function} {L : Loop} {PreHeader LatchBlock : Nat}
    (ctx : UnrollCtx F0 L PreHeader LatchBlock) (Orig : List Nat) (It : Nat)
    (bs : List Nat) (hbs : ∀ b, b ∈ bs → b ∈ L.rpo ∧ b ≠ L.header) (hnd : bs.Nodup)
    (st : UnrollState) (inv : StepInv F0 L st) :
    ∃ st1, cloneBlocks L PreHeader LatchBlock Orig It bs st = Except.ok st1 ∧
      StepInv F0 L st1 ∧
      st1.F.blocks.length = st.F.blocks.length + bs.length ∧
      (∀ (j BB : Nat) (orig : BasicBlock), bs[j]? = some BB → F0.blocks[BB]? = some orig →
        st1.F.blocks[st.F.blocks.length + j]? =
          some (CloneBasicBlock orig BB (st.F.blocks.length + j) ("." ++ toString It)).1) ∧
      (∀ (b : Nat) (blk : BasicBlock), st.F.blocks[b]? = some blk →
        ∃ phis1, st1.F.blocks[b]? = some { blk with phis := phis1 } ∧ PhisExt blk.phis phis1 ∧
          ((L.contains b = true ∨ F0.blocks.length ≤ b) → phis1 = blk.phis)) ∧
      (∀ (j BB : Nat), bs[j]? = some BB →
        vmFind st1.LastValueMap (Value.block BB) =
          some (Value.block (st.F.blocks.length + j))) ∧
      (∀ c, c ∉ bs →
        vmFind st1.LastValueMap (Value.block c) = vmFind st.LastValueMap (Value.block c)) := by
  induction bs generalizing st with
  | nil =>
    refine ⟨st, rfl, inv, rfl, ?_, ?_, ?_, fun _ _ => rfl⟩
    · intro j BB orig h; simp at h
    · intro b blk hb
      exact ⟨blk.phis, by rw [BasicBlock_with_phis_self]; exact hb, PhisExt_refl _, fun _ => rfl⟩
    · intro j BB h; simp at h
  | cons BB rest ih =>
    obtain ⟨hBB, hne⟩ := hbs BB (by simp)
    obtain ⟨orig, horig⟩ := exists_orig ctx BB hBB
    obtain ⟨st1, hst1, hlen1, hnew1, hold1, hlvm1, hlvmo1⟩ :=
      cloneBlock_other ctx Orig It st inv BB hBB hne orig horig
    have inv1 : StepInv F0 L st1 :=
      StepInv_step ctx inv (fun _ t => t) (by omega) hold1 (fun _ _ _ => rfl)
    obtain ⟨st2, hst2, inv2, hlen2, hnew2, hold2, hlvm2, hlvmo2⟩ :=
      ih (fun b hb => hbs b (List.mem_cons_of_mem _ hb)) (List.nodup_cons.mp hnd).2 st1 inv1
    have hBBrest : BB ∉ rest := (List.nodup_cons.mp hnd).1
    refine ⟨st2, ?_, inv2, ?_, ?_, ?_, ?_, ?_⟩
    · simp [cloneBlocks, hst1, hst2]
    · rw [hlen2, hlen1]; simp; omega
    · intro j B o hj ho
      cases j with
      | zero =>
        simp at hj
        subst hj
        have : o = orig := by rw [horig] at ho; cases ho; rfl
        subst this
        obtain ⟨phis1, h1, _, h3⟩ := hold2 _ _ hnew1
        rw [Nat.add_zero, h1, h3 (Or.inr inv.len_ge), BasicBlock_with_phis_self]
      | succ j =>
        have hj1 : rest[j]? = some B := by simpa using hj
        have := hnew2 j B o hj1 ho
        rw [hlen1] at this
        have e : st.F.blocks.length + (j + 1) = st.F.blocks.length + 1 + j := by omega
        rw [e]; exact this
    · intro b blk hb
      obtain ⟨phis1, h1, h2, h3⟩ := hold1 b blk hb
      obtain ⟨phis2, h4, h5, h6⟩ := hold2 b _ h1
      refine ⟨phis2, h4, PhisExt_trans h2 h5, fun hc => ?_⟩
      rw [h6 hc]
      exact h3 hc
    · intro j B hj
      cases j with
      | zero =>
        simp at hj
        subst hj
        rw [hlvmo2 BB hBBrest, hlvm1]
        rfl
      | succ j =>
        have hj1 : rest[j]? = some B := by simpa using hj
        have := hlvm2 j B hj1
        rw [hlen1] at this
        have e : st.F.blocks.length + (j + 1) = st.F.blocks.length + 1 + j := by omega
        rw [e]; exact this
    · intro c hc
      have hc1 : c ≠ BB := fun h => hc (by rw [h]; simp)
      have hc2 : c ∉ rest := fun h => hc (List.mem_cons_of_mem _ h)
      rw [hlvmo2 c hc2, hlvmo1 c hc1]

/-! ## One round -/

theorem remapNewBlocks_spec (m : ValueToValueMapTy) (idxs : List Nat) (hnd : idxs.Nodup)
    (F : Function) :
    (remapNewBlocks m idxs F).blocks.length = F.blocks.length ∧
    ∀ b, (remapNewBlocks m idxs F).blocks[b]? =
      if b ∈ idxs then (F.blocks[b]?).map (remapBasicBlock m) else F.blocks[b]? := by
  induction idxs generalizing F with
  | nil => simp [remapNewBlocks]
  | cons nb rest ih =>
    have hnb : nb ∉ rest := (List.nodup_cons.mp hnd).1
    have hnd1 := (List.nodup_cons.mp hnd).2
    cases hF : F.blocks[nb]? with
    | none =>
      obtain ⟨h1, h2⟩ := ih hnd1 F
      refine ⟨by simp [remapNewBlocks, hF, h1], fun b => ?_⟩
      simp only [remapNewBlocks, hF, h2, List.mem_cons]
      by_cases hb : b = nb
      · subst hb; simp [hnb, hF]
      · simp [hb]
    | some blk =>
      obtain ⟨h1, h2⟩ := ih hnd1 (setBlock F nb (remapBasicBlock m blk))
      refine ⟨by simp [remapNewBlocks, hF, h1, setBlock_length], fun b => ?_⟩
      simp only [remapNewBlocks, hF, h2, List.mem_cons]
      by_cases hb : b = nb
      · subst hb
        simp [hnb, hF, setBlock_getElem?_self F b _ (lt_of_getElem?_eq_some hF)]
      · simp [hb, setBlock_getElem?_ne F nb b _ (Ne.symm hb)]

theorem indexOf_of_getElem? {l : List Nat} (hnd : l.Nodup) {j BB : Nat}
    (h : l[j]? = some BB) : l.indexOf BB = j := by
  have hj : j < l.length := by
    by_contra hn
    rw [List.getElem?_eq_none (by omega)] at h
    cases h
  rw [List.getElem?_eq_getElem hj] at h
  cases h
  exact List.indexOf_getElem hnd j hj

theorem termOf_eq_some {F : Function} {b : Nat} {t : Terminator} :
    termOf F b = some t ↔ ∃ blk, F.blocks[b]? = some blk ∧ blk.term = t := by
  unfold termOf
  cases F.blocks[b]? <;> simp

theorem replaceSuccessorTerm_br (d Repl : Nat) :
    (replaceSuccessorTerm (Terminator.br d) d Repl).2 = Terminator.br Repl := by
  simp [replaceSuccessorTerm]

theorem remapTerm_br (m : ValueToValueMapTy) (d c : Nat)
    (h : vmFind m (Value.block d) = some (Value.block c)) :
    remapTerm m (Terminator.br d) = Terminator.br c := by
  simp [remapTerm, remapBlock, h]

theorem isCloneOf_congr {orig c d : BasicBlock} {It : Nat} (h : isCloneOf orig It c)
    (h1 : d.name = c.name) (h2 : (d.insts.map fun i => i.id) = (c.insts.map fun i => i.id))
    (h3 : d.termId = c.termId) : isCloneOf orig It d := by
  obtain ⟨a1, a2, a3⟩ := h
  exact ⟨h1.trans a1, h2.trans a2, h3.trans a3⟩

theorem remapBasicBlock_ids (m : ValueToValueMapTy) (c : BasicBlock) :
    (remapBasicBlock m c).name = c.name ∧
    ((remapBasicBlock m c).insts.map fun i => i.id) = (c.insts.map fun i => i.id) ∧
    (remapBasicBlock m c).termId = c.termId ∧
    (remapBasicBlock m c).term = remapTerm m c.term := by
  refine ⟨rfl, ?_, rfl, rfl⟩
  simp [remapBasicBlock, remapInst, List.map_map, Function.comp_def]

theorem slot_arith (m i k : Nat) (hi : 1 ≤ i) (hik : i ≤ k) :
    (i - 1) * m + m ≤ k * m ∧ (k + 1 - 1) * m = k * m := by
  refine ⟨?_, by simp⟩
  have h1 : (i - 1) * m + m = i * m := by
    cases i with
    | zero => omega
    | succ i => simp [Nat.succ_mul]
  rw [h1]
  exact Nat.mul_le_mul_right m hik

theorem unrollRound_ok {F0 : Function} {L : Loop} {PreHeader LatchBlock : Nat}
    (ctx : UnrollCtx F0 L PreHeader LatchBlock)
    (orig : BasicBlock) (horig : F0.blocks[L.header]? = some orig)
    (k : Nat) (st : UnrollState) (rinv : RoundInv F0 L PreHeader LatchBlock k st) :
    ∃ st1,
      unrollRound L PreHeader LatchBlock (orig.phis.map fun p => p.id) (k + 1) st =
        Except.ok st1 ∧
      RoundInv F0 L PreHeader LatchBlock (k + 1) st1 := by
  obtain ⟨tail, hrpo⟩ := ctx.rpo_head
  have hnd : (L.header :: tail).Nodup := hrpo ▸ ctx.rpo_nodup
  have hm : L.rpo.length = tail.length + 1 := by rw [hrpo]; rfl
  have hidxH : L.rpo.indexOf L.header = 0 := by rw [hrpo]; exact List.indexOf_cons_self _ _
  have hH0 : L.rpo[0]? = some L.header := by rw [hrpo]; simp
  have hjl : L.rpo[L.rpo.indexOf LatchBlock]? = some LatchBlock :=
    List.getElem?_indexOf ctx.latch_rpo
  have hjlt : L.rpo.indexOf LatchBlock < L.rpo.length :=
    List.indexOf_lt_length.mpr ctx.latch_rpo
  have hlen := rinv.len
  have hn0 := rinv.step.len_ge
  -- the branch that the header step redirects
  obtain ⟨target, Succ, htl, hto, hIt, hk0, hk1⟩ : ∃ target Succ,
      target < st.F.blocks.length ∧ L.contains target = false ∧
      ((k + 1 = 1 ∧ target = PreHeader ∧ Succ = L.header) ∨
        (k + 1 ≠ 1 ∧
          vmFind st.LastValueMap (Value.block L.header) = some (Value.block Succ) ∧
          vmFind st.LastValueMap (Value.block LatchBlock) = some (Value.block target))) ∧
      (k = 0 → target = PreHeader ∧ Succ = L.header) ∧
      (1 ≤ k → target = cloneIndex F0 L k LatchBlock ∧ Succ = cloneIndex F0 L k L.header) := by
    cases k with
    | zero =>
      exact ⟨PreHeader, L.header, lt_of_lt_of_le ctx.pre_lt hn0, ctx.pre_out,
        Or.inl ⟨rfl, rfl, rfl⟩, fun _ => ⟨rfl, rfl⟩, fun h => by omega⟩
    | succ k =>
      refine ⟨cloneIndex F0 L (k + 1) LatchBlock, cloneIndex F0 L (k + 1) L.header, ?_,
        not_contains_of_ge ctx _ (by simp [cloneIndex]; omega), Or.inr ⟨by omega, ?_, ?_⟩,
        fun h => by omega, fun _ => ⟨rfl, rfl⟩⟩
      · rw [hlen]
        simp only [cloneIndex, Nat.add_sub_cancel, Nat.succ_mul]
        omega
      · have := rinv.lvm (by omega) 0 L.header hH0
        simpa [cloneIndex, hidxH] using this
      · have := rinv.lvm (by omega) _ LatchBlock hjl
        simpa [cloneIndex] using this
  -- the header
  obtain ⟨sth, New, hsth, hlenh, hnewh, hNn, hNi, hNt, hNterm, holdh, hlvmH, hlvmoh⟩ :=
    cloneBlock_header ctx (k + 1) st rinv.step orig horig target Succ htl hIt
  have hT : ∀ (b : Nat) (t : Terminator), L.contains b = true →
      (if b = target then (replaceSuccessorTerm t Succ st.F.blocks.length).2 else t) = t := by
    intro b t hb
    have : b ≠ target := fun h => by rw [h, hto] at hb; cases hb
    simp [this]
  have invh : StepInv F0 L sth :=
    StepInv_step ctx rinv.step
      (fun b t => if b = target then (replaceSuccessorTerm t Succ st.F.blocks.length).2 else t)
      (by omega) holdh hT
  -- the other blocks
  have hbs : ∀ b, b ∈ tail → b ∈ L.rpo ∧ b ≠ L.header := by
    intro b hb
    refine ⟨by rw [hrpo]; exact List.mem_cons_of_mem _ hb, fun h => ?_⟩
    exact (List.nodup_cons.mp hnd).1 (h ▸ hb)
  obtain ⟨stt, hstt, invt, hlent, hnewt, holdt, hlvmt, hlvmot⟩ :=
    cloneBlocks_others ctx (orig.phis.map fun p => p.id) (k + 1) tail hbs
      (List.nodup_cons.mp hnd).2 sth invh
  have hcb : cloneBlocks L PreHeader LatchBlock (orig.phis.map fun p => p.id) (k + 1) L.rpo st =
      Except.ok stt := by
    rw [hrpo]
    simp only [cloneBlocks, hsth, hstt]
  have hcnt : stt.F.blocks.length - st.F.blocks.length = L.rpo.length := by
    rw [hlent, hlenh, hm]; omega
  obtain ⟨hrl, hrb⟩ := remapNewBlocks_spec stt.LastValueMap
    (List.range' st.F.blocks.length L.rpo.length) (List.nodup_range' _ _) stt.F
  -- the blocks that were there before the round
  have hA : ∀ (b : Nat) (blk : BasicBlock), st.F.blocks[b]? = some blk →
      ∃ phis1, (remapNewBlocks stt.LastValueMap
          (List.range' st.F.blocks.length L.rpo.length) stt.F).blocks[b]? =
          some { blk with
                  phis := phis1
                  term := if b = target then
                      (replaceSuccessorTerm blk.term Succ st.F.blocks.length).2
                    else blk.term } ∧
        PhisExt blk.phis phis1 ∧
        ((L.contains b = true ∨ F0.blocks.length ≤ b) → phis1 = blk.phis) := by
    intro b blk hb
    have hblt := lt_of_getElem?_eq_some hb
    obtain ⟨phis1, h1, h2, h3⟩ := holdh b blk hb
    obtain ⟨phis2, h4, h5, h6⟩ := holdt b _ h1
    refine ⟨phis2, ?_, PhisExt_trans h2 h5, fun hc => ?_⟩
    · rw [hrb b]
      have : b ∉ List.range' st.F.blocks.length L.rpo.length := by
        simp only [List.mem_range'_1]; omega
      simp only [this, ↓reduceIte]
      exact h4
    · rw [h6 hc]; exact h3 hc
  -- the blocks of this round
  have hB : ∀ (j BB : Nat) (o : BasicBlock), L.rpo[j]? = some BB → F0.blocks[BB]? = some o →
      ∃ c : BasicBlock,
        (remapNewBlocks stt.LastValueMap
          (List.range' st.F.blocks.length L.rpo.length) stt.F).blocks[st.F.blocks.length + j]? =
          some (remapBasicBlock stt.LastValueMap c) ∧
        c.name = (if o.name = "" then "" else o.name ++ ("." ++ toString (k + 1))) ∧
        c.insts = o.insts ∧ c.termId = o.termId ∧ c.term = o.term := by
    intro j BB o hj ho
    have hjm : j < L.rpo.length := by
      by_contra hn
      rw [List.getElem?_eq_none (by omega)] at hj
      cases hj
    have hmem : st.F.blocks.length + j ∈ List.range' st.F.blocks.length L.rpo.length := by
      simp only [List.mem_range'_1]; omega
    rw [hrb _]
    simp only [hmem, ↓reduceIte]
    rw [hrpo] at hj
    cases j with
    | zero =>
      simp at hj
      subst hj
      have : o = orig := by rw [horig] at ho; cases ho; rfl
      subst this
      obtain ⟨phis1, h1, _, h3⟩ := holdt _ _ hnewh
      rw [h3 (Or.inr hn0), BasicBlock_with_phis_self] at h1
      refine ⟨New, by rw [Nat.add_zero, h1]; rfl, ?_, hNi, hNt, hNterm⟩
      rw [hNn]; rfl
    | succ j =>
      have hj1 : tail[j]? = some BB := by simpa using hj
      have h1 := hnewt j BB o hj1 ho
      rw [hlenh] at h1
      have e : st.F.blocks.length + (j + 1) = st.F.blocks.length + 1 + j := by omega
      exact ⟨(CloneBasicBlock o BB (st.F.blocks.length + 1 + j) ("." ++ toString (k + 1))).1,
        by rw [e, h1]; rfl, rfl, rfl, rfl, rfl⟩
  -- the map at the end of the round
  have hC : ∀ (j BB : Nat), L.rpo[j]? = some BB →
      vmFind stt.LastValueMap (Value.block BB) = some (Value.block (st.F.blocks.length + j)) := by
    intro j BB hj
    rw [hrpo] at hj
    cases j with
    | zero =>
      simp at hj
      subst hj
      rw [hlvmot _ (List.nodup_cons.mp hnd).1, hlvmH]
      rfl
    | succ j =>
      have hj1 : tail[j]? = some BB := by simpa using hj
      have h1 := hlvmt j BB hj1
      rw [hlenh] at h1
      have e : st.F.blocks.length + (j + 1) = st.F.blocks.length + 1 + j := by omega
      rw [e]; exact h1
  refine ⟨{ F := (remapNewBlocks stt.LastValueMap
              (List.range' st.F.blocks.length L.rpo.length) stt.F)
            LastValueMap := stt.LastValueMap }, ?_, ?_⟩
  · unfold unrollRound
    simp only [hcb, hcnt]
  · have hpl := ctx.pre_lt
    refine ⟨?_, ?_, ?_, ?_, ?_, ?_, ?_⟩
    · exact StepInv_step ctx rinv.step
        (fun b t => if b = target then (replaceSuccessorTerm t Succ st.F.blocks.length).2 else t)
        (by simp only [hrl, hlent, hlenh]; omega) hA hT
    · show (remapNewBlocks stt.LastValueMap
          (List.range' st.F.blocks.length L.rpo.length) stt.F).blocks.length = _
      rw [hrl, hlent, hlenh, hlen, Nat.succ_mul, hm]
      omega
    · obtain ⟨t0, ht0⟩ : ∃ t0, termOf F0 PreHeader = some t0 :=
        ⟨_, termOf_eq_some.mpr ⟨_, List.getElem?_eq_getElem hpl, rfl⟩⟩
      have hpt := rinv.pre_term
      rw [ht0] at hpt ⊢
      simp only [Option.map_some'] at hpt ⊢
      obtain ⟨blk, hb, hbt⟩ := termOf_eq_some.mp hpt
      obtain ⟨phis1, h1, _, _⟩ := hA PreHeader blk hb
      rw [termOf_eq_some]
      refine ⟨_, h1, ?_⟩
      simp only [hbt]
      cases k with
      | zero =>
        obtain ⟨e1, e2⟩ := hk0 rfl
        subst e1 e2
        simp [hlen]
      | succ k =>
        obtain ⟨e1, _⟩ := hk1 (by omega)
        have : PreHeader ≠ target := by
          rw [e1]; simp only [cloneIndex]; omega
        simp [this]
    · intro _ j BB hj
      rw [hC j BB hj, hlen]
      simp
    · intro i hi hik
      by_cases hlt : i < k
      · obtain ⟨blk, hb, hbt⟩ := termOf_eq_some.mp (rinv.chain i hi hlt)
        obtain ⟨phis1, h1, _, _⟩ := hA _ blk hb
        rw [termOf_eq_some]
        refine ⟨_, h1, ?_⟩
        obtain ⟨e1, _⟩ := hk1 (by omega)
        have hs := (slot_arith L.rpo.length (i + 1) k (by omega) (by omega)).1
        have hs2 := (slot_arith L.rpo.length k k (by omega) (by omega)).1
        have : cloneIndex F0 L i LatchBlock ≠ target := by
          rw [e1]; simp only [cloneIndex, Nat.add_sub_cancel] at hs ⊢
          have h3 : (i - 1) * L.rpo.length + L.rpo.length ≤ (k - 1) * L.rpo.length := by
            have := (slot_arith L.rpo.length i (k - 1) hi (by omega)).1
            exact this
          omega
        simp only [this, ↓reduceIte]
        exact hbt
      · have hik' : i = k := by omega
        subst hik'
        obtain ⟨blk, hb, hbt⟩ := termOf_eq_some.mp (rinv.last hi)
        obtain ⟨phis1, h1, _, _⟩ := hA _ blk hb
        rw [termOf_eq_some]
        refine ⟨_, h1, ?_⟩
        obtain ⟨e1, e2⟩ := hk1 hi
        simp only [← e1, ↓reduceIte, hbt, ← e2, replaceSuccessorTerm_br]
        simp [cloneIndex, hidxH, hlen]
    · intro _
      obtain ⟨lblk, hl, hlt⟩ := ctx.latch_term
      obtain ⟨c, h1, _, _, _, h5⟩ := hB _ LatchBlock lblk hjl hl
      rw [termOf_eq_some]
      refine ⟨remapBasicBlock stt.LastValueMap c, ?_, ?_⟩
      · have e : cloneIndex F0 L (k + 1) LatchBlock =
            st.F.blocks.length + L.rpo.indexOf LatchBlock := by
          simp [cloneIndex, hlen]
        rw [e]; exact h1
      · rw [(remapBasicBlock_ids _ _).2.2.2, h5, hlt]
        rw [remapTerm_br _ _ _ (hC 0 L.header hH0)]
        simp [cloneIndex, hidxH, hlen]
    · intro i j BB o hi hik hj ho
      have hjm : j < L.rpo.length := by
        by_contra hn
        rw [List.getElem?_eq_none (by omega)] at hj
        cases hj
      by_cases hle : i ≤ k
      · obtain ⟨c, hc, hcl⟩ := rinv.clones i j BB o hi hle hj ho
        obtain ⟨phis1, h1, _, _⟩ := hA _ c hc
        exact ⟨_, h1, isCloneOf_congr hcl rfl rfl rfl⟩
      · have hik' : i = k + 1 := by omega
        subst hik'
        obtain ⟨c, h1, h2, h3, h4, _⟩ := hB j BB o hj ho
        refine ⟨remapBasicBlock stt.LastValueMap c, ?_, ?_⟩
        · have e : F0.blocks.length + (k + 1 - 1) * L.rpo.length + j =
              st.F.blocks.length + j := by
            simp [hlen]
          rw [e]; exact h1
        · obtain ⟨r1, r2, r3, _⟩ := remapBasicBlock_ids stt.LastValueMap c
          exact ⟨r1.trans h2, r2.trans (by rw [h3]), r3.trans h4⟩

/-! ## All rounds, and the final splice -/

theorem RoundInv_init {F0 : Function} {L : Loop} {PreHeader LatchBlock : Nat}
    (_ctx : UnrollCtx F0 L PreHeader LatchBlock) :
    RoundInv F0 L PreHeader LatchBlock 0 { F := F0, LastValueMap := [] } := by
  refine ⟨⟨le_refl _, fun _ _ => rfl, fun b blk hb => ⟨blk, hb, PhisExt_refl _⟩⟩, by simp,
    by cases termOf F0 PreHeader <;> simp, fun h => by omega, fun i h1 h2 => by omega,
    fun h => by omega,
    fun i j BB o h1 h2 => by omega⟩

theorem unrollLoop_ok {F0 : Function} {L : Loop} {PreHeader LatchBlock : Nat}
    (ctx : UnrollCtx F0 L PreHeader LatchBlock)
    (orig : BasicBlock) (horig : F0.blocks[L.header]? = some orig)
    (N : Nat) (hN : N < 2 ^ 32) (d : Nat) :
    ∀ (k fuel : Nat) (st : UnrollState), k + 1 + d = N → d ≤ fuel →
      RoundInv F0 L PreHeader LatchBlock k st →
      ∃ st1,
        unrollLoop (unrollRound L PreHeader LatchBlock (orig.phis.map fun p => p.id)) N fuel
          (k + 1) st = Except.ok st1 ∧
        RoundInv F0 L PreHeader LatchBlock (N - 1) st1 := by
  induction d with
  | zero =>
    intro k fuel st hk _ rinv
    have : N - 1 = k := by omega
    rw [this]
    have hk1 : k + 1 = N := by omega
    rw [hk1]
    exact ⟨st, unrollLoop_done _ _ _ _, rinv⟩
  | succ d ih =>
    intro k fuel st hk hfuel rinv
    obtain ⟨st1, hst1, rinv1⟩ := unrollRound_ok ctx orig horig k st rinv
    cases fuel with
    | zero => omega
    | succ fuel =>
      have hne : k + 1 ≠ N := by omega
      have hmod : (k + 1 + 1) % 2 ^ 32 = k + 1 + 1 := Nat.mod_eq_of_lt (by omega)
      obtain ⟨st2, hst2, rinv2⟩ := ih (k + 1) fuel st1 (by omega) (by omega) rinv1
      refine ⟨st2, ?_, rinv2⟩
      rw [unrollLoop]
      simp only [hne, ↓reduceIte, hst1, hmod]
      exact hst2

theorem removeIncoming_after_add (p : PHINode) (v : Value) (B X : Nat)
    (h : p.hasIncomingFor X = true) :
    ∃ phi, (p.addIncoming v B).removeIncomingValue X = Except.ok phi ∧ phi.id = p.id := by
  have h1 : (p.addIncoming v B).hasIncomingFor X = true :=
    hasIncomingFor_of_append p _ [(v, B)] X rfl h
  unfold PHINode.hasIncomingFor at h1
  unfold PHINode.removeIncomingValue
  cases hf : (p.addIncoming v B).incoming.find? fun e => decide (e.2 = X) with
  | some e => exact ⟨_, rfl, rfl⟩
  | none =>
    rw [List.find?_eq_none] at hf
    rw [List.any_eq_true] at h1
    obtain ⟨e, he, hd⟩ := h1
    exact absurd hd (hf e he)

theorem find?_map_replace (l : List PHINode) (k k1 : Nat) (phi : PHINode) (hphi : phi.id = k)
    (hne : k ≠ k1) :
    (l.map fun q => if q.id = k then phi else q).find? (fun p => decide (p.id = k1)) =
      l.find? fun p => decide (p.id = k1) := by
  induction l with
  | nil => rfl
  | cons q rest ih =>
    by_cases hq : q.id = k
    · have hq1 : ¬ q.id = k1 := fun h => hne (hq.symm.trans h)
      have hp1 : ¬ phi.id = k1 := fun h => hne (hphi.symm.trans h)
      have e : (if q.id = k then phi else q) = phi := if_pos hq
      rw [List.map_cons, e, List.find?_cons, List.find?_cons, ih]
      simp [hq1, hp1]
    · have e : (if q.id = k then phi else q) = q := if_neg hq
      rw [List.map_cons, e, List.find?_cons, List.find?_cons, ih]

theorem spliceHeaderPHIs_ok (L : Loop) (PreHeader LatchBlock : Nat) (ks : List Nat)
    (hnd : ks.Nodup) (st : UnrollState) (hdr : BasicBlock) (ll : Nat)
    (hh : st.F.blocks[L.header]? = some hdr)
    (hl : vmFind st.LastValueMap (Value.block LatchBlock) = some (Value.block ll))
    (hphi : ∀ k, k ∈ ks → ∃ p, hdr.phis.find? (fun p => decide (p.id = k)) = some p ∧
      p.hasIncomingFor PreHeader = true) :
    ∃ st1 hdr1, spliceHeaderPHIs L PreHeader LatchBlock ks st = Except.ok st1 ∧
      st1.F.blocks.length = st.F.blocks.length ∧
      st1.F.blocks[L.header]? = some hdr1 ∧ hdr1.term = hdr.term ∧
      (∀ b, b ≠ L.header → st1.F.blocks[b]? = st.F.blocks[b]?) ∧
      (∀ c, vmFind st1.LastValueMap (Value.block c) = vmFind st.LastValueMap (Value.block c)) := by
  induction ks generalizing st hdr with
  | nil => exact ⟨st, hdr, rfl, rfl, hh, rfl, fun _ _ => rfl, fun _ => rfl⟩
  | cons k rest ih =>
    obtain ⟨p, hp, hpre⟩ := hphi k (by simp)
    have hpid : p.id = k := by
      have := List.find?_some hp
      simpa using this
    obtain ⟨phi, hphi1, hphiid⟩ :=
      removeIncoming_after_add p (vmIndex st.LastValueMap (Value.inst L.header k)).1 ll
        PreHeader hpre
    have hlt := lt_of_getElem?_eq_some hh
    have hnotin : k ∉ rest := (List.nodup_cons.mp hnd).1
    have e1 : vmIndex st.LastValueMap (Value.block LatchBlock) = (Value.block ll, st.LastValueMap) :=
      vmIndex_of_find hl
    obtain ⟨st1, hdr1, hst1, hlen1, hh1, ht1, ho1, hv1⟩ :=
      ih (List.nodup_cons.mp hnd).2
        { F := setBlock st.F L.header
            { hdr with phis := hdr.phis.map fun q => if q.id = k then phi else q }
          LastValueMap := (vmIndex st.LastValueMap (Value.inst L.header k)).2 }
        { hdr with phis := hdr.phis.map fun q => if q.id = k then phi else q }
        (setBlock_getElem?_self _ _ _ hlt)
        (by rw [vmFind_vmIndex_ne _ _ _ (by simp)]; exact hl)
        (fun k1 hk1 => by
          have hne : k ≠ k1 := fun h => hnotin (h ▸ hk1)
          obtain ⟨q, hq, hqp⟩ := hphi k1 (List.mem_cons_of_mem _ hk1)
          refine ⟨q, ?_, hqp⟩
          simp only
          rw [find?_map_replace _ k k1 phi (hphiid.trans hpid) hne]
          exact hq)
    refine ⟨st1, hdr1, ?_, ?_, hh1, ht1, ?_, ?_⟩
    · rw [spliceHeaderPHIs]
      simp only [e1, castBasicBlock, getBlock_eq_ok.mpr hh, hp, hphi1]
      exact hst1
    · rw [hlen1]; simp [setBlock_length]
    · intro b hb
      rw [ho1 b hb]
      exact setBlock_getElem?_ne _ _ _ _ (Ne.symm hb)
    · intro c
      rw [hv1 c]
      exact vmFind_vmIndex_ne _ _ _ (by simp)

theorem header_ne_of_ge {F0 : Function} {L : Loop} {PreHeader LatchBlock : Nat}
    (ctx : UnrollCtx F0 L PreHeader LatchBlock) (b : Nat) (h : F0.blocks.length ≤ b) :
    b ≠ L.header := by
  obtain ⟨tail, hrpo⟩ := ctx.rpo_head
  have := ctx.loop_lt L.header (ctx.rpo_loop L.header (by rw [hrpo]; simp))
  omega

theorem unrollBody_ok {F0 : Function} {L : Loop} {PreHeader LatchBlock : Nat}
    (ctx : UnrollCtx F0 L PreHeader LatchBlock)
    (orig : BasicBlock) (horig : F0.blocks[L.header]? = some orig)
    (N : Nat) (hN2 : 2 ≤ N) (hN32 : N < 2 ^ 32) :
    ∃ G, unrollBody F0 L PreHeader LatchBlock orig N = Except.ok G ∧
      G.blocks.length = F0.blocks.length + (N - 1) * L.rpo.length ∧
      (∀ (i j BB : Nat) (o : BasicBlock), 1 ≤ i → i < N → L.rpo[j]? = some BB →
        F0.blocks[BB]? = some o →
        ∃ c : BasicBlock,
          G.blocks[F0.blocks.length + (i - 1) * L.rpo.length + j]? = some c ∧
          isCloneOf o i c) ∧
      termOf G PreHeader =
        ((termOf F0 PreHeader).map fun t =>
          (replaceSuccessorTerm t L.header F0.blocks.length).2) ∧
      (∀ i, 1 ≤ i → i < N - 1 →
        termOf G (cloneIndex F0 L i LatchBlock) =
          some (Terminator.br (cloneIndex F0 L (i + 1) L.header))) ∧
      termOf G (cloneIndex F0 L (N - 1) LatchBlock) = some (Terminator.br L.header) := by
  obtain ⟨tail, hrpo⟩ := ctx.rpo_head
  have hidxH : L.rpo.indexOf L.header = 0 := by rw [hrpo]; exact List.indexOf_cons_self _ _
  have hH0 : L.rpo[0]? = some L.header := by rw [hrpo]; simp
  have hHrpo : L.header ∈ L.rpo := by rw [hrpo]; simp
  have hjl : L.rpo[L.rpo.indexOf LatchBlock]? = some LatchBlock :=
    List.getElem?_indexOf ctx.latch_rpo
  have hjlt : L.rpo.indexOf LatchBlock < L.rpo.length :=
    List.indexOf_lt_length.mpr ctx.latch_rpo
  have hd : 0 + 1 + (N - 1) = N := by omega
  have hfuel : N - 1 ≤ 2 ^ 32 := Nat.le_of_lt (lt_of_le_of_lt (Nat.sub_le N 1) hN32)
  obtain ⟨st, hst, rinv⟩ :=
    unrollLoop_ok ctx orig horig N hN32 (N - 1) 0 (2 ^ 32)
      { F := F0, LastValueMap := [] } hd hfuel (RoundInv_init ctx)
  have hK : 1 ≤ N - 1 := by omega
  have hn0 := rinv.step.len_ge
  have hcur : st.F.blocks[L.header]? = some orig := by
    rw [rinv.step.loop_same _ (ctx.rpo_loop _ hHrpo)]; exact horig
  have hlH : vmFind st.LastValueMap (Value.block L.header) =
      some (Value.block (cloneIndex F0 L (N - 1) L.header)) := by
    have := rinv.lvm hK 0 L.header hH0
    simpa [cloneIndex, hidxH] using this
  have hlL : vmFind st.LastValueMap (Value.block LatchBlock) =
      some (Value.block (cloneIndex F0 L (N - 1) LatchBlock)) := by
    have := rinv.lvm hK _ LatchBlock hjl
    simpa [cloneIndex] using this
  obtain ⟨hnd, hphis⟩ := ctx.hdr_phis orig horig
  obtain ⟨st1, hdr1, hst1, hlen1, hh1, ht1, ho1, hv1⟩ :=
    spliceHeaderPHIs_ok L PreHeader LatchBlock (orig.phis.map fun p => p.id) hnd st orig _
      hcur hlL
      (fun k hk => by
        obtain ⟨p, hp, hpm⟩ := find?_of_mem_ids orig.phis k hk
        exact ⟨p, hp, (hphis p hpm).1⟩)
  have e1 : vmIndex st1.LastValueMap (Value.block L.header) =
      (Value.block (cloneIndex F0 L (N - 1) L.header), st1.LastValueMap) :=
    vmIndex_of_find (by rw [hv1]; exact hlH)
  have e2 : vmIndex st1.LastValueMap (Value.block LatchBlock) =
      (Value.block (cloneIndex F0 L (N - 1) LatchBlock), st1.LastValueMap) :=
    vmIndex_of_find (by rw [hv1]; exact hlL)
  have hLge : F0.blocks.length ≤ cloneIndex F0 L (N - 1) LatchBlock := by
    simp only [cloneIndex]; omega
  obtain ⟨lblk, hlb, hlbt⟩ := termOf_eq_some.mp (rinv.last hK)
  have hlb1 : st1.F.blocks[cloneIndex F0 L (N - 1) LatchBlock]? = some lblk := by
    rw [ho1 _ (header_ne_of_ge ctx _ hLge)]; exact hlb
  have hRS := ReplaceSuccessor_ok st1.F (cloneIndex F0 L (N - 1) LatchBlock)
    (cloneIndex F0 L (N - 1) L.header) L.header lblk hlb1
  rw [hlbt, replaceSuccessorTerm_br] at hRS
  have hLlt := lt_of_getElem?_eq_some hlb1
  -- the blocks of the result
  have hG : ∀ (b : Nat) (blk : BasicBlock), b ≠ L.header → st.F.blocks[b]? = some blk →
      ∃ blk1 : BasicBlock,
        (setBlock st1.F (cloneIndex F0 L (N - 1) LatchBlock)
          { lblk with term := Terminator.br L.header }).blocks[b]? = some blk1 ∧
        blk1.name = blk.name ∧ blk1.insts = blk.insts ∧ blk1.termId = blk.termId ∧
        (b ≠ cloneIndex F0 L (N - 1) LatchBlock → blk1.term = blk.term) := by
    intro b blk hb hblk
    by_cases hbl : b = cloneIndex F0 L (N - 1) LatchBlock
    · subst hbl
      have : blk = lblk := by rw [hlb] at hblk; cases hblk; rfl
      subst this
      exact ⟨_, setBlock_getElem?_self _ _ _ hLlt, rfl, rfl, rfl, fun h => absurd rfl h⟩
    · refine ⟨blk, ?_, rfl, rfl, rfl, fun _ => rfl⟩
      rw [setBlock_getElem?_ne _ _ _ _ (Ne.symm hbl), ho1 b hb]
      exact hblk
  refine ⟨setBlock st1.F (cloneIndex F0 L (N - 1) LatchBlock)
    { lblk with term := Terminator.br L.header }, ?_, ?_, ?_, ?_, ?_, ?_⟩
  · unfold unrollBody
    simp only [hst, hst1, e1, e2, castBasicBlock, hRS]
  · rw [setBlock_length, hlen1, rinv.len]
  · intro i j BB o hi hiN hj ho
    obtain ⟨c, hc, hcl⟩ := rinv.clones i j BB o hi (by omega) hj ho
    obtain ⟨c1, h1, h2, h3, h4, _⟩ := hG _ c (header_ne_of_ge ctx _ (by omega)) hc
    exact ⟨c1, h1, isCloneOf_congr hcl h2 (by rw [h3]) h4⟩
  · have hpl := ctx.pre_lt
    obtain ⟨t0, ht0⟩ : ∃ t0, termOf F0 PreHeader = some t0 :=
      ⟨_, termOf_eq_some.mpr ⟨_, List.getElem?_eq_getElem hpl, rfl⟩⟩
    have hpt := rinv.pre_term
    rw [ht0] at hpt ⊢
    simp only [Option.map_some'] at hpt ⊢
    obtain ⟨blk, hb, hbt⟩ := termOf_eq_some.mp hpt
    have hph : PreHeader ≠ L.header := by
      intro h
      have h1 := ctx.pre_out
      rw [h, ctx.rpo_loop _ hHrpo] at h1
      cases h1
    obtain ⟨blk1, h1, _, _, _, h5⟩ := hG PreHeader blk hph hb
    rw [termOf_eq_some]
    refine ⟨blk1, h1, ?_⟩
    rw [h5 (by omega), hbt]
    have : ¬ (N - 1 = 0) := by omega
    simp [this]
  · intro i hi hiN
    obtain ⟨blk, hb, hbt⟩ := termOf_eq_some.mp (rinv.chain i hi hiN)
    have hge : F0.blocks.length ≤ cloneIndex F0 L i LatchBlock := by
      simp only [cloneIndex]; omega
    obtain ⟨blk1, h1, _, _, _, h5⟩ := hG _ blk (header_ne_of_ge ctx _ hge) hb
    rw [termOf_eq_some]
    refine ⟨blk1, h1, ?_⟩
    have hs := (slot_arith L.rpo.length i (N - 1 - 1) hi (by omega)).1
    rw [h5 (by simp only [cloneIndex]; omega), hbt]
  · rw [termOf_eq_some]
    exact ⟨_, setBlock_getElem?_self _ _ _ hLlt, rfl⟩

/-! ## From the checks to the facts the unrolling uses -/

theorem mem_predecessors {F : Function} {b p : Nat} :
    p ∈ predecessors F b ↔ ∃ blk, F.blocks[p]? = some blk ∧ b ∈ successors blk.term := by
  unfold predecessors
  rw [List.mem_flatMap]
  constructor
  · rintro ⟨a, _, ha⟩
    cases hF : F.blocks[a]? with
    | none => simp [hF] at ha
    | some blk =>
      simp only [hF, List.mem_map, List.mem_filter, decide_eq_true_eq] at ha
      obtain ⟨s, ⟨hs, hsb⟩, hap⟩ := ha
      subst hap hsb
      exact ⟨blk, hF, hs⟩
  · rintro ⟨blk, hF, hb⟩
    refine ⟨p, List.mem_range.mpr (lt_of_getElem?_eq_some hF), ?_⟩
    simp only [hF, List.mem_map, List.mem_filter, decide_eq_true_eq]
    exact ⟨b, ⟨hb, rfl⟩, trivial⟩

theorem loopPredecessorScan_some (L : Loop) (ps : List Nat) (Out : Option Nat) (p : Nat)
    (h : loopPredecessorScan L ps Out = some p) :
    (p ∈ ps ∧ L.contains p = false) ∨ Out = some p := by
  induction ps generalizing Out with
  | nil => exact Or.inr h
  | cons q rest ih =>
    unfold loopPredecessorScan at h
    by_cases hc : L.contains q = true
    · simp only [hc, ↓reduceIte] at h
      rcases ih Out h with h1 | h1
      · exact Or.inl ⟨List.mem_cons_of_mem _ h1.1, h1.2⟩
      · exact Or.inr h1
    · have hc0 : L.contains q = false := by
        cases hcc : L.contains q with
        | false => rfl
        | true => exact absurd hcc hc
      simp only [hc0, Bool.false_eq_true, ↓reduceIte] at h
      have key : ∀ (h1 : loopPredecessorScan L rest (some q) = some p),
          p ∈ q :: rest ∧ L.contains p = false := by
        intro h1
        rcases ih (some q) h1 with h2 | h2
        · exact ⟨List.mem_cons_of_mem _ h2.1, h2.2⟩
        · cases h2
          exact ⟨List.mem_cons_self _ _, hc0⟩
      cases Out with
      | none => exact Or.inl (key h)
      | some o =>
        simp only at h
        by_cases ho : o = q
        · simp only [ho, ↓reduceIte] at h
          exact Or.inl (key h)
        · simp [ho] at h

theorem loopLatchScan_some (L : Loop) (ps : List Nat) (Latch : Option Nat) (l : Nat)
    (h : loopLatchScan L ps Latch = some l) :
    (l ∈ ps ∧ L.contains l = true) ∨ Latch = some l := by
  induction ps generalizing Latch with
  | nil => exact Or.inr h
  | cons q rest ih =>
    unfold loopLatchScan at h
    by_cases hc : L.contains q = true
    · simp only [hc, ↓reduceIte] at h
      cases Latch with
      | some o => simp at h
      | none =>
        simp only at h
        rcases ih (some q) h with h2 | h2
        · exact Or.inl ⟨List.mem_cons_of_mem _ h2.1, h2.2⟩
        · cases h2
          exact Or.inl ⟨List.mem_cons_self _ _, hc⟩
    · simp only [hc, ↓reduceIte] at h
      rcases ih Latch h with h1 | h1
      · exact Or.inl ⟨List.mem_cons_of_mem _ h1.1, h1.2⟩
      · exact Or.inr h1

theorem getLoopPreheader_some {F : Function} {L : Loop} {PreHeader : Nat}
    (h : getLoopPreheader F L = some PreHeader) :
    ∃ blk, F.blocks[PreHeader]? = some blk ∧ successors blk.term = [L.header] ∧
      L.contains PreHeader = false := by
  unfold getLoopPreheader at h
  cases hp : getLoopPredecessor F L with
  | none => simp [hp] at h
  | some Out =>
    simp only [hp] at h
    cases hb : F.blocks[Out]? with
    | none => simp [hb] at h
    | some blk =>
      simp only [hb] at h
      by_cases hl : (successors blk.term).length = 1
      · simp only [hl, ↓reduceIte, Option.some.injEq] at h
        subst h
        unfold getLoopPredecessor at hp
        rcases loopPredecessorScan_some L _ none Out hp with ⟨hmem, hout⟩ | h1
        · obtain ⟨blk1, hb1, hs1⟩ := mem_predecessors.mp hmem
          have : blk1 = blk := by rw [hb] at hb1; cases hb1; rfl
          subst this
          refine ⟨blk1, hb, ?_, hout⟩
          cases hs : successors blk1.term with
          | nil => rw [hs] at hl; simp at hl
          | cons a rest =>
            rw [hs] at hl hs1
            cases rest with
            | nil =>
              simp at hs1
              rw [hs1]
            | cons b rest => simp at hl
        · cases h1
      · simp [hl] at h

theorem getLoopLatch_some {F : Function} {L : Loop} {LatchBlock : Nat}
    (h : getLoopLatch F L = some LatchBlock) :
    ∃ blk, F.blocks[LatchBlock]? = some blk ∧ L.header ∈ successors blk.term ∧
      L.contains LatchBlock = true := by
  unfold getLoopLatch at h
  rcases loopLatchScan_some L _ none LatchBlock h with ⟨hmem, hc⟩ | h1
  · obtain ⟨blk, hb, hs⟩ := mem_predecessors.mp hmem
    exact ⟨blk, hb, hs, hc⟩
  · cases h1

theorem UnrollCtx_intro (F : Function) (L : Loop) (PreHeader LatchBlock : Nat)
    (hwf : wellFormed F = true) (hla : loopAnalysisOK F L = true)
    (hPH : getLoopPreheader F L = some PreHeader) (hLB : getLoopLatch F L = some LatchBlock)
    (hlt : ∃ blk d, F.blocks[LatchBlock]? = some blk ∧ blk.term = Terminator.br d) :
    UnrollCtx F L PreHeader LatchBlock := by
  simp only [wellFormed, Bool.and_eq_true, List.all_eq_true, decide_eq_true_eq,
    List.mem_range] at hwf
  obtain ⟨⟨hsucc, hphi⟩, hnodup⟩ := hwf
  simp only [loopAnalysisOK, Bool.and_eq_true, List.all_eq_true, decide_eq_true_eq] at hla
  obtain ⟨⟨⟨⟨hhead, hrnd⟩, hrl⟩, hlr⟩, hllt⟩ := hla
  obtain ⟨pblk, hpb, hps, hpout⟩ := getLoopPreheader_some hPH
  obtain ⟨lblk, hlb, hls, hlc⟩ := getLoopLatch_some hLB
  have hcont : ∀ b, L.contains b = true ↔ b ∈ L.blocks := by
    intro b; simp [Loop.contains]
  have hsuccs : ∀ (B : Nat) (blk : BasicBlock), F.blocks[B]? = some blk →
      ∀ SI, SI ∈ successors blk.term → SI < F.blocks.length := by
    intro B blk hB SI hSI
    exact hsucc blk (List.getElem?_mem hB) SI hSI
  have hexits : ∀ (B : Nat) (blk : BasicBlock), F.blocks[B]? = some blk →
      ∀ SI, SI ∈ successors blk.term →
        ∃ sblk : BasicBlock, F.blocks[SI]? = some sblk ∧
          ∀ p, p ∈ sblk.phis → p.hasIncomingFor B = true := by
    intro B blk hB SI hSI
    have hlt1 := hsuccs B blk hB SI hSI
    refine ⟨F.blocks[SI], List.getElem?_eq_getElem hlt1, fun p hp => ?_⟩
    have h1 := hphi SI hlt1
    simp only [List.getElem?_eq_getElem hlt1, List.all_eq_true] at h1
    exact h1 p hp B (mem_predecessors.mpr ⟨blk, hB, hSI⟩)
  have hHmem : L.header ∈ L.rpo := by
    cases hr : L.rpo with
    | nil => rw [hr] at hhead; simp at hhead
    | cons a tl =>
      rw [hr] at hhead
      simp at hhead
      simp [hhead]
  refine
    { rpo_head := ?_
      rpo_nodup := hrnd
      rpo_loop := hrl
      loop_lt := fun b hb => hllt b ((hcont b).mp hb)
      latch_rpo := hlr _ ((hcont _).mp hlc)
      pre_lt := lt_of_getElem?_eq_some hpb
      pre_out := hpout
      latch_term := ?_
      hdr_phis := ?_
      succ_lt := hsuccs
      exits := hexits }
  · cases hr : L.rpo with
    | nil => rw [hr] at hhead; simp at hhead
    | cons a tl =>
      rw [hr] at hhead
      simp at hhead
      exact ⟨tl, by rw [hhead]⟩
  · obtain ⟨blk, d, hb, hd⟩ := hlt
    have : blk = lblk := by rw [hlb] at hb; cases hb; rfl
    subst this
    rw [hd] at hls
    simp [successors] at hls
    exact ⟨blk, hb, by rw [hd, hls]⟩
  · intro Header hH
    refine ⟨hnodup Header (List.getElem?_mem hH), fun p hp => ?_⟩
    have hlt1 := lt_of_getElem?_eq_some hH
    have h1 := hphi L.header hlt1
    simp only [hH, List.all_eq_true] at h1
    exact ⟨h1 p hp PreHeader (mem_predecessors.mpr ⟨pblk, hpb, by rw [hps]; simp⟩),
      h1 p hp LatchBlock (mem_predecessors.mpr ⟨lblk, hlb, hls⟩)⟩

/-! ## Claim C1 -/

theorem replaceSuccessorTerm_not_branch (t : Terminator) (Succ Repl : Nat)
    (h : t.isBranch = false) : (replaceSuccessorTerm t Succ Repl).2 = t := by
  cases t <;> simp [Terminator.isBranch] at h <;> rfl

theorem replaceSuccessorTerm_single (t : Terminator) (Succ Repl : Nat)
    (hb : t.isBranch = true) (hs : successors t = [Succ]) :
    (replaceSuccessorTerm t Succ Repl).2 = Terminator.br Repl := by
  cases t with
  | br d =>
    simp only [successors, List.cons.injEq, and_true] at hs
    rw [hs]; exact replaceSuccessorTerm_br _ _
  | condBr c a b => simp [successors] at hs
  | switch c d cs => simp [Terminator.isBranch] at hb
  | indirectBr a ds => simp [Terminator.isBranch] at hb
  | ret v => simp [Terminator.isBranch] at hb
  | unreachable => simp [Terminator.isBranch] at hb

/-- For well-formed IR and a loop that passes the precondition checks,
`UnrollNTimes` with a count `N` of at least 2 returns true; the function has
gained exactly `N - 1` copies of every loop block (the block at
`cloneIndex F L i BB` is the copy of `BB` of round `i`, and every new block is
such a copy); the terminator of the preheader has been through
`ReplaceSuccessor` towards the header of copy 1, the latch of copy `i` branches
to the header of copy `i + 1` for `1 ≤ i < N - 1`, and the latch of copy
`N - 1` branches to the original header. -/
theorem UnrollNTimes_copies (F : Function) (L : Loop) (N PreHeader LatchBlock : Nat)
    (hwf : wellFormed F = true) (hla : loopAnalysisOK F L = true)
    (hpre : meetsPreconditions F L = true)
    (hPH : getLoopPreheader F L = some PreHeader) (hLB : getLoopLatch F L = some LatchBlock)
    (hN2 : 2 ≤ N) (hN32 : N < 2 ^ 32) :
    ∃ G, UnrollNTimes F L N = Except.ok (true, G) ∧
      G.blocks.length = F.blocks.length + (N - 1) * L.rpo.length ∧
      (∀ (i BB : Nat) (orig : BasicBlock), 1 ≤ i → i < N → BB ∈ L.rpo →
        F.blocks[BB]? = some orig →
        ∃ c : BasicBlock, G.blocks[cloneIndex F L i BB]? = some c ∧ isCloneOf orig i c) ∧
      (∀ b, F.blocks.length ≤ b → b < G.blocks.length →
        ∃ i BB, 1 ≤ i ∧ i < N ∧ BB ∈ L.rpo ∧ b = cloneIndex F L i BB) ∧
      termOf G PreHeader =
        ((termOf F PreHeader).map fun t =>
          (replaceSuccessorTerm t L.header (cloneIndex F L 1 L.header)).2) ∧
      (∀ i, 1 ≤ i → i < N - 1 →
        termOf G (cloneIndex F L i LatchBlock) =
          some (Terminator.br (cloneIndex F L (i + 1) L.header))) ∧
      termOf G (cloneIndex F L (N - 1) LatchBlock) = some (Terminator.br L.header) := by
  -- what the precondition checks give
  unfold meetsPreconditions at hpre
  rw [hPH, hLB] at hpre
  cases hH : F.blocks[L.header]? with
  | none => simp [hH] at hpre
  | some Header =>
    cases hLb : F.blocks[LatchBlock]? with
    | none => simp [hH, hLb] at hpre
    | some Latch =>
      simp only [hH, hLb, Bool.and_eq_true, Bool.not_eq_true'] at hpre
      obtain ⟨⟨hsafe, haddr⟩, hterm⟩ := hpre
      obtain ⟨d, hd⟩ : ∃ d, Latch.term = Terminator.br d := by
        cases ht : Latch.term <;> simp [ht] at hterm
        exact ⟨_, rfl⟩
      have ctx : UnrollCtx F L PreHeader LatchBlock :=
        UnrollCtx_intro F L PreHeader LatchBlock hwf hla hPH hLB ⟨Latch, d, hLb, hd⟩
      obtain ⟨G, hG, hlen, hclones, hpreT, hchain, hlast⟩ :=
        unrollBody_ok ctx Header hH N hN2 hN32
      obtain ⟨tail, hrpo⟩ := ctx.rpo_head
      have hidxH : L.rpo.indexOf L.header = 0 := by
        rw [hrpo]; exact List.indexOf_cons_self _ _
      have hmpos : 0 < L.rpo.length := by rw [hrpo]; simp
      refine ⟨G, ?_, hlen, ?_, ?_, ?_, hchain, hlast⟩
      · unfold UnrollNTimes
        simp only [hPH, hLB, hsafe, getBlock_eq_ok.mpr hH, haddr, getBlock_eq_ok.mpr hLb, hd,
          hG]
        simp
      · intro i BB orig hi hiN hBB horig
        exact hclones i _ BB orig hi hiN (List.getElem?_indexOf hBB) horig
      · intro b hb hbG
        rw [hlen] at hbG
        have hq : (b - F.blocks.length) / L.rpo.length < N - 1 := by
          rw [Nat.div_lt_iff_lt_mul hmpos]; omega
        have hr : (b - F.blocks.length) % L.rpo.length < L.rpo.length := Nat.mod_lt _ hmpos
        have hdm := Nat.div_add_mod (b - F.blocks.length) L.rpo.length
        generalize (b - F.blocks.length) / L.rpo.length = q at hq hdm
        generalize hrr : (b - F.blocks.length) % L.rpo.length = r at hr hdm
        refine ⟨q + 1, L.rpo[r], by omega, by omega, List.getElem_mem _, ?_⟩
        simp only [cloneIndex, Nat.add_sub_cancel]
        rw [List.indexOf_getElem ctx.rpo_nodup _ hr, Nat.mul_comm]
        omega
      · rw [hpreT]
        simp [cloneIndex, hidxH]

/-- For well-formed IR and a loop that passes the precondition checks and
whose preheader ends in a branch instruction, `UnrollNTimes` with a count `N`
of at least 2 returns true; the function has gained exactly `N - 1` copies of
every loop block (the block at `cloneIndex F L i BB` is the copy of `BB` of
round `i`, and every new block is such a copy); the preheader branches to the
header of copy 1, the latch of copy `i` branches to the header of copy `i + 1`
for `1 ≤ i < N - 1`, and the latch of copy `N - 1` branches to the original
header. -/
theorem UnrollNTimes_chains_copies (F : Function) (L : Loop) (N PreHeader LatchBlock : Nat)
    (hwf : wellFormed F = true) (hla : loopAnalysisOK F L = true)
    (hpre : meetsPreconditions F L = true)
    (hPH : getLoopPreheader F L = some PreHeader) (hLB : getLoopLatch F L = some LatchBlock)
    (hbr : ∃ t, termOf F PreHeader = some t ∧ t.isBranch = true)
    (hN2 : 2 ≤ N) (hN32 : N < 2 ^ 32) :
    ∃ G, UnrollNTimes F L N = Except.ok (true, G) ∧
      G.blocks.length = F.blocks.length + (N - 1) * L.rpo.length ∧
      (∀ (i BB : Nat) (orig : BasicBlock), 1 ≤ i → i < N → BB ∈ L.rpo →
        F.blocks[BB]? = some orig →
        ∃ c : BasicBlock, G.blocks[cloneIndex F L i BB]? = some c ∧ isCloneOf orig i c) ∧
      (∀ b, F.blocks.length ≤ b → b < G.blocks.length →
        ∃ i BB, 1 ≤ i ∧ i < N ∧ BB ∈ L.rpo ∧ b = cloneIndex F L i BB) ∧
      termOf G PreHeader = some (Terminator.br (cloneIndex F L 1 L.header)) ∧
      (∀ i, 1 ≤ i → i < N - 1 →
        termOf G (cloneIndex F L i LatchBlock) =
          some (Terminator.br (cloneIndex F L (i + 1) L.header))) ∧
      termOf G (cloneIndex F L (N - 1) LatchBlock) = some (Terminator.br L.header) := by
  obtain ⟨G, hG, hlen, hclones, hnew, hpreT, hchain, hlast⟩ :=
    UnrollNTimes_copies F L N PreHeader LatchBlock hwf hla hpre hPH hLB hN2 hN32
  refine ⟨G, hG, hlen, hclones, hnew, ?_, hchain, hlast⟩
  obtain ⟨t, ht, htb⟩ := hbr
  obtain ⟨pblk, hpb, hps, _⟩ := getLoopPreheader_some hPH
  have hpt : pblk.term = t := by
    obtain ⟨blk, hb, hbt⟩ := termOf_eq_some.mp ht
    rw [hpb] at hb; cases hb; exact hbt
  rw [hpreT, ht]
  simp only [Option.map_some']
  rw [replaceSuccessorTerm_single t _ _ htb (hpt ▸ hps)]

/-- C1: where the preheader does not end in a branch instruction (all the
precondition checks pass all the same, the IR being well formed),
`UnrollNTimes` with a count `N ≥ 2` returns true and adds the `N - 1` copies,
but the preheader is left as it was: the original header is still its only
successor, so it does not enter the header of copy 1 and the copies are not
chained between the preheader and the loop. -/
theorem UnrollNTimes_preheader_not_redirected (F : Function) (L : Loop)
    (N PreHeader LatchBlock : Nat) (t : Terminator)
    (hwf : wellFormed F = true) (hla : loopAnalysisOK F L = true)
    (hpre : meetsPreconditions F L = true)
    (hPH : getLoopPreheader F L = some PreHeader) (hLB : getLoopLatch F L = some LatchBlock)
    (ht : termOf F PreHeader = some t) (hnb : t.isBranch = false)
    (hN2 : 2 ≤ N) (hN32 : N < 2 ^ 32) :
    ∃ G, UnrollNTimes F L N = Except.ok (true, G) ∧
      G.blocks.length = F.blocks.length + (N - 1) * L.rpo.length ∧
      termOf G PreHeader = some t ∧
      successors t = [L.header] ∧
      cloneIndex F L 1 L.header ∉ successors t := by
  obtain ⟨G, hG, hlen, _, _, hpreT, _, _⟩ :=
    UnrollNTimes_copies F L N PreHeader LatchBlock hwf hla hpre hPH hLB hN2 hN32
  obtain ⟨pblk, hpb, hps, hpout⟩ := getLoopPreheader_some hPH
  have hpt : pblk.term = t := by
    obtain ⟨blk, hb, hbt⟩ := termOf_eq_some.mp ht
    rw [hpb] at hb; cases hb; exact hbt
  have hst : successors t = [L.header] := hpt ▸ hps
  refine ⟨G, hG, hlen, ?_, hst, ?_⟩
  · rw [hpreT, ht]
    simp only [Option.map_some']
    rw [replaceSuccessorTerm_not_branch t _ _ hnb]
  · rw [hst]
    simp only [List.mem_singleton, cloneIndex]
    have hHlt : L.header < F.blocks.length := by
      simp only [loopAnalysisOK, Bool.and_eq_true, List.all_eq_true, decide_eq_true_eq] at hla
      obtain ⟨⟨⟨⟨hhead, _⟩, hrl⟩, _⟩, hllt⟩ := hla
      have hmem : L.header ∈ L.rpo := by
        cases hr : L.rpo with
        | nil => rw [hr] at hhead; simp at hhead
        | cons a tl =>
          rw [hr] at hhead
          simp at hhead
          simp [hhead]
      exact hllt _ (by simpa [Loop.contains] using hrl _ hmem)
    omega

/-- Witness for C1: the sample loop behind a preheader that ends in a `switch`
with the header as its only successor, count 2.  The call returns true, the
preheader still ends in the `switch` to block 1 (the original header), and the
PHI node of the header has no input left for the preheader (block 0). -/
theorem UnrollNTimes_preheader_not_redirected_witness :
    wellFormed switchPreheader = true ∧
    loopAnalysisOK switchPreheader sampleLoop = true ∧
    meetsPreconditions switchPreheader sampleLoop = true ∧
    (∃ G, UnrollNTimes switchPreheader sampleLoop 2 = Except.ok (true, G) ∧
      G.blocks.length = switchPreheader.blocks.length + (2 - 1) * sampleLoop.rpo.length ∧
      termOf G 0 = some (Terminator.switch (Value.arg 0) 1 []) ∧
      successors (Terminator.switch (Value.arg 0) 1 []) = [sampleLoop.header] ∧
      cloneIndex switchPreheader sampleLoop 1 sampleLoop.header ∉
        successors (Terminator.switch (Value.arg 0) 1 [])) ∧
    (∃ G hdr, UnrollNTimes switchPreheader sampleLoop 2 = Except.ok (true, G) ∧
      G.blocks[1]? = some hdr ∧
      hdr.phis = [{ id := 0, incoming := [(Value.inst 2 0, 2), (Value.const 0, 5)] }]) :=
  ⟨by decide, by decide, by decide,
    UnrollNTimes_preheader_not_redirected switchPreheader sampleLoop 2 0 2
      (Terminator.switch (Value.arg 0) 1 []) (by decide) (by decide) (by decide) (by decide)
      (by decide) (by decide) (by decide) (by decide) (by norm_num),
    ⟨_, _, rfl, rfl, rfl⟩⟩

/-- The sample loop unrolled three times: an instance of `UnrollNTimes_chains_copies`. -/
theorem UnrollNTimes_chains_copies_witness :
    ∃ G, UnrollNTimes sampleFunction sampleLoop 3 = Except.ok (true, G) ∧
      G.blocks.length = sampleFunction.blocks.length + (3 - 1) * sampleLoop.rpo.length ∧
      (∀ (i BB : Nat) (orig : BasicBlock), 1 ≤ i → i < 3 → BB ∈ sampleLoop.rpo →
        sampleFunction.blocks[BB]? = some orig →
        ∃ c : BasicBlock,
          G.blocks[cloneIndex sampleFunction sampleLoop i BB]? = some c ∧ isCloneOf orig i c) ∧
      (∀ b, sampleFunction.blocks.length ≤ b → b < G.blocks.length →
        ∃ i BB, 1 ≤ i ∧ i < 3 ∧ BB ∈ sampleLoop.rpo ∧
          b = cloneIndex sampleFunction sampleLoop i BB) ∧
      termOf G 0 =
        some (Terminator.br (cloneIndex sampleFunction sampleLoop 1 sampleLoop.header)) ∧
      (∀ i, 1 ≤ i → i < 3 - 1 →
        termOf G (cloneIndex sampleFunction sampleLoop i 2) =
          some (Terminator.br (cloneIndex sampleFunction sampleLoop (i + 1) sampleLoop.header))) ∧
      termOf G (cloneIndex sampleFunction sampleLoop (3 - 1) 2) =
        some (Terminator.br sampleLoop.header) :=
  UnrollNTimes_chains_copies sampleFunction sampleLoop 3 0 2 (by decide) (by decide) (by decide)
    (by decide) (by decide) ⟨_, rfl, rfl⟩ (by decide) (by norm_num)

/-! ## Claim C11: `readFromBinary` -/

/-- C11 as stated fails for a read of zero bytes: with a file of three bytes,
offset 5 and size 0 the file holds fewer than `offset + size` bytes, yet
`readFromBinary` reports success (nothing had to be read). -/
theorem readFromBinary_zero_size_past_end :
    ([1, 2, 3] : List Nat).length < 5 + 0 ∧
      readFromBinary (some [1, 2, 3]) [] 5 0 = (true, []) := by
  decide

/-- C11, amended: `readFromBinary` always returns; it reports failure when the
file cannot be opened or holds fewer than `offset + size` bytes and `size` is
positive; it reports success when the file opens and `size` is 0, and when the
file opens and holds at least `offset + size` bytes, and then the first `size`
bytes of the buffer are the bytes of the file at positions
`offset .. offset + size - 1` and the rest of the buffer is untouched. -/
theorem readFromBinary_result (file : Option (List Nat)) (buf : List Nat) (offset size : Nat) :
    (file = none → readFromBinary file buf offset size = (false, buf)) ∧
    (∀ bytes, file = some bytes → bytes.length < offset + size → 0 < size →
      (readFromBinary file buf offset size).1 = false) ∧
    (∀ bytes, file = some bytes → size = 0 →
      readFromBinary file buf offset size = (true, buf)) ∧
    (∀ bytes, file = some bytes → offset + size ≤ bytes.length →
      (readFromBinary file buf offset size).1 = true ∧
      (readFromBinary file buf offset size).2.take size = (bytes.drop offset).take size ∧
      (∀ i, i < size → (readFromBinary file buf offset size).2[i]? = bytes[offset + i]?) ∧
      (readFromBinary file buf offset size).2.drop size = buf.drop size) := by
  refine ⟨?_, ?_, ?_, ?_⟩
  · intro h; subst h; rfl
  · intro bytes h hlt hpos
    subst h
    simp only [readFromBinary, List.length_take, List.length_drop, decide_eq_false_iff_not]
    omega
  · intro bytes h hs
    subst h hs
    simp [readFromBinary]
  · intro bytes h hle
    subst h
    have hlen : ((bytes.drop offset).take size).length = size := by
      simp only [List.length_take, List.length_drop]; omega
    refine ⟨by simp only [readFromBinary, hlen, decide_True], ?_, ?_, ?_⟩
    · simp only [readFromBinary]
      rw [List.take_append_of_le_length (by omega)]
      rw [List.take_of_length_le (by omega)]
    · intro i hi
      simp only [readFromBinary]
      rw [List.getElem?_append_left (by omega), List.getElem?_take_of_lt hi, List.getElem?_drop]
    · simp only [readFromBinary]
      rw [List.drop_append_of_le_length (by omega), hlen]
      rw [List.drop_of_length_le (by omega)]
      simp

/-! ## Claim C13: `getOrCreatePair` -/

theorem vpcMapFind_none_iff (m : List (Nat × HeaderLatchPair)) (v : Nat) :
    vpcMapFind m v = none ↔ v ∉ m.map Prod.fst := by
  induction m with
  | nil => simp [vpcMapFind]
  | cons e rest ih =>
    obtain ⟨k, p⟩ := e
    by_cases h : k = v
    · simp [vpcMapFind, h]
    · simp only [vpcMapFind, h, ↓reduceIte, ih, List.map_cons, List.mem_cons, not_or]
      exact ⟨fun h1 => ⟨fun h2 => h h2.symm, h1⟩, fun h1 => h1.2⟩

theorem vpcMapFind_append_new (m : List (Nat × HeaderLatchPair)) (v : Nat) (p : HeaderLatchPair)
    (h : vpcMapFind m v = none) : vpcMapFind (m ++ [(v, p)]) v = some p := by
  induction m with
  | nil => simp [vpcMapFind]
  | cons e rest ih =>
    obtain ⟨k, q⟩ := e
    by_cases hk : k = v
    · simp [vpcMapFind, hk] at h
    · simp only [vpcMapFind, hk, ↓reduceIte] at h
      simp only [List.cons_append, vpcMapFind, hk, ↓reduceIte]
      exact ih h

/-- C13: calling `getOrCreatePair` twice with the same VPC value returns the
same header/latch pair both times; the second call creates no block and leaves
`vpcMap` unchanged; `vpcMap` keeps one entry per VPC value, and the entry of
the value is the pair returned. -/
theorem getOrCreatePair_twice (u : UntangleInterpreter) (v : Nat)
    (hnd : (u.vpcMap.map Prod.fst).Nodup) :
    (getOrCreatePair (getOrCreatePair u v).2 v).1 = (getOrCreatePair u v).1 ∧
    (getOrCreatePair (getOrCreatePair u v).2 v).2 = (getOrCreatePair u v).2 ∧
    ((getOrCreatePair u v).2.vpcMap.map Prod.fst).Nodup ∧
    vpcMapFind (getOrCreatePair u v).2.vpcMap v = some (getOrCreatePair u v).1 ∧
    ((getOrCreatePair u v).2.vpcMap.filter fun e => decide (e.1 = v)).length = 1 := by
  have key : vpcMapFind (getOrCreatePair u v).2.vpcMap v = some (getOrCreatePair u v).1 ∧
      ((getOrCreatePair u v).2.vpcMap.map Prod.fst).Nodup := by
    unfold getOrCreatePair
    cases hf : vpcMapFind u.vpcMap v with
    | some pair => exact ⟨hf, hnd⟩
    | none =>
      refine ⟨vpcMapFind_append_new _ _ _ hf, ?_⟩
      simp only [List.map_append, List.map_cons, List.map_nil]
      rw [List.nodup_append]
      refine ⟨hnd, by simp, ?_⟩
      intro a ha hb
      simp only [List.mem_singleton] at hb
      subst hb
      exact (vpcMapFind_none_iff _ _).mp hf ha
  obtain ⟨hfind, hnd1⟩ := key
  have h2 : getOrCreatePair (getOrCreatePair u v).2 v =
      ((getOrCreatePair u v).1, (getOrCreatePair u v).2) := by
    generalize getOrCreatePair u v = r at hfind
    simp [getOrCreatePair, hfind]
  refine ⟨by rw [h2], by rw [h2], hnd1, hfind, ?_⟩
  have hmem : v ∈ (getOrCreatePair u v).2.vpcMap.map Prod.fst := by
    by_contra hn
    rw [(vpcMapFind_none_iff _ _).mpr hn] at hfind
    cases hfind
  generalize (getOrCreatePair u v).2.vpcMap = m at hnd1 hmem
  clear hfind h2 hnd
  induction m with
  | nil => simp at hmem
  | cons e rest ih =>
    simp only [List.map_cons, List.nodup_cons] at hnd1
    by_cases he : e.1 = v
    · have : rest.filter (fun e => decide (e.1 = v)) = [] := by
        rw [List.filter_eq_nil_iff]
        intro x hx hxv
        simp only [decide_eq_true_eq] at hxv
        exact hnd1.1 (by rw [he, ← hxv]; exact List.mem_map_of_mem _ hx)
      simp [List.filter_cons, he, this]
    · have hm : v ∈ rest.map Prod.fst := by
        simp only [List.map_cons, List.mem_cons] at hmem
        rcases hmem with h | h
        · exact absurd h.symm he
        · exact h
      simp [List.filter_cons, he, ih hnd1.2 hm]

/-- Witness for C13: the first two calls on a fresh untangler. -/
theorem getOrCreatePair_twice_witness :
    (getOrCreatePair (getOrCreatePair { vpcMap := [], blocks := [] } 8192).2 8192).1 =
      (getOrCreatePair { vpcMap := [], blocks := [] } 8192).1 ∧
    (getOrCreatePair (getOrCreatePair { vpcMap := [], blocks := [] } 8192).2 8192).2 =
      (getOrCreatePair { vpcMap := [], blocks := [] } 8192).2 :=
  ⟨(getOrCreatePair_twice { vpcMap := [], blocks := [] } 8192 (by decide)).1,
    (getOrCreatePair_twice { vpcMap := [], blocks := [] } 8192 (by decide)).2.1⟩

/-! ## Claim C12: the records of `succs.dat` -/

theorem leBytes_length (n v : Nat) : (leBytes n v).length = n := by
  induction n generalizing v with
  | zero => rfl
  | succ n ih => simp [leBytes, ih]

theorem leValue_leBytes (n v : Nat) : leValue (leBytes n v) = v % 256 ^ n := by
  induction n generalizing v with
  | zero => simp [leBytes, leValue, Nat.mod_one]
  | succ n ih =>
    simp only [leBytes, leValue, ih]
    rw [Nat.pow_succ, Nat.mul_comm (256 ^ n) 256, Nat.mod_mul]

theorem leBytes_append (a b v : Nat) :
    leBytes (a + b) v = leBytes a v ++ leBytes b (v / 256 ^ a) := by
  induction a generalizing v with
  | zero => simp [leBytes]
  | succ a ih =>
    have : a + 1 + b = (a + b) + 1 := by omega
    rw [this]
    simp only [leBytes, List.cons_append, ih]
    rw [Nat.div_div_eq_div_mul, Nat.pow_succ, Nat.mul_comm]

theorem leBytes_mod (n v : Nat) : leBytes n (v % 256 ^ n) = leBytes n v := by
  induction n generalizing v with
  | zero => rfl
  | succ n ih =>
    simp only [leBytes]
    have h1 : v % 256 ^ (n + 1) % 256 = v % 256 := by
      rw [Nat.pow_succ, Nat.mul_comm]
      exact Nat.mod_mul_right_mod v 256 (256 ^ n)
    have h2 : v % 256 ^ (n + 1) / 256 = (v / 256) % 256 ^ n := by
      rw [Nat.pow_succ, Nat.mul_comm, Nat.mod_mul_right_div_self]
    rw [h1, h2, ih]

theorem edgeKey_eq (predPc succ : Nat) :
    edgeKey predPc succ = 2 ^ 32 * (predPc % 2 ^ 32) + succ % 2 ^ 32 := by
  unfold edgeKey
  have h1 : predPc * 2 ^ 32 % 2 ^ 64 = 2 ^ 32 * (predPc % 2 ^ 32) := by
    have : (2 : Nat) ^ 64 = 2 ^ 32 * 2 ^ 32 := by norm_num
    rw [this, Nat.mul_comm predPc, Nat.mul_mod_mul_left]
  rw [h1]
  exact (Nat.mul_add_lt_is_or (Nat.mod_lt _ (by norm_num)) _).symm

theorem edgeKey_record (predPc succ : Nat) :
    leBytes 8 (edgeKey predPc succ) =
      leBytes 4 (succ % 2 ^ 32) ++ leBytes 4 (predPc % 2 ^ 32) := by
  have h8 : (8 : Nat) = 4 + 4 := rfl
  have hp : (256 : Nat) ^ 4 = 2 ^ 32 := by norm_num
  rw [h8, leBytes_append, edgeKey_eq, hp]
  congr 1
  · rw [← leBytes_mod 4 (2 ^ 32 * (predPc % 2 ^ 32) + succ % 2 ^ 32), hp,
      Nat.mul_add_mod, Nat.mod_mod]
  · rw [Nat.mul_add_div (by norm_num), Nat.div_eq_of_lt (Nat.mod_lt _ (by norm_num)),
      Nat.add_zero]

theorem mem_setInsert (k x : Nat) (s : List Nat) : x ∈ setInsert k s ↔ x = k ∨ x ∈ s := by
  induction s with
  | nil => simp [setInsert]
  | cons y rest ih =>
    unfold setInsert
    by_cases h1 : k < y
    · simp [h1]
    · by_cases h2 : k = y
      · subst h2
        simp
      · simp only [h1, h2, ↓reduceIte, List.mem_cons, ih]
        tauto

theorem readPrevSuccsLoop_records (recs : List (List Nat)) (trailing keys : List Nat)
    (hrec : ∀ r, r ∈ recs → r.length = 8) (htr : trailing.length < 8) (x : Nat) :
    x ∈ readPrevSuccsLoop (recs.flatMap id ++ trailing) keys ↔
      x ∈ keys ∨ ∃ r, r ∈ recs ∧ x = leValue (r.take 4) := by
  induction recs generalizing keys with
  | nil =>
    have : readPrevSuccsLoop trailing keys = keys := by
      match trailing, htr with
      | [], _ => rfl
      | [_], _ => rfl
      | [_, _], _ => rfl
      | [_, _, _], _ => rfl
      | [_, _, _, _], _ => rfl
      | [_, _, _, _, _], _ => rfl
      | [_, _, _, _, _, _], _ => rfl
      | [_, _, _, _, _, _, _], _ => rfl
      | _ :: _ :: _ :: _ :: _ :: _ :: _ :: _ :: _, h => simp at h; omega
    simp [this]
  | cons r rest ih =>
    have hr := hrec r (by simp)
    match r, hr with
    | [b0, b1, b2, b3, b4, b5, b6, b7], _ =>
      have e : List.flatMap ([b0, b1, b2, b3, b4, b5, b6, b7] :: rest) id ++ trailing =
          b0 :: b1 :: b2 :: b3 :: b4 :: b5 :: b6 :: b7 :: (rest.flatMap id ++ trailing) := by
        simp [List.flatMap_cons]
      rw [e, readPrevSuccsLoop, ih _ (fun q hq => hrec q (List.mem_cons_of_mem _ hq)),
        mem_setInsert]
      simp only [List.mem_cons, exists_eq_or_imp, List.take_succ_cons, List.take_zero]
      tauto

/-- C12: the record of an edge that `addEdge` recorded is part of what
`saveLLVMModule` writes to `succs.dat` (at a multiple of eight bytes); its
eight bytes are the little-endian 32-bit `succ mod 2^32` followed by the
little-endian 32-bit `pred mod 2^32`; two pairs of 32-bit pcs with the same
record are the same pair; and `readPrevSuccs` on a file made of such records,
followed by fewer than eight further bytes, adds to `prevSuccsKeys` exactly
the successor fields (the first four bytes of every record). -/
theorem succs_records (m_succs : List Nat) (predPc succ : Nat) :
    (∃ before after,
      saveSuccs true (addEdge m_succs predPc succ) =
        some (before ++ leBytes 8 (edgeKey predPc succ) ++ after) ∧
      before.length % 8 = 0) ∧
    leBytes 8 (edgeKey predPc succ) =
      leBytes 4 (succ % 2 ^ 32) ++ leBytes 4 (predPc % 2 ^ 32) ∧
    leValue ((leBytes 8 (edgeKey predPc succ)).take 4) = succ % 2 ^ 32 ∧
    leValue ((leBytes 8 (edgeKey predPc succ)).drop 4) = predPc % 2 ^ 32 ∧
    (∀ p1 s1 p2 s2, p1 < 2 ^ 32 → s1 < 2 ^ 32 → p2 < 2 ^ 32 → s2 < 2 ^ 32 →
      leBytes 8 (edgeKey p1 s1) = leBytes 8 (edgeKey p2 s2) → p1 = p2 ∧ s1 = s2) ∧
    (∀ (edges : List (Nat × Nat)) (trailing keys : List Nat) (flag : Bool),
      trailing.length < 8 →
      ∀ x, x ∈ (readPrevSuccs
          (some ((edges.flatMap fun e => leBytes 8 (edgeKey e.1 e.2)) ++ trailing))
          keys flag).1 ↔
        x ∈ keys ∨ ∃ e, e ∈ edges ∧ x = e.2 % 2 ^ 32) := by
  have h256 : (256 : Nat) ^ 4 = 2 ^ 32 := by norm_num
  have htake : ∀ p s, leValue ((leBytes 8 (edgeKey p s)).take 4) = s % 2 ^ 32 := by
    intro p s
    rw [edgeKey_record, List.take_left' (leBytes_length _ _), leValue_leBytes, h256,
      Nat.mod_mod]
  refine ⟨?_, edgeKey_record _ _, htake _ _, ?_, ?_, ?_⟩
  · have hmem : edgeKey predPc succ ∈ addEdge m_succs predPc succ :=
      (mem_setInsert _ _ _).mpr (Or.inl rfl)
    obtain ⟨l1, l2, hl⟩ := List.append_of_mem hmem
    refine ⟨l1.flatMap (leBytes 8), l2.flatMap (leBytes 8), ?_, ?_⟩
    · simp [saveSuccs, hl, List.flatMap_append, List.flatMap_cons]
    · clear hl
      induction l1 with
      | nil => rfl
      | cons a rest ih =>
        simp only [List.flatMap_cons, List.length_append, leBytes_length]
        omega
  · rw [edgeKey_record, List.drop_left' (leBytes_length _ _), leValue_leBytes, h256,
      Nat.mod_mod]
  · intro p1 s1 p2 s2 hp1 hs1 hp2 hs2 heq
    have h1 := congrArg (fun l => leValue (l.take 4)) heq
    have h2 := congrArg (fun l => leValue (l.drop 4)) heq
    simp only [htake] at h1
    simp only [edgeKey_record, List.drop_left' (leBytes_length _ _), leValue_leBytes, h256,
      Nat.mod_mod] at h2
    rw [Nat.mod_eq_of_lt hs1, Nat.mod_eq_of_lt hs2] at h1
    rw [Nat.mod_eq_of_lt hp1, Nat.mod_eq_of_lt hp2] at h2
    exact ⟨h2, h1⟩
  · intro edges trailing keys flag htr x
    have e : (edges.flatMap fun e => leBytes 8 (edgeKey e.1 e.2)) =
        (edges.map fun e => leBytes 8 (edgeKey e.1 e.2)).flatMap id := by
      simp [List.flatMap_map]
    simp only [readPrevSuccs]
    rw [e, readPrevSuccsLoop_records _ _ _ (by
      intro r hr
      obtain ⟨e1, _, he1⟩ := List.mem_map.mp hr
      rw [← he1, leBytes_length]) htr]
    constructor
    · rintro (h | ⟨r, hr, hx⟩)
      · exact Or.inl h
      · obtain ⟨e1, he1, hr1⟩ := List.mem_map.mp hr
        exact Or.inr ⟨e1, he1, by rw [hx, ← hr1, htake]⟩
    · rintro (h | ⟨e1, he1, hx⟩)
      · exact Or.inl h
      · exact Or.inr ⟨_, List.mem_map_of_mem _ he1, by rw [hx, htake]⟩

/-- The record of the edge `0x1000 -> 0x2000`, as an instance of C12. -/
theorem succs_records_witness :
    leBytes 8 (edgeKey 4096 8192) = leBytes 4 (8192 % 2 ^ 32) ++ leBytes 4 (4096 % 2 ^ 32) ∧
    leBytes 8 (edgeKey 4096 8192) = [0, 32, 0, 0, 0, 16, 0, 0] :=
  ⟨(succs_records [] 4096 8192).2.1, by decide⟩

/-! ## Claim C16: the number of rounds -/

theorem unrollBody_eq_finalSplice (F : Function) (L : Loop) (PreHeader LatchBlock : Nat)
    (Header : BasicBlock) (N : Nat) :
    unrollBody F L PreHeader LatchBlock Header N =
      match unrollLoop (unrollRound L PreHeader LatchBlock (Header.phis.map fun p => p.id)) N
          (2 ^ 32) 1 { F := F, LastValueMap := [] } with
      | Except.error e => Except.error e
      | Except.ok st =>
        finalSplice L PreHeader LatchBlock (Header.phis.map fun p => p.id) st := by
  unfold unrollBody finalSplice
  rfl

theorem unrollLoop_upto (body : Nat → UnrollState → Except Fault UnrollState) (N : Nat)
    (hN : N < 2 ^ 32) (d : Nat) :
    ∀ (It fuel : Nat) (st : UnrollState), It + d = N → d ≤ fuel →
      unrollLoop body N fuel It st = runRounds body d It st := by
  induction d with
  | zero =>
    intro It fuel st h _
    have : It = N := by omega
    subst this
    rw [unrollLoop_done]
    rfl
  | succ d ih =>
    intro It fuel st h hf
    cases fuel with
    | zero => omega
    | succ fuel =>
      have hne : It ≠ N := by omega
      have hmod : (It + 1) % 2 ^ 32 = It + 1 := Nat.mod_eq_of_lt (by omega)
      rw [unrollLoop, runRounds]
      simp only [hne, ↓reduceIte, hmod]
      cases body It st with
      | error e => rfl
      | ok st1 => exact ih (It + 1) fuel st1 (by omega) (by omega)

theorem unrollLoop_wrap (body : Nat → UnrollState → Except Fault UnrollState) (d : Nat) :
    ∀ (It fuel : Nat) (st : UnrollState), 1 ≤ It → It + d + 1 = 2 ^ 32 → d + 1 ≤ fuel →
      unrollLoop body 0 fuel It st = runRounds body (d + 1) It st := by
  induction d with
  | zero =>
    intro It fuel st h1 h hf
    cases fuel with
    | zero => omega
    | succ fuel =>
      have hne : It ≠ 0 := by omega
      have hmod : (It + 1) % 2 ^ 32 = 0 := by
        have : It + 1 = 2 ^ 32 := by omega
        rw [this, Nat.mod_self]
      rw [unrollLoop, runRounds]
      simp only [hne, ↓reduceIte, hmod]
      cases body It st with
      | error e => rfl
      | ok st1 => show unrollLoop body 0 fuel 0 st1 = runRounds body 0 (It + 1) st1
                  rw [unrollLoop_done]; rfl
  | succ d ih =>
    intro It fuel st h1 h hf
    cases fuel with
    | zero => omega
    | succ fuel =>
      have hne : It ≠ 0 := by omega
      have hmod : (It + 1) % 2 ^ 32 = It + 1 := Nat.mod_eq_of_lt (by omega)
      rw [unrollLoop, runRounds]
      simp only [hne, ↓reduceIte, hmod]
      cases body It st with
      | error e => rfl
      | ok st1 => exact ih (It + 1) fuel st1 (by omega) (by omega) (by omega)

theorem addExitPHIEntries_length (L : Loop) (BB New : Nat) (LVM : ValueToValueMapTy)
    (succs : List Nat) (F F1 : Function)
    (h : addExitPHIEntries L BB New LVM succs F = Except.ok F1) :
    F1.blocks.length = F.blocks.length := by
  induction succs generalizing F with
  | nil => simp [addExitPHIEntries] at h; rw [← h]
  | cons SI rest ih =>
    unfold addExitPHIEntries at h
    split at h
    · exact ih F h
    · split at h
      · cases h
      · split at h
        · cases h
        · rw [ih _ h, setBlock_length]

theorem ReplaceSuccessor_length (F : Function) (BB Succ Repl : Nat) (r : Bool × Function)
    (h : ReplaceSuccessor F BB Succ Repl = Except.ok r) :
    r.2.blocks.length = F.blocks.length := by
  unfold ReplaceSuccessor at h
  split at h
  · cases h
  · simp only [Except.ok.injEq] at h
    rw [← h]
    exact setBlock_length _ _ _

theorem cloneBlock_length (L : Loop) (PreHeader LatchBlock : Nat) (Orig : List Nat) (It : Nat)
    (st st1 : UnrollState) (BB : Nat)
    (h : cloneBlock L PreHeader LatchBlock Orig It st BB = Except.ok st1) :
    st1.F.blocks.length = st.F.blocks.length + 1 := by
  unfold cloneBlock at h
  split at h
  · cases h
  · rename_i blk hblk
    simp only at h
    split at h
    · cases h
    · rename_i F2 VMap LVM hhdr
      have hF2 : F2.blocks.length = st.F.blocks.length + 1 := by
        split at hhdr
        · split at hhdr
          · cases hhdr
          · rename_i New VMap1 LVM1 hres
            split at hhdr
            · split at hhdr
              · cases hhdr
              · rename_i r hr
                simp only [Except.ok.injEq, Prod.mk.injEq] at hhdr
                rw [← hhdr.1, ReplaceSuccessor_length _ _ _ _ _ hr, setBlock_length]
                simp
            · split at hhdr
              · cases hhdr
              · split at hhdr
                · cases hhdr
                · split at hhdr
                  · cases hhdr
                  · rename_i r hr
                    simp only [Except.ok.injEq, Prod.mk.injEq] at hhdr
                    rw [← hhdr.1, ReplaceSuccessor_length _ _ _ _ _ hr, setBlock_length]
                    simp
        · simp only [Except.ok.injEq, Prod.mk.injEq] at hhdr
          rw [← hhdr.1]
          simp
      split at h
      · cases h
      · rename_i F3 hF3
        simp only [Except.ok.injEq] at h
        rw [← h]
        simp only
        rw [addExitPHIEntries_length _ _ _ _ _ _ _ hF3, hF2]

theorem cloneBlocks_length (L : Loop) (PreHeader LatchBlock : Nat) (Orig : List Nat) (It : Nat)
    (bbs : List Nat) (st st1 : UnrollState)
    (h : cloneBlocks L PreHeader LatchBlock Orig It bbs st = Except.ok st1) :
    st1.F.blocks.length = st.F.blocks.length + bbs.length := by
  induction bbs generalizing st with
  | nil =>
    simp only [cloneBlocks, Except.ok.injEq] at h
    rw [← h]; rfl
  | cons BB rest ih =>
    unfold cloneBlocks at h
    split at h
    · cases h
    · rename_i st2 h2
      rw [ih st2 h, cloneBlock_length _ _ _ _ _ _ _ _ h2, List.length_cons]
      omega

theorem unrollRound_length (L : Loop) (PreHeader LatchBlock : Nat) (Orig : List Nat) (It : Nat)
    (st st1 : UnrollState)
    (h : unrollRound L PreHeader LatchBlock Orig It st = Except.ok st1) :
    st1.F.blocks.length = st.F.blocks.length + L.rpo.length := by
  unfold unrollRound at h
  split at h
  · cases h
  · rename_i st2 h2
    simp only [Except.ok.injEq] at h
    rw [← h]
    simp only
    rw [(remapNewBlocks_spec _ _ (List.nodup_range' _ _) _).1]
    exact cloneBlocks_length _ _ _ _ _ _ _ _ h2

theorem roundCount_arith (N : Nat) (hN : N < 2 ^ 32) :
    (1 ≤ N → Int.toNat (((N : Int) - 1) % 2 ^ 32) = N - 1) ∧
    (N = 0 → Int.toNat (((N : Int) - 1) % 2 ^ 32) = 2 ^ 32 - 1) := by
  have h32 : (2 : Nat) ^ 32 = 4294967296 := by norm_num
  have h32i : (2 : Int) ^ 32 = 4294967296 := by norm_num
  rw [h32] at hN
  rw [h32, h32i]
  constructor
  · intro h1
    omega
  · intro h0
    subst h0
    decide

theorem runRounds_ok {F0 : Function} {L : Loop} {PreHeader LatchBlock : Nat}
    (ctx : UnrollCtx F0 L PreHeader LatchBlock)
    (orig : BasicBlock) (horig : F0.blocks[L.header]? = some orig) (d : Nat) :
    ∀ (k : Nat) (st : UnrollState), RoundInv F0 L PreHeader LatchBlock k st →
      ∃ st1,
        runRounds (unrollRound L PreHeader LatchBlock (orig.phis.map fun p => p.id)) d
          (k + 1) st = Except.ok st1 ∧
        RoundInv F0 L PreHeader LatchBlock (k + d) st1 := by
  induction d with
  | zero => intro k st rinv; exact ⟨st, rfl, rinv⟩
  | succ d ih =>
    intro k st rinv
    obtain ⟨st1, hst1, rinv1⟩ := unrollRound_ok ctx orig horig k st rinv
    obtain ⟨st2, hst2, rinv2⟩ := ih (k + 1) st1 rinv1
    refine ⟨st2, ?_, ?_⟩
    · rw [runRounds]
      simp only [hst1]
      exact hst2
    · have : k + (d + 1) = k + 1 + d := by omega
      rw [this]; exact rinv2

theorem unrollLoop_eq_runRounds (body : Nat → UnrollState → Except Fault UnrollState)
    (N : Nat) (hN : N < 2 ^ 32) (st : UnrollState) :
    unrollLoop body N (2 ^ 32) 1 st =
      runRounds body (Int.toNat (((N : Int) - 1) % 2 ^ 32)) 1 st := by
  have h32 : (2 : Nat) ^ 32 = 4294967296 := by norm_num
  rcases Nat.eq_zero_or_pos N with h0 | h1
  · subst h0
    have hr : Int.toNat ((((0 : Nat) : Int) - 1) % 2 ^ 32) = 4294967294 + 1 := by decide
    rw [hr]
    exact unrollLoop_wrap body 4294967294 1 (2 ^ 32) st (le_refl _) (by rw [h32]) (by rw [h32]; omega)
  · rw [(roundCount_arith N hN).1 h1]
    exact unrollLoop_upto body N hN (N - 1) 1 (2 ^ 32) st (by omega) (by rw [h32] at hN ⊢; omega)

/-- C16: the cloning loop of `UnrollNTimes`, entered with the 32-bit counter at
1 and left when the counter equals `N`, performs exactly `(N - 1) mod 2^32`
rounds: `N - 1` rounds for `N ≥ 1`, and `2^32 - 1` rounds (not zero) for
`N = 0`.  Every round that succeeds adds `L.rpo.length` blocks; for a loop
that meets the preconditions the loop ends after these rounds, and the block
at `cloneIndex F L i BB` is then the copy of loop block `BB` made in round
`i`, for every round `i` and every loop block `BB`. -/
theorem unrollLoop_round_count (F : Function) (L : Loop) (N PreHeader LatchBlock : Nat)
    (Header : BasicBlock)
    (hwf : wellFormed F = true) (hla : loopAnalysisOK F L = true)
    (hpre : meetsPreconditions F L = true)
    (hPH : getLoopPreheader F L = some PreHeader) (hLB : getLoopLatch F L = some LatchBlock)
    (hH : F.blocks[L.header]? = some Header) (hN32 : N < 2 ^ 32) :
    (1 ≤ N → Int.toNat (((N : Int) - 1) % 2 ^ 32) = N - 1) ∧
    (N = 0 → Int.toNat (((N : Int) - 1) % 2 ^ 32) = 2 ^ 32 - 1) ∧
    (∀ st, unrollLoop (unrollRound L PreHeader LatchBlock (Header.phis.map fun p => p.id)) N
        (2 ^ 32) 1 st =
      runRounds (unrollRound L PreHeader LatchBlock (Header.phis.map fun p => p.id))
        (Int.toNat (((N : Int) - 1) % 2 ^ 32)) 1 st) ∧
    (∀ It st st1,
      unrollRound L PreHeader LatchBlock (Header.phis.map fun p => p.id) It st = Except.ok st1 →
      st1.F.blocks.length = st.F.blocks.length + L.rpo.length) ∧
    ∃ st, unrollLoop (unrollRound L PreHeader LatchBlock (Header.phis.map fun p => p.id)) N
        (2 ^ 32) 1 { F := F, LastValueMap := [] } = Except.ok st ∧
      st.F.blocks.length =
        F.blocks.length + Int.toNat (((N : Int) - 1) % 2 ^ 32) * L.rpo.length ∧
      ∀ (i BB : Nat) (orig : BasicBlock), 1 ≤ i → i ≤ Int.toNat (((N : Int) - 1) % 2 ^ 32) →
        BB ∈ L.rpo → F.blocks[BB]? = some orig →
        ∃ c : BasicBlock, st.F.blocks[cloneIndex F L i BB]? = some c ∧ isCloneOf orig i c := by
  refine ⟨(roundCount_arith N hN32).1, (roundCount_arith N hN32).2,
    fun st => unrollLoop_eq_runRounds _ N hN32 st,
    fun It st st1 h => unrollRound_length _ _ _ _ _ _ _ h, ?_⟩
  unfold meetsPreconditions at hpre
  rw [hPH, hLB] at hpre
  cases hLb : F.blocks[LatchBlock]? with
  | none => simp [hH, hLb] at hpre
  | some Latch =>
    simp only [hH, hLb, Bool.and_eq_true, Bool.not_eq_true'] at hpre
    obtain ⟨⟨hsafe, haddr⟩, hterm⟩ := hpre
    obtain ⟨d, hd⟩ : ∃ d, Latch.term = Terminator.br d := by
      cases ht : Latch.term <;> simp [ht] at hterm
      exact ⟨_, rfl⟩
    have ctx : UnrollCtx F L PreHeader LatchBlock :=
      UnrollCtx_intro F L PreHeader LatchBlock hwf hla hPH hLB ⟨Latch, d, hLb, hd⟩
    obtain ⟨st, hst, rinv⟩ := runRounds_ok ctx Header hH
      (Int.toNat (((N : Int) - 1) % 2 ^ 32)) 0 _ (RoundInv_init ctx)
    rw [Nat.zero_add] at hst rinv
    refine ⟨st, ?_, rinv.len, ?_⟩
    · rw [unrollLoop_eq_runRounds _ N hN32]; exact hst
    · intro i BB orig hi hiN hBB horig
      exact rinv.clones i _ BB orig hi hiN (List.getElem?_indexOf hBB) horig

/-- Witness for C16: the sample loop with count 3 is cloned in two rounds. -/
theorem unrollLoop_round_count_witness :
    (1 ≤ 3 → Int.toNat ((((3 : Nat) : Int) - 1) % 2 ^ 32) = 3 - 1) ∧
    ((3 : Nat) = 0 → Int.toNat ((((3 : Nat) : Int) - 1) % 2 ^ 32) = 2 ^ 32 - 1) ∧
    (∀ st, unrollLoop (unrollRound sampleLoop 0 2 [0]) 3 (2 ^ 32) 1 st =
      runRounds (unrollRound sampleLoop 0 2 [0])
        (Int.toNat ((((3 : Nat) : Int) - 1) % 2 ^ 32)) 1 st) ∧
    (∀ It st st1, unrollRound sampleLoop 0 2 [0] It st = Except.ok st1 →
      st1.F.blocks.length = st.F.blocks.length + sampleLoop.rpo.length) ∧
    ∃ st, unrollLoop (unrollRound sampleLoop 0 2 [0]) 3 (2 ^ 32) 1
        { F := sampleFunction, LastValueMap := [] } = Except.ok st ∧
      st.F.blocks.length =
        sampleFunction.blocks.length +
          Int.toNat ((((3 : Nat) : Int) - 1) % 2 ^ 32) * sampleLoop.rpo.length ∧
      ∀ (i BB : Nat) (orig : BasicBlock), 1 ≤ i →
        i ≤ Int.toNat ((((3 : Nat) : Int) - 1) % 2 ^ 32) →
        BB ∈ sampleLoop.rpo → sampleFunction.blocks[BB]? = some orig →
        ∃ c : BasicBlock,
          st.F.blocks[cloneIndex sampleFunction sampleLoop i BB]? = some c ∧
            isCloneOf orig i c :=
  unrollLoop_round_count sampleFunction sampleLoop 3 0 2
    { name := "head",
      phis := [{ id := 0, incoming := [(Value.const 0, 0), (Value.inst 2 0, 2)] }],
      insts := [{ id := 1, cannotDuplicate := false, operands := [Value.inst 1 0, Value.arg 0] }],
      termId := 2, term := Terminator.condBr (Value.inst 1 1) 2 3, hasAddressTaken := false }
    (by decide) (by decide) (by decide) (by decide) (by decide) (by decide) (by norm_num)

/-! ## The values of the unrolled iterations -/

theorem valueFor_of_getIncoming {p : PHINode} {BB : Nat} {v : Value}
    (h : p.getIncomingValueForBlock BB = Except.ok v) : p.valueFor BB = v := by
  unfold PHINode.getIncomingValueForBlock at h
  unfold PHINode.valueFor
  split at h
  · rename_i e he
    simp only [Except.ok.injEq] at h
    exact h
  · cases h

theorem valueFor_append (p : PHINode) (extra : List (Value × Nat)) (BB : Nat)
    (h : ∀ e, e ∈ extra → e.2 ≠ BB) :
    (p.addInputs extra).valueFor BB = p.valueFor BB := by
  have hx : extra.find? (fun e => decide (e.2 = BB)) = none := by
    rw [List.find?_eq_none]
    intro e he
    simpa using h e he
  unfold PHINode.valueFor PHINode.addInputs
  simp only [List.find?_append, hx, Option.or_none]

theorem addExitIncoming_exact (BB New : Nat) (LVM : ValueToValueMapTy) (phis phis1 : List PHINode)
    (h : addExitIncoming BB New LVM phis = Except.ok phis1) :
    phis1 = phis.map fun p => p.addIncoming (remapValue LVM (p.valueFor BB)) New := by
  induction phis generalizing phis1 with
  | nil =>
    simp only [addExitIncoming, Except.ok.injEq] at h
    rw [← h]; rfl
  | cons phi rest ih =>
    unfold addExitIncoming at h
    split at h
    · cases h
    · rename_i Incoming hInc
      split at h
      · cases h
      · rename_i rest1 hrest
        simp only [Except.ok.injEq] at h
        rw [← h, List.map_cons, ← ih rest1 hrest, valueFor_of_getIncoming hInc]

theorem addExitPHIEntries_exact (L : Loop) (BB New : Nat) (LVM : ValueToValueMapTy)
    (hne : New ≠ BB) (succs : List Nat) (F F1 : Function)
    (h : addExitPHIEntries L BB New LVM succs F = Except.ok F1) (E : Nat)
    (hE : L.contains E = false) :
    (F1.blocks[E]?).map (fun blk => blk.phis) =
      (F.blocks[E]?).map fun blk => blk.phis.map fun p =>
        p.addInputs (List.replicate (succs.count E) (remapValue LVM (p.valueFor BB), New)) := by
  induction succs generalizing F with
  | nil =>
    simp only [addExitPHIEntries, Except.ok.injEq] at h
    rw [← h]
    cases F.blocks[E]? with
    | none => rfl
    | some blk => simp [PHINode.addInputs]
  | cons SI rest ih =>
    unfold addExitPHIEntries at h
    split at h
    · rename_i hc
      have hSE : SI ≠ E := fun e => by rw [e, hE] at hc; cases hc
      rw [ih F h, List.count_cons_of_ne (Ne.symm hSE)]
    · split at h
      · cases h
      · rename_i sblk hs
        split at h
        · cases h
        · rename_i phis hphis
          rw [ih _ h]
          have hs1 := getBlock_eq_ok.mp hs
          by_cases hSE : SI = E
          · subst hSE
            rw [setBlock_getElem?_self _ _ _ (lt_of_getElem?_eq_some hs1), hs1,
              List.count_cons_self]
            simp only [Option.map_some', Option.some.injEq]
            rw [addExitIncoming_exact _ _ _ _ _ hphis, List.map_map]
            apply List.map_congr_left
            intro p _
            simp only [Function.comp]
            have hv : (p.addIncoming (remapValue LVM (p.valueFor BB)) New).valueFor BB =
                p.valueFor BB :=
              valueFor_append p [(remapValue LVM (p.valueFor BB), New)] BB
                (fun e he => by simp at he; rw [he]; exact hne)
            rw [hv]
            simp [PHINode.addIncoming, PHINode.addInputs, List.replicate_succ, List.append_assoc]
          · rw [setBlock_getElem?_ne _ _ _ _ hSE, List.count_cons_of_ne (Ne.symm hSE)]

theorem resolveHeaderPHIs_vals (L : Loop) (It PreHeader LatchBlock newIdx : Nat)
    (res : PHINode → Value)
    (ks : List Nat) (New : BasicBlock) (VMap LVM : ValueToValueMapTy)
    (hnd : ks.Nodup)
    (hmap : ∀ k, k ∈ ks → vmFind VMap (Value.inst L.header k) = some (Value.inst newIdx k))
    (hphi : ∀ k, k ∈ ks → ∃ p, New.phis.find? (fun p => decide (p.id = k)) = some p ∧
      p.hasIncomingFor PreHeader = true ∧ p.hasIncomingFor LatchBlock = true)
    (hres1 : It = 1 → ∀ k, k ∈ ks → ∀ p, New.phis.find? (fun p => decide (p.id = k)) = some p →
      res p = p.valueFor PreHeader)
    (hresIn : It ≠ 1 → ∀ k, k ∈ ks → ∀ p,
      New.phis.find? (fun p => decide (p.id = k)) = some p →
      ∀ b k1, p.valueFor LatchBlock = Value.inst b k1 → L.contains b = true →
        vmFind LVM (Value.inst b k1) = some (res p))
    (hresOut : It ≠ 1 → ∀ k, k ∈ ks → ∀ p,
      New.phis.find? (fun p => decide (p.id = k)) = some p →
      (∀ b k1, p.valueFor LatchBlock = Value.inst b k1 → L.contains b = false) →
        res p = p.valueFor LatchBlock) :
    ∃ New1 VMap1,
      resolveHeaderPHIs L It PreHeader LatchBlock newIdx ks New VMap LVM =
        Except.ok (New1, VMap1, LVM) ∧
      (∀ k, k ∈ ks → ∃ p, New.phis.find? (fun p => decide (p.id = k)) = some p ∧
        vmFind VMap1 (Value.inst L.header k) = some (res p)) ∧
      (∀ key, (∀ k, k ∈ ks → key ≠ Value.inst L.header k) →
        vmFind VMap1 key = vmFind VMap key) := by
  induction ks generalizing New VMap with
  | nil => exact ⟨New, VMap, rfl, fun k hk => by simp at hk, fun _ _ => rfl⟩
  | cons k rest ih =>
    obtain ⟨p, hp, hpre, hlat⟩ := hphi k (by simp)
    have hk : vmIndex VMap (Value.inst L.header k) = (Value.inst newIdx k, VMap) :=
      vmIndex_of_find (hmap k (by simp))
    have hnd1 : rest.Nodup := (List.nodup_cons.mp hnd).2
    have hnotin : k ∉ rest := (List.nodup_cons.mp hnd).1
    have hfind1 : ∀ k1, k1 ∈ rest →
        ({ New with phis := New.phis.eraseP fun p => decide (p.id = k) } : BasicBlock).phis.find?
          (fun p => decide (p.id = k1)) = New.phis.find? (fun p => decide (p.id = k1)) := by
      intro k1 hk1
      have hne : k ≠ k1 := fun h => hnotin (h ▸ hk1)
      simp [find?_eraseP_ne _ _ _ hne]
    have hphi1 : ∀ k1, k1 ∈ rest →
        ∃ q, ({ New with phis := New.phis.eraseP fun p => decide (p.id = k) } : BasicBlock).phis.find?
          (fun p => decide (p.id = k1)) = some q ∧
          q.hasIncomingFor PreHeader = true ∧ q.hasIncomingFor LatchBlock = true := by
      intro k1 hk1
      rw [hfind1 k1 hk1]
      exact hphi k1 (List.mem_cons_of_mem _ hk1)
    have hmap1 : ∀ v k1, k1 ∈ rest →
        vmFind (vmSet VMap (Value.inst L.header k) v) (Value.inst L.header k1) =
          some (Value.inst newIdx k1) := by
      intro v k1 hk1
      have hne : k ≠ k1 := fun h => hnotin (h ▸ hk1)
      rw [vmFind_vmSet]
      simp [hne, hmap k1 (List.mem_cons_of_mem _ hk1)]
    -- the value recorded for `k`
    have hstep : ∀ v, res p = v →
        (∃ New1 VMap1,
          resolveHeaderPHIs L It PreHeader LatchBlock newIdx rest
            { New with phis := New.phis.eraseP fun p => decide (p.id = k) }
            (vmSet VMap (Value.inst L.header k) v) LVM = Except.ok (New1, VMap1, LVM) ∧
          (∀ k1, k1 ∈ k :: rest → ∃ p, New.phis.find? (fun p => decide (p.id = k1)) = some p ∧
            vmFind VMap1 (Value.inst L.header k1) = some (res p)) ∧
          (∀ key, (∀ k1, k1 ∈ k :: rest → key ≠ Value.inst L.header k1) →
            vmFind VMap1 key = vmFind VMap key)) := by
      intro v hv
      obtain ⟨New1, VMap1, hres, h1, h2⟩ :=
        ih { New with phis := New.phis.eraseP fun p => decide (p.id = k) }
          (vmSet VMap (Value.inst L.header k) v) hnd1 (hmap1 v) hphi1
          (fun hIt k1 hk1 q hq =>
            hres1 hIt k1 (List.mem_cons_of_mem _ hk1) q (by rw [← hfind1 k1 hk1]; exact hq))
          (fun hIt k1 hk1 q hq =>
            hresIn hIt k1 (List.mem_cons_of_mem _ hk1) q (by rw [← hfind1 k1 hk1]; exact hq))
          (fun hIt k1 hk1 q hq =>
            hresOut hIt k1 (List.mem_cons_of_mem _ hk1) q (by rw [← hfind1 k1 hk1]; exact hq))
      refine ⟨New1, VMap1, hres, ?_, ?_⟩
      · intro k1 hk1
        rcases List.mem_cons.mp hk1 with rfl | hk1
        · refine ⟨p, hp, ?_⟩
          rw [h2 _ (fun k2 hk2 h => hnotin (by cases h; exact hk2)), vmFind_vmSet]
          simp [hv]
        · obtain ⟨q, hq, hqv⟩ := h1 k1 hk1
          exact ⟨q, by rw [← hfind1 k1 hk1]; exact hq, hqv⟩
      · intro key hkey
        rw [h2 key (fun k1 hk1 => hkey k1 (List.mem_cons_of_mem _ hk1)), vmFind_vmSet]
        have : Value.inst L.header k ≠ key := fun h => hkey k (by simp) h.symm
        simp [this]
    unfold resolveHeaderPHIs
    simp only [hk, hp, ↓reduceIte]
    by_cases hIt : It = 1
    · obtain ⟨v, hv⟩ := getIncoming_of_has p PreHeader hpre
      simp only [hIt, ↓reduceIte, hv]
      have := hstep v (by rw [hres1 hIt k (by simp) p hp, valueFor_of_getIncoming hv])
      rw [hIt] at this
      exact this
    · obtain ⟨v, hv⟩ := getIncoming_of_has p LatchBlock hlat
      simp only [hIt, ↓reduceIte, hv]
      have hvf := valueFor_of_getIncoming hv
      have hout : (∀ b k1, v = Value.inst b k1 → L.contains b = false) → res p = v := by
        intro h
        rw [hresOut hIt k (by simp) p hp (fun b k1 e => h b k1 (hvf ▸ e)), hvf]
      cases v with
      | inst b k1 =>
        simp only
        by_cases hc : L.contains b = true
        · have hfd := hresIn hIt k (by simp) p hp b k1 hvf hc
          simp only [hc, ↓reduceIte, vmIndex_of_find hfd]
          exact hstep (res p) rfl
        · simp only [hc]
          exact hstep _ (hout (fun b1 k2 h12 => by cases h12; simpa using hc))
      | null => exact hstep _ (hout (fun b k1 h => by cases h))
      | block c => exact hstep _ (hout (fun b k1 h => by cases h))
      | arg n => exact hstep _ (hout (fun b k1 h => by cases h))
      | const c => exact hstep _ (hout (fun b k1 h => by cases h))

theorem vmIndex_of_cast {m : ValueToValueMapTy} {k : Value} {b : Nat}
    (h : castBasicBlock (vmIndex m k).1 = Except.ok b) : (vmIndex m k).2 = m := by
  unfold vmIndex at h ⊢
  cases hf : vmFind m k with
  | none => rw [hf] at h; simp [castBasicBlock] at h
  | some v => rfl

theorem ReplaceSuccessor_phis (F : Function) (BB Succ Repl : Nat) (r : Bool × Function)
    (h : ReplaceSuccessor F BB Succ Repl = Except.ok r) (E : Nat) :
    (r.2.blocks[E]?).map (fun blk => blk.phis) = (F.blocks[E]?).map fun blk => blk.phis := by
  unfold ReplaceSuccessor at h
  split at h
  · cases h
  · rename_i blk hblk
    simp only [Except.ok.injEq] at h
    rw [← h]
    have hb := getBlock_eq_ok.mp hblk
    by_cases hE : BB = E
    · subst hE
      rw [setBlock_getElem?_self _ _ _ (lt_of_getElem?_eq_some hb), hb]
      rfl
    · rw [setBlock_getElem?_ne _ _ _ _ hE]

theorem cloneBlock_other_vals (L : Loop) (PreHeader LatchBlock : Nat) (Orig : List Nat)
    (It : Nat) (st st1 : UnrollState) (BB : Nat) (orig : BasicBlock)
    (hcur : st.F.blocks[BB]? = some orig) (hne : BB ≠ L.header)
    (h : cloneBlock L PreHeader LatchBlock Orig It st BB = Except.ok st1) :
    st1.LastValueMap =
      (CloneBasicBlock orig BB st.F.blocks.length ("." ++ toString It)).2 ++
        vmSet st.LastValueMap (Value.block BB) (Value.block st.F.blocks.length) ∧
    ∀ E, L.contains E = false → E < st.F.blocks.length →
      (st1.F.blocks[E]?).map (fun blk => blk.phis) =
        (st.F.blocks[E]?).map fun blk => blk.phis.map fun p =>
          p.addInputs (List.replicate ((successors orig.term).count E)
            (remapValue st1.LastValueMap (p.valueFor BB), st.F.blocks.length)) := by
  have hlt := lt_of_getElem?_eq_some hcur
  unfold cloneBlock at h
  simp only [getBlock_eq_ok.mpr hcur, hne, ↓reduceIte] at h
  split at h
  · cases h
  · rename_i F3 hF3
    simp only [Except.ok.injEq] at h
    rw [← h]
    refine ⟨rfl, fun E hE hElt => ?_⟩
    simp only
    rw [addExitPHIEntries_exact L BB _ _ (by omega) _ _ _ hF3 E hE]
    simp only
    rw [List.getElem?_append_left hElt]

theorem cloneBlock_header_vals (L : Loop) (PreHeader LatchBlock : Nat)
    (It : Nat) (st st1 : UnrollState) (orig : BasicBlock) (res : PHINode → Value)
    (hcur : st.F.blocks[L.header]? = some orig)
    (hnd : (orig.phis.map fun p => p.id).Nodup)
    (hphis : ∀ p, p ∈ orig.phis →
      p.hasIncomingFor PreHeader = true ∧ p.hasIncomingFor LatchBlock = true)
    (hres1 : It = 1 → ∀ p, p ∈ orig.phis → res p = p.valueFor PreHeader)
    (hresIn : It ≠ 1 → ∀ p, p ∈ orig.phis →
      ∀ b k1, p.valueFor LatchBlock = Value.inst b k1 → L.contains b = true →
        vmFind st.LastValueMap (Value.inst b k1) = some (res p))
    (hresOut : It ≠ 1 → ∀ p, p ∈ orig.phis →
      (∀ b k1, p.valueFor LatchBlock = Value.inst b k1 → L.contains b = false) →
        res p = p.valueFor LatchBlock)
    (h : cloneBlock L PreHeader LatchBlock (orig.phis.map fun p => p.id) It st L.header =
      Except.ok st1) :
    ∃ VMap1,
      st1.LastValueMap =
        VMap1 ++ vmSet st.LastValueMap (Value.block L.header) (Value.block st.F.blocks.length) ∧
      (∀ k, k ∈ (orig.phis.map fun p => p.id) →
        ∃ p, orig.phis.find? (fun p => decide (p.id = k)) = some p ∧
          vmFind VMap1 (Value.inst L.header k) = some (res p)) ∧
      (∀ key, (∀ k, k ∈ (orig.phis.map fun p => p.id) → key ≠ Value.inst L.header k) →
        vmFind VMap1 key =
          vmFind (CloneBasicBlock orig L.header st.F.blocks.length ("." ++ toString It)).2 key) ∧
      ∀ E, L.contains E = false → E < st.F.blocks.length →
        (st1.F.blocks[E]?).map (fun blk => blk.phis) =
          (st.F.blocks[E]?).map fun blk => blk.phis.map fun p =>
            p.addInputs (List.replicate ((successors orig.term).count E)
              (remapValue st1.LastValueMap (p.valueFor L.header), st.F.blocks.length)) := by
  have hlt := lt_of_getElem?_eq_some hcur
  obtain ⟨New1, VMap1, hres, hv1, hv2⟩ :=
    resolveHeaderPHIs_vals L It PreHeader LatchBlock st.F.blocks.length res
      (orig.phis.map fun p => p.id)
      (CloneBasicBlock orig L.header st.F.blocks.length ("." ++ toString It)).1
      (CloneBasicBlock orig L.header st.F.blocks.length ("." ++ toString It)).2
      st.LastValueMap hnd
      (fun k hk => vmFind_clone_phis _ _ k orig.phis _ hk)
      (fun k hk => by
        obtain ⟨p, hp, hpm⟩ := find?_of_mem_ids orig.phis k hk
        exact ⟨p, hp, hphis p hpm⟩)
      (fun hIt k _ p hp => hres1 hIt p (List.mem_of_find?_eq_some hp))
      (fun hIt k _ p hp => hresIn hIt p (List.mem_of_find?_eq_some hp))
      (fun hIt k _ p hp => hresOut hIt p (List.mem_of_find?_eq_some hp))
  unfold cloneBlock at h
  simp only [getBlock_eq_ok.mpr hcur, ↓reduceIte, hres] at h
  split at h
  · cases h
  · rename_i F2 VMap LVM hhdr
    -- the header step keeps the PHI nodes of the old blocks and the map
    have hF2 : VMap = VMap1 ∧ LVM = st.LastValueMap ∧
        ∀ E, E < st.F.blocks.length →
          (F2.blocks[E]?).map (fun blk => blk.phis) =
            (st.F.blocks[E]?).map fun blk => blk.phis := by
      have hbase : ∀ E, E < st.F.blocks.length →
          ((setBlock { blocks := st.F.blocks ++
              [(CloneBasicBlock orig L.header st.F.blocks.length ("." ++ toString It)).1] }
            st.F.blocks.length New1).blocks[E]?).map (fun blk => blk.phis) =
            (st.F.blocks[E]?).map fun blk => blk.phis := by
        intro E hE
        rw [setBlock_getElem?_ne _ _ _ _ (by omega)]
        simp only
        rw [List.getElem?_append_left hE]
      split at hhdr
      · split at hhdr
        · cases hhdr
        · rename_i r hr
          simp only [Except.ok.injEq, Prod.mk.injEq] at hhdr
          obtain ⟨e1, e2, e3⟩ := hhdr
          refine ⟨e2.symm, e3.symm, fun E hE => ?_⟩
          rw [← e1, ReplaceSuccessor_phis _ _ _ _ _ hr E]
          exact hbase E hE
      · split at hhdr
        · cases hhdr
        · rename_i PrevHeader hPH
          split at hhdr
          · cases hhdr
          · rename_i PrevLatch hPL
            split at hhdr
            · cases hhdr
            · rename_i r hr
              simp only [Except.ok.injEq, Prod.mk.injEq] at hhdr
              obtain ⟨e1, e2, e3⟩ := hhdr
              have k1 := vmIndex_of_cast hPH
              rw [k1] at hPL e3
              have k2 := vmIndex_of_cast hPL
              rw [k2] at e3
              refine ⟨e2.symm, e3.symm, fun E hE => ?_⟩
              rw [← e1, ReplaceSuccessor_phis _ _ _ _ _ hr E]
              exact hbase E hE
    obtain ⟨e1, e2, hF2old⟩ := hF2
    subst e1 e2
    split at h
    · cases h
    · rename_i F3 hF3
      simp only [Except.ok.injEq] at h
      rw [← h]
      refine ⟨VMap, rfl, hv1, hv2, fun E hE hElt => ?_⟩
      simp only
      rw [addExitPHIEntries_exact L L.header _ _ (by omega) _ _ _ hF3 E hE]
      have := hF2old E hElt
      cases hF2E : F2.blocks[E]? with
      | none =>
        rw [hF2E] at this
        cases hsE : st.F.blocks[E]? with
        | none => rfl
        | some b => rw [hsE] at this; cases this
      | some b2 =>
        rw [hF2E] at this
        cases hsE : st.F.blocks[E]? with
        | none => rw [hsE] at this; cases this
        | some b =>
          rw [hsE] at this
          simp only [Option.map_some', Option.some.injEq] at this ⊢
          rw [this]

theorem valueInRound_of_not_loop (F : Function) (L : Loop) (PreHeader LatchBlock i : Nat)
    (v : Value) (h : ∀ b k, v = Value.inst b k → L.contains b = false) :
    valueInRound F L PreHeader LatchBlock i v = v := by
  cases i with
  | zero => rfl
  | succ i =>
    cases v with
    | inst b k => simp [valueInRound, h b k rfl]
    | null => rfl
    | block c => rfl
    | arg n => rfl
    | const c => rfl

theorem valueInRound_header_phi (F : Function) (L : Loop) (PreHeader LatchBlock i : Nat)
    (hH : L.contains L.header = true) (k : Nat) (p : PHINode)
    (hp : headerPHI F L k = some p) :
    valueInRound F L PreHeader LatchBlock (i + 1) (Value.inst L.header k) =
      if i = 0 then p.valueFor PreHeader
      else valueInRound F L PreHeader LatchBlock i (p.valueFor LatchBlock) := by
  simp [valueInRound, hH, hp]

theorem valueInRound_inst (F : Function) (L : Loop) (PreHeader LatchBlock i : Nat)
    (b k : Nat) (hb : L.contains b = true)
    (h : b = L.header → headerPHI F L k = none) :
    valueInRound F L PreHeader LatchBlock (i + 1) (Value.inst b k) =
      Value.inst (cloneIndex F L (i + 1) b) k := by
  by_cases hbh : b = L.header
  · simp [valueInRound, hb, hbh, h hbh]
    rw [← hbh]; simp [hb]
  · simp [valueInRound, hb, hbh]

theorem remapValue_definedBefore {F0 : Function} {L : Loop} {PreHeader LatchBlock i : Nat}
    {done : List Nat} {LVM : ValueToValueMapTy}
    (lvm : LvmInv F0 L PreHeader LatchBlock i done LVM) (B : Nat) (v : Value)
    (hv : definedBefore F0 L B v = true)
    (hdone : ∀ b, L.contains b = true → L.rpo.indexOf b ≤ L.rpo.indexOf B → b ∈ done) :
    remapValue LVM v = valueInRound F0 L PreHeader LatchBlock i v := by
  have hout : outsideValue L v = true → remapValue LVM v =
      valueInRound F0 L PreHeader LatchBlock i v := by
    intro ho
    rw [remapValue, lvm.outside v ho, valueInRound_of_not_loop]
    intro b k e
    subst e
    simpa [outsideValue] using ho
  cases v with
  | inst b k =>
    by_cases hb : L.contains b = true
    · simp only [definedBefore, hb, ↓reduceIte, Bool.and_eq_true, decide_eq_true_eq] at hv
      obtain ⟨hidx, hblk⟩ := hv
      cases hF : F0.blocks[b]? with
      | none => rw [hF] at hblk; cases hblk
      | some blk =>
        rw [hF] at hblk
        simp only [decide_eq_true_eq] at hblk
        rw [remapValue, lvm.inside b k blk (hdone b hb hidx) hF hblk]
    · exact hout (by simpa [outsideValue] using hb)
  | null => exact hout rfl
  | block c => simp [definedBefore] at hv
  | arg n => exact hout rfl
  | const c => exact hout rfl

theorem CloneBasicBlock_map (blk : BasicBlock) (src new : Nat) (suffix : String) :
    (CloneBasicBlock blk src new suffix).2 =
      blk.ids.map fun k => (Value.inst src k, Value.inst new k) := by
  simp only [CloneBasicBlock, BasicBlock.ids, List.map_append, List.map_map, List.map_cons,
    List.map_nil]
  rfl

theorem vmFind_ids_map (l : List Nat) (src new : Nat) (key : Value) :
    vmFind (l.map fun k => (Value.inst src k, Value.inst new k)) key =
      match key with
      | Value.inst b k => if b = src ∧ k ∈ l then some (Value.inst new k) else none
      | _ => none := by
  induction l with
  | nil => cases key <;> simp [vmFind]
  | cons a rest ih =>
    simp only [List.map_cons, vmFind, ih]
    cases key with
    | inst b k =>
      by_cases h1 : b = src
      · by_cases h2 : a = k
        · subst h1 h2; simp
        · have : ¬ k = a := fun e => h2 e.symm
          simp [h1, h2, this]
      · have : ¬ src = b := fun e => h1 e.symm
        simp [h1, this]
    | null => simp
    | block c => simp
    | arg n => simp
    | const c => simp

theorem vmFind_clone_ids (blk : BasicBlock) (src new : Nat) (suffix : String) (k : Nat)
    (hk : k ∈ blk.ids) :
    vmFind (CloneBasicBlock blk src new suffix).2 (Value.inst src k) =
      some (Value.inst new k) := by
  rw [CloneBasicBlock_map, vmFind_ids_map]
  simp [hk]

theorem vmFind_clone_other (blk : BasicBlock) (src new : Nat) (suffix : String) (key : Value)
    (h : ∀ k, key ≠ Value.inst src k) :
    vmFind (CloneBasicBlock blk src new suffix).2 key = none := by
  rw [CloneBasicBlock_map, vmFind_ids_map]
  cases key with
  | inst b k =>
    have : b ≠ src := fun e => h k (by rw [e])
    simp [this]
  | null => rfl
  | block c => rfl
  | arg n => rfl
  | const c => rfl

theorem blockInputs_blocks (F : Function) (L : Loop) (PreHeader LatchBlock E : Nat) (p : PHINode)
    (i B : Nat) (e : Value × Nat) (he : e ∈ blockInputs F L PreHeader LatchBlock E p i B) :
    F.blocks.length ≤ e.2 := by
  unfold blockInputs at he
  split at he
  · rw [List.mem_replicate] at he
    rw [he.2]
    simp only [cloneIndex]
    omega
  · cases he

theorem gainedInputs_blocks (F : Function) (L : Loop) (PreHeader LatchBlock E : Nat)
    (p : PHINode) (i : Nat) (done : List Nat) (e : Value × Nat)
    (he : e ∈ gainedInputs F L PreHeader LatchBlock E p i done) :
    F.blocks.length ≤ e.2 := by
  unfold gainedInputs at he
  rcases List.mem_append.mp he with h | h
  · obtain ⟨j, _, hj⟩ := List.mem_flatMap.mp h
    unfold exitInputs at hj
    obtain ⟨B, _, hB⟩ := List.mem_flatMap.mp hj
    exact blockInputs_blocks _ _ _ _ _ _ _ _ _ hB
  · obtain ⟨B, _, hB⟩ := List.mem_flatMap.mp h
    exact blockInputs_blocks _ _ _ _ _ _ _ _ _ hB

theorem gainedInputs_round (F : Function) (L : Loop) (PreHeader LatchBlock E : Nat)
    (p : PHINode) (i : Nat) :
    gainedInputs F L PreHeader LatchBlock E p i L.rpo =
      gainedInputs F L PreHeader LatchBlock E p (i + 1) [] := by
  simp [gainedInputs, exitInputs, List.range'_1_concat, List.flatMap_append, Nat.add_comm]

theorem addInputs_addInputs (p : PHINode) (a b : List (Value × Nat)) :
    (p.addInputs a).addInputs b = p.addInputs (a ++ b) := by
  simp [PHINode.addInputs, List.append_assoc]

theorem ExitInv_step {F0 : Function} {L : Loop} {PreHeader LatchBlock : Nat}
    (i : Nat) (done : List Nat) (BB : Nat) (orig : BasicBlock) (F G : Function)
    (LVM1 : ValueToValueMapTy) (n : Nat)
    (hex : ExitInv F0 L PreHeader LatchBlock i done F)
    (hF : F0.blocks.length ≤ F.blocks.length)
    (horig : F0.blocks[BB]? = some orig)
    (hn : n = cloneIndex F0 L (i + 1) BB)
    (hG : ∀ E, L.contains E = false → E < F.blocks.length →
      (G.blocks[E]?).map (fun blk => blk.phis) =
        (F.blocks[E]?).map fun blk => blk.phis.map fun p =>
          p.addInputs (List.replicate ((successors orig.term).count E)
            (remapValue LVM1 (p.valueFor BB), n)))
    (hval : ∀ (E : Nat) (eblk : BasicBlock) (p : PHINode), L.contains E = false →
      E ∈ successors orig.term → F0.blocks[E]? = some eblk → p ∈ eblk.phis →
      remapValue LVM1 (p.valueFor BB) =
        valueInRound F0 L PreHeader LatchBlock (i + 1) (p.valueFor BB)) :
    ExitInv F0 L PreHeader LatchBlock i (done ++ [BB]) G := by
  intro E hE hElt
  rw [hG E hE (by omega)]
  have hBB := lt_of_getElem?_eq_some horig
  have hexE := hex E hE hElt
  cases hF0 : F0.blocks[E]? with
  | none =>
    rw [hF0] at hexE
    cases hFE : F.blocks[E]? with
    | none => rfl
    | some fblk => rw [hFE] at hexE; cases hexE
  | some eblk =>
    rw [hF0] at hexE
    cases hFE : F.blocks[E]? with
    | none => rw [hFE] at hexE; cases hexE
    | some fblk =>
      rw [hFE] at hexE
      simp only [Option.map_some', Option.some.injEq] at hexE ⊢
      rw [hexE, List.map_map]
      apply List.map_congr_left
      intro p hp
      simp only [Function.comp]
      rw [valueFor_append p _ BB (fun e he => by
        have := gainedInputs_blocks _ _ _ _ _ _ _ _ e he
        omega), addInputs_addInputs]
      congr 1
      simp only [gainedInputs, List.flatMap_append, List.flatMap_cons, List.flatMap_nil,
        List.append_nil, List.append_assoc]
      congr 2
      simp only [blockInputs, horig, hn]
      by_cases hmem : E ∈ successors orig.term
      · rw [hval E eblk p hE hmem hF0 hp]
      · rw [List.count_eq_zero_of_not_mem hmem]
        rfl

theorem LvmInv_other {F0 : Function} {L : Loop} {PreHeader LatchBlock : Nat}
    (i : Nat) (done : List Nat) (LVM : ValueToValueMapTy)
    (lvm : LvmInv F0 L PreHeader LatchBlock (i + 1) done LVM)
    (BB : Nat) (orig : BasicBlock) (horig : F0.blocks[BB]? = some orig)
    (hc : L.contains BB = true) (hne : BB ≠ L.header) (hnot : BB ∉ done)
    (n : Nat) (hn : n = cloneIndex F0 L (i + 1) BB) (suffix : String) :
    LvmInv F0 L PreHeader LatchBlock (i + 1) (done ++ [BB])
      ((CloneBasicBlock orig BB n suffix).2 ++ vmSet LVM (Value.block BB) (Value.block n)) := by
  constructor
  · intro b k blk hb hblk hk
    rw [vmFind_append]
    rcases List.mem_append.mp hb with hb | hb
    · have hbne : b ≠ BB := fun e => hnot (e ▸ hb)
      rw [vmFind_clone_other _ _ _ _ _ (fun k1 e => hbne (by cases e; rfl)), vmFind_vmSet]
      simp only [Option.orElse, reduceCtorEq, ↓reduceIte]
      exact lvm.inside b k blk hb hblk hk
    · simp only [List.mem_singleton] at hb
      subst hb
      rw [hblk] at horig
      cases horig
      rw [vmFind_clone_ids _ _ _ _ _ hk, valueInRound_inst _ _ _ _ _ _ _ hc (fun e => absurd e hne),
        hn]
      rfl
  · intro v hv
    rw [vmFind_append, vmFind_clone_other _ _ _ _ _ (fun k1 e => by
      subst e
      simp [outsideValue, hc] at hv), vmFind_vmSet]
    have : Value.block BB ≠ v := fun e => by subst e; simp [outsideValue] at hv
    simp only [Option.orElse, this, ↓reduceIte]
    exact lvm.outside v hv

theorem headerPHI_eq {F0 : Function} {L : Loop} {orig : BasicBlock}
    (horig : F0.blocks[L.header]? = some orig) (k : Nat) :
    headerPHI F0 L k = orig.phis.find? fun p => decide (p.id = k) := by
  simp [headerPHI, horig]

theorem LvmInv_header {F0 : Function} {L : Loop} {PreHeader LatchBlock : Nat}
    (i : Nat) (LVM VMap1 : ValueToValueMapTy)
    (hout : ∀ v, outsideValue L v = true → vmFind LVM v = none)
    (orig : BasicBlock) (horig : F0.blocks[L.header]? = some orig)
    (hH : L.contains L.header = true)
    (n : Nat) (hn : n = cloneIndex F0 L (i + 1) L.header) (suffix : String)
    (hv1 : ∀ k, k ∈ (orig.phis.map fun p => p.id) →
      ∃ p, orig.phis.find? (fun p => decide (p.id = k)) = some p ∧
        vmFind VMap1 (Value.inst L.header k) =
          some (valueInRound F0 L PreHeader LatchBlock (i + 1) (Value.inst L.header p.id)))
    (hv2 : ∀ key, (∀ k, k ∈ (orig.phis.map fun p => p.id) → key ≠ Value.inst L.header k) →
      vmFind VMap1 key = vmFind (CloneBasicBlock orig L.header n suffix).2 key) :
    LvmInv F0 L PreHeader LatchBlock (i + 1) [L.header]
      (VMap1 ++ vmSet LVM (Value.block L.header) (Value.block n)) := by
  constructor
  · intro b k blk hb hblk hk
    simp only [List.mem_singleton] at hb
    subst hb
    have hbo : orig = blk := by rw [hblk] at horig; cases horig; rfl
    subst hbo
    rw [vmFind_append]
    by_cases hkp : k ∈ (orig.phis.map fun p => p.id)
    · obtain ⟨p, hp, hpv⟩ := hv1 k hkp
      have hpid : p.id = k := by simpa using List.find?_some hp
      rw [hpv, hpid]
      rfl
    · rw [hv2 _ (fun k1 hk1 e => hkp (by cases e; exact hk1)), vmFind_clone_ids _ _ _ _ _ hk,
        valueInRound_inst _ _ _ _ _ _ _ hH (fun _ => by
          rw [headerPHI_eq hblk, List.find?_eq_none]
          intro p hp
          simp only [decide_eq_true_eq]
          intro e
          exact hkp (List.mem_map.mpr ⟨p, hp, e⟩)), hn]
      rfl
  · intro v hv
    have hne : ∀ k, v ≠ Value.inst L.header k := fun k e => by
      subst e
      simp [outsideValue, hH] at hv
    rw [vmFind_append, hv2 v (fun k _ => hne k), vmFind_clone_other _ _ _ _ _ hne, vmFind_vmSet]
    have : Value.block L.header ≠ v := fun e => by subst e; simp [outsideValue] at hv
    simp only [Option.orElse, this, ↓reduceIte]
    exact hout v hv

theorem usesFollowDefs_exit {F : Function} {L : Loop} {LatchBlock : Nat}
    (h : usesFollowDefs F L LatchBlock = true) (B : Nat) (blk : BasicBlock) (E : Nat)
    (eblk : BasicBlock) (p : PHINode) (hB : B ∈ L.rpo) (hblk : F.blocks[B]? = some blk)
    (hE : E ∈ successors blk.term) (hout : L.contains E = false)
    (heblk : F.blocks[E]? = some eblk) (hp : p ∈ eblk.phis) :
    definedBefore F L B (p.valueFor B) = true := by
  simp only [usesFollowDefs, Bool.and_eq_true, List.all_eq_true] at h
  have h1 := h.1 B hB
  rw [hblk] at h1
  simp only [List.all_eq_true, Bool.or_eq_true] at h1
  rcases h1 E hE with h2 | h2
  · rw [hout] at h2; cases h2
  · rw [heblk] at h2
    simp only [List.all_eq_true] at h2
    exact h2 p hp

theorem usesFollowDefs_latch {F : Function} {L : Loop} {LatchBlock : Nat}
    (h : usesFollowDefs F L LatchBlock = true) (Header : BasicBlock)
    (hH : F.blocks[L.header]? = some Header) (p : PHINode) (hp : p ∈ Header.phis) :
    definedBefore F L LatchBlock (p.valueFor LatchBlock) = true := by
  simp only [usesFollowDefs, Bool.and_eq_true, List.all_eq_true] at h
  have h1 := h.2
  rw [hH] at h1
  simp only [List.all_eq_true] at h1
  exact h1 p hp

theorem definedBefore_inst {F : Function} {L : Loop} {B b k : Nat}
    (h : definedBefore F L B (Value.inst b k) = true) (hb : L.contains b = true) :
    L.rpo.indexOf b ≤ L.rpo.indexOf B ∧ ∃ blk, F.blocks[b]? = some blk ∧ k ∈ blk.ids := by
  simp only [definedBefore, hb, ↓reduceIte, Bool.and_eq_true, decide_eq_true_eq] at h
  obtain ⟨h1, h2⟩ := h
  cases hF : F.blocks[b]? with
  | none => rw [hF] at h2; cases h2
  | some blk =>
    rw [hF] at h2
    exact ⟨h1, blk, rfl, by simpa using h2⟩

theorem find?_id_of_mem (l : List PHINode) (hnd : (l.map fun p => p.id).Nodup) (p : PHINode)
    (hp : p ∈ l) : l.find? (fun q => decide (q.id = p.id)) = some p := by
  induction l with
  | nil => cases hp
  | cons a rest ih =>
    simp only [List.map_cons, List.nodup_cons] at hnd
    rcases List.mem_cons.mp hp with rfl | hp1
    · simp
    · have hne : a.id ≠ p.id := fun e => hnd.1 (e ▸ List.mem_map.mpr ⟨p, hp1, rfl⟩)
      simp only [List.find?_cons, hne, decide_False]
      exact ih hnd.2 hp1

theorem indexOf_mid (done rest : List Nat) (BB b : Nat)
    (hnd : (done ++ BB :: rest).Nodup)
    (hle : (done ++ BB :: rest).indexOf b ≤ (done ++ BB :: rest).indexOf BB) :
    b ∈ done ++ [BB] := by
  have hBB : BB ∉ done := fun h => by
    have := (List.nodup_append.mp hnd).2.2
    exact this h (by simp)
  have hiBB : (done ++ BB :: rest).indexOf BB = done.length := by
    rw [List.indexOf_append_of_not_mem hBB, List.indexOf_cons_self]
    rfl
  by_contra hnot
  have hbd : b ∉ done := fun h => hnot (List.mem_append_left _ h)
  have hbB : b ≠ BB := fun e => hnot (by simp [e])
  rw [hiBB, List.indexOf_append_of_not_mem hbd, List.indexOf_cons_ne _ (Ne.symm hbB)] at hle
  omega

theorem cloneBlocks_others_vals {F0 : Function} {L : Loop} {PreHeader LatchBlock : Nat}
    (ctx : UnrollCtx F0 L PreHeader LatchBlock)
    (hud : usesFollowDefs F0 L LatchBlock = true)
    (Orig : List Nat) (i : Nat) (bs : List Nat) :
    ∀ (done : List Nat) (st st1 : UnrollState), L.rpo = done ++ bs → L.header ∈ done →
      StepInv F0 L st →
      st.F.blocks.length = F0.blocks.length + i * L.rpo.length + done.length →
      LvmInv F0 L PreHeader LatchBlock (i + 1) done st.LastValueMap →
      ExitInv F0 L PreHeader LatchBlock i done st.F →
      cloneBlocks L PreHeader LatchBlock Orig (i + 1) bs st = Except.ok st1 →
      LvmInv F0 L PreHeader LatchBlock (i + 1) L.rpo st1.LastValueMap ∧
        ExitInv F0 L PreHeader LatchBlock i L.rpo st1.F := by
  induction bs with
  | nil =>
    intro done st st1 hrpo _ _ _ lvm hex h
    simp only [cloneBlocks, Except.ok.injEq] at h
    rw [List.append_nil] at hrpo
    rw [← h, hrpo]
    exact ⟨lvm, hex⟩
  | cons BB rest ih =>
    intro done st st1 hrpo hHd inv hlen lvm hex h
    have hnd : (done ++ BB :: rest).Nodup := hrpo ▸ ctx.rpo_nodup
    have hBBnot : BB ∉ done := fun hm =>
      (List.nodup_append.mp hnd).2.2 hm (by simp)
    have hBB : BB ∈ L.rpo := by rw [hrpo]; simp
    have hne : BB ≠ L.header := fun e => hBBnot (e ▸ hHd)
    have hc : L.contains BB = true := ctx.rpo_loop BB hBB
    obtain ⟨orig, horig⟩ := exists_orig ctx BB hBB
    obtain ⟨st2, hst2, hlen2, _, hold2, _, _⟩ :=
      cloneBlock_other ctx Orig (i + 1) st inv BB hBB hne orig horig
    have inv2 : StepInv F0 L st2 :=
      StepInv_step ctx inv (fun _ t => t) (by omega) hold2 (fun _ _ _ => rfl)
    have hcur : st.F.blocks[BB]? = some orig := by
      rw [inv.loop_same BB hc]; exact horig
    obtain ⟨hl2, hp2⟩ :=
      cloneBlock_other_vals L PreHeader LatchBlock Orig (i + 1) st st2 BB orig hcur hne hst2
    have hidx : L.rpo.indexOf BB = done.length := by
      rw [hrpo, List.indexOf_append_of_not_mem hBBnot, List.indexOf_cons_self]
      rfl
    have hn : st.F.blocks.length = cloneIndex F0 L (i + 1) BB := by
      simp only [cloneIndex, Nat.add_sub_cancel, hidx, hlen]
    have lvm2 : LvmInv F0 L PreHeader LatchBlock (i + 1) (done ++ [BB]) st2.LastValueMap := by
      rw [hl2]
      exact LvmInv_other i done st.LastValueMap lvm BB orig horig hc hne hBBnot _ hn _
    have hex2 : ExitInv F0 L PreHeader LatchBlock i (done ++ [BB]) st2.F := by
      refine ExitInv_step i done BB orig st.F st2.F st2.LastValueMap _ hex inv.len_ge horig hn
        hp2 ?_
      intro E eblk p hE hmem heblk hp
      refine remapValue_definedBefore lvm2 BB _
        (usesFollowDefs_exit hud BB orig E eblk p hBB horig hmem hE heblk hp) ?_
      intro b hb hle
      rw [hrpo] at hle
      exact indexOf_mid done rest BB b hnd hle
    unfold cloneBlocks at h
    simp only [hst2] at h
    exact ih (done ++ [BB]) st2 st1 (by rw [hrpo]; simp) (List.mem_append_left _ hHd) inv2
      (by rw [hlen2, hlen, List.length_append]; simp; omega) lvm2 hex2 h

theorem header_step_ok {F0 : Function} {L : Loop} {PreHeader LatchBlock : Nat}
    (ctx : UnrollCtx F0 L PreHeader LatchBlock)
    (orig : BasicBlock) (horig : F0.blocks[L.header]? = some orig)
    (k : Nat) (st : UnrollState) (rinv : RoundInv F0 L PreHeader LatchBlock k st) :
    ∃ sth,
      cloneBlock L PreHeader LatchBlock (orig.phis.map fun p => p.id) (k + 1) st L.header =
        Except.ok sth ∧
      StepInv F0 L sth ∧ sth.F.blocks.length = st.F.blocks.length + 1 := by
  obtain ⟨tail, hrpo⟩ := ctx.rpo_head
  have hidxH : L.rpo.indexOf L.header = 0 := by rw [hrpo]; exact List.indexOf_cons_self _ _
  have hH0 : L.rpo[0]? = some L.header := by rw [hrpo]; simp
  have hjl : L.rpo[L.rpo.indexOf LatchBlock]? = some LatchBlock :=
    List.getElem?_indexOf ctx.latch_rpo
  have hjlt : L.rpo.indexOf LatchBlock < L.rpo.length :=
    List.indexOf_lt_length.mpr ctx.latch_rpo
  have hlen := rinv.len
  have hn0 := rinv.step.len_ge
  obtain ⟨target, Succ, htl, hto, hIt⟩ : ∃ target Succ,
      target < st.F.blocks.length ∧ L.contains target = false ∧
      ((k + 1 = 1 ∧ target = PreHeader ∧ Succ = L.header) ∨
        (k + 1 ≠ 1 ∧
          vmFind st.LastValueMap (Value.block L.header) = some (Value.block Succ) ∧
          vmFind st.LastValueMap (Value.block LatchBlock) = some (Value.block target))) := by
    cases k with
    | zero =>
      exact ⟨PreHeader, L.header, lt_of_lt_of_le ctx.pre_lt hn0, ctx.pre_out,
        Or.inl ⟨rfl, rfl, rfl⟩⟩
    | succ k =>
      refine ⟨cloneIndex F0 L (k + 1) LatchBlock, cloneIndex F0 L (k + 1) L.header, ?_,
        not_contains_of_ge ctx _ (by simp [cloneIndex]; omega), Or.inr ⟨by omega, ?_, ?_⟩⟩
      · rw [hlen]
        simp only [cloneIndex, Nat.add_sub_cancel, Nat.succ_mul]
        omega
      · have := rinv.lvm (by omega) 0 L.header hH0
        simpa [cloneIndex, hidxH] using this
      · have := rinv.lvm (by omega) _ LatchBlock hjl
        simpa [cloneIndex] using this
  obtain ⟨sth, New, hsth, hlenh, _, _, _, _, _, holdh, _, _⟩ :=
    cloneBlock_header ctx (k + 1) st rinv.step orig horig target Succ htl hIt
  have hT : ∀ (b : Nat) (t : Terminator), L.contains b = true →
      (if b = target then (replaceSuccessorTerm t Succ st.F.blocks.length).2 else t) = t := by
    intro b t hb
    have : b ≠ target := fun h => by rw [h, hto] at hb; cases hb
    simp [this]
  exact ⟨sth, hsth,
    StepInv_step ctx rinv.step
      (fun b t => if b = target then (replaceSuccessorTerm t Succ st.F.blocks.length).2 else t)
      (by omega) holdh hT, hlenh⟩

theorem unrollRound_vals {F0 : Function} {L : Loop} {PreHeader LatchBlock : Nat}
    (ctx : UnrollCtx F0 L PreHeader LatchBlock)
    (hud : usesFollowDefs F0 L LatchBlock = true)
    (hall : ∀ b, L.contains b = true → b ∈ L.rpo)
    (orig : BasicBlock) (horig : F0.blocks[L.header]? = some orig)
    (i : Nat) (st st1 : UnrollState) (rinv : RoundInv F0 L PreHeader LatchBlock i st)
    (hout : ∀ v, outsideValue L v = true → vmFind st.LastValueMap v = none)
    (hin : 1 ≤ i → LvmInv F0 L PreHeader LatchBlock i L.rpo st.LastValueMap)
    (hex : ExitInv F0 L PreHeader LatchBlock i [] st.F)
    (h : unrollRound L PreHeader LatchBlock (orig.phis.map fun p => p.id) (i + 1) st =
      Except.ok st1) :
    LvmInv F0 L PreHeader LatchBlock (i + 1) L.rpo st1.LastValueMap ∧
      ExitInv F0 L PreHeader LatchBlock (i + 1) [] st1.F := by
  obtain ⟨tail, hrpo⟩ := ctx.rpo_head
  have hHrpo : L.header ∈ L.rpo := by rw [hrpo]; simp
  have hH : L.contains L.header = true := ctx.rpo_loop _ hHrpo
  have hidxH : L.rpo.indexOf L.header = 0 := by rw [hrpo]; exact List.indexOf_cons_self _ _
  obtain ⟨hnd, hphis⟩ := ctx.hdr_phis orig horig
  obtain ⟨sth, hsth, invh, hlenh⟩ := header_step_ok ctx orig horig i st rinv
  have hcur : st.F.blocks[L.header]? = some orig := by
    rw [rinv.step.loop_same _ hH]; exact horig
  have hphi : ∀ p, p ∈ orig.phis → headerPHI F0 L p.id = some p := fun p hp => by
    rw [headerPHI_eq horig]; exact find?_id_of_mem _ hnd p hp
  -- the header
  obtain ⟨VMap1, hl1, hv1, hv2, hp1⟩ :=
    cloneBlock_header_vals L PreHeader LatchBlock (i + 1) st sth orig
      (fun p => valueInRound F0 L PreHeader LatchBlock (i + 1) (Value.inst L.header p.id))
      hcur hnd hphis
      (fun hi p hp => by
        beta_reduce
        rw [valueInRound_header_phi _ _ _ _ _ hH _ p (hphi p hp)]
        simp [show i = 0 by omega])
      (fun hi p hp b k1 hv hb => by
        have hi0 : i ≠ 0 := by omega
        beta_reduce
        rw [valueInRound_header_phi _ _ _ _ _ hH _ p (hphi p hp), if_neg hi0, hv]
        have hdb := usesFollowDefs_latch hud orig horig p hp
        rw [hv] at hdb
        obtain ⟨_, blk, hblk, hk⟩ := definedBefore_inst hdb hb
        exact (hin (by omega)).inside b k1 blk (hall b hb) hblk hk)
      (fun hi p hp hv => by
        have hi0 : i ≠ 0 := by omega
        beta_reduce
        rw [valueInRound_header_phi _ _ _ _ _ hH _ p (hphi p hp), if_neg hi0]
        exact valueInRound_of_not_loop _ _ _ _ _ _ hv)
      hsth
  have hn : st.F.blocks.length = cloneIndex F0 L (i + 1) L.header := by
    simp only [cloneIndex, Nat.add_sub_cancel, hidxH, rinv.len, Nat.add_zero]
  have lvmh : LvmInv F0 L PreHeader LatchBlock (i + 1) [L.header] sth.LastValueMap := by
    rw [hl1]
    exact LvmInv_header i st.LastValueMap VMap1 hout orig horig hH _ hn _ hv1 hv2
  have hexh : ExitInv F0 L PreHeader LatchBlock i [L.header] sth.F := by
    have := ExitInv_step i [] L.header orig st.F sth.F sth.LastValueMap _ hex rinv.step.len_ge
      horig hn hp1 (by
        intro E eblk p hE hmem heblk hp
        refine remapValue_definedBefore lvmh L.header _
          (usesFollowDefs_exit hud L.header orig E eblk p hHrpo horig hmem hE heblk hp) ?_
        intro b hb hle
        rw [hidxH] at hle
        have hb0 : L.rpo.indexOf b = 0 := by omega
        have hbr := hall b hb
        rw [hrpo] at hb0 hbr
        rcases List.mem_cons.mp hbr with e | hbt
        · simp [e]
        · have hne : L.header ≠ b := fun e => by
            have := (List.nodup_cons.mp (hrpo ▸ ctx.rpo_nodup)).1
            exact this (e ▸ hbt)
          rw [List.indexOf_cons_ne _ hne] at hb0
          omega)
    simpa using this
  -- the other blocks
  unfold unrollRound at h
  split at h
  · cases h
  · rename_i stt hstt
    have hstt2 : cloneBlocks L PreHeader LatchBlock (orig.phis.map fun p => p.id) (i + 1) tail
        sth = Except.ok stt := by
      rw [hrpo] at hstt
      unfold cloneBlocks at hstt
      simpa only [hsth] using hstt
    obtain ⟨lvmt, hext⟩ :=
      cloneBlocks_others_vals ctx hud (orig.phis.map fun p => p.id) i tail [L.header] sth stt
        (by rw [hrpo]; rfl) (by simp) invh
        (by rw [hlenh, rinv.len]; simp)
        lvmh hexh hstt2
    simp only [Except.ok.injEq] at h
    rw [← h]
    refine ⟨lvmt, ?_⟩
    intro E hE hElt
    simp only
    rw [(remapNewBlocks_spec _ _ (List.nodup_range' _ _) _).2 E]
    have hnot : E ∉ List.range' st.F.blocks.length (stt.F.blocks.length - st.F.blocks.length) := by
      simp only [List.mem_range'_1]
      have := rinv.step.len_ge
      omega
    simp only [hnot, ↓reduceIte]
    rw [hext E hE hElt]
    simp only [gainedInputs_round]

theorem runRounds_vals {F0 : Function} {L : Loop} {PreHeader LatchBlock : Nat}
    (ctx : UnrollCtx F0 L PreHeader LatchBlock)
    (hud : usesFollowDefs F0 L LatchBlock = true)
    (hall : ∀ b, L.contains b = true → b ∈ L.rpo)
    (orig : BasicBlock) (horig : F0.blocks[L.header]? = some orig) (d : Nat) :
    ∀ (k : Nat) (st st1 : UnrollState), RoundInv F0 L PreHeader LatchBlock k st →
      (∀ v, outsideValue L v = true → vmFind st.LastValueMap v = none) →
      (1 ≤ k → LvmInv F0 L PreHeader LatchBlock k L.rpo st.LastValueMap) →
      ExitInv F0 L PreHeader LatchBlock k [] st.F →
      runRounds (unrollRound L PreHeader LatchBlock (orig.phis.map fun p => p.id)) d
        (k + 1) st = Except.ok st1 →
      (1 ≤ k + d → LvmInv F0 L PreHeader LatchBlock (k + d) L.rpo st1.LastValueMap) ∧
        ExitInv F0 L PreHeader LatchBlock (k + d) [] st1.F := by
  induction d with
  | zero =>
    intro k st st1 _ _ hin hex h
    simp only [runRounds, Except.ok.injEq] at h
    rw [← h]
    exact ⟨hin, hex⟩
  | succ d ih =>
    intro k st st1 rinv hout hin hex h
    obtain ⟨st2, hst2, rinv2⟩ := unrollRound_ok ctx orig horig k st rinv
    obtain ⟨lvm2, hex2⟩ :=
      unrollRound_vals ctx hud hall orig horig k st st2 rinv hout hin hex hst2
    rw [runRounds] at h
    simp only [hst2] at h
    have := ih (k + 1) st2 st1 rinv2 lvm2.outside (fun _ => lvm2) hex2 h
    have e : k + (d + 1) = k + 1 + d := by omega
    rw [e]
    exact this

theorem contains_rpo {F : Function} {L : Loop} (hla : loopAnalysisOK F L = true) (b : Nat)
    (hb : L.contains b = true) : b ∈ L.rpo := by
  simp only [loopAnalysisOK, Bool.and_eq_true, List.all_eq_true, decide_eq_true_eq] at hla
  exact hla.1.2 b (by simpa [Loop.contains] using hb)

theorem ExitInv_init (F0 : Function) (L : Loop) (PreHeader LatchBlock : Nat) :
    ExitInv F0 L PreHeader LatchBlock 0 [] F0 := by
  intro E _ _
  cases F0.blocks[E]? with
  | none => rfl
  | some blk =>
    simp only [Option.map_some', Option.some.injEq]
    have : ∀ p : PHINode, p.addInputs (gainedInputs F0 L PreHeader LatchBlock E p 0 []) = p := by
      intro p
      simp [gainedInputs, PHINode.addInputs]
    simp [this]

/-! ## Claim C15: the PHI nodes outside the loop -/

theorem phi_eq_of_id_eq (l : List PHINode) (hnd : (l.map fun p => p.id).Nodup)
    (p q : PHINode) (hp : p ∈ l) (hq : q ∈ l) (h : p.id = q.id) : p = q := by
  have h1 := find?_id_of_mem l hnd p hp
  have h2 := find?_id_of_mem l hnd q hq
  rw [h] at h1
  rw [h1] at h2
  cases h2
  rfl

theorem removeIncoming_spliced (p : PHINode) (v : Value) (ll PreHeader : Nat) (phi : PHINode)
    (h : (p.addIncoming v ll).removeIncomingValue PreHeader = Except.ok phi) :
    phi = p.spliced v ll PreHeader := by
  unfold PHINode.removeIncomingValue at h
  split at h
  · simp only [Except.ok.injEq] at h
    rw [← h]
    rfl
  · cases h

theorem spliceHeaderPHIs_exact (L : Loop) (PreHeader LatchBlock : Nat) (val : Nat → Value)
    (ll : Nat) (ks : List Nat) (hnd : ks.Nodup) :
    ∀ (st st1 : UnrollState) (hdr : BasicBlock), st.F.blocks[L.header]? = some hdr →
      vmFind st.LastValueMap (Value.block LatchBlock) = some (Value.block ll) →
      (∀ k, k ∈ ks → vmFind st.LastValueMap (Value.inst L.header k) = some (val k)) →
      (hdr.phis.map fun p => p.id).Nodup →
      spliceHeaderPHIs L PreHeader LatchBlock ks st = Except.ok st1 →
      ∃ hdr1, st1.F.blocks[L.header]? = some hdr1 ∧
        hdr1.phis = hdr.phis.map fun p =>
          if p.id ∈ ks then p.spliced (val p.id) ll PreHeader else p := by
  induction ks with
  | nil =>
    intro st st1 hdr hh _ _ _ h
    simp only [spliceHeaderPHIs, Except.ok.injEq] at h
    rw [← h]
    exact ⟨hdr, hh, by simp⟩
  | cons k rest ih =>
    intro st st1 hdr hh hl hval hids h
    have hnotin : k ∉ rest := (List.nodup_cons.mp hnd).1
    have hlt := lt_of_getElem?_eq_some hh
    unfold spliceHeaderPHIs at h
    simp only [vmIndex_of_find hl, castBasicBlock, vmIndex_of_find (hval k (by simp)),
      getBlock_eq_ok.mpr hh] at h
    split at h
    · cases h
    · rename_i OrigPHI hfind
      split at h
      · cases h
      · rename_i phi hphi
        have hphi1 := removeIncoming_spliced _ _ _ _ _ hphi
        have hOid : OrigPHI.id = k := by simpa using List.find?_some hfind
        have hOmem : OrigPHI ∈ hdr.phis := List.mem_of_find?_eq_some hfind
        have hmapid : ((hdr.phis.map fun q => if q.id = k then phi else q).map fun p => p.id) =
            hdr.phis.map fun p => p.id := by
          rw [List.map_map]
          apply List.map_congr_left
          intro q _
          simp only [Function.comp]
          by_cases hq : q.id = k
          · rw [if_pos hq, hphi1, hq]; exact hOid
          · rw [if_neg hq]
        obtain ⟨hdr1, hh1, hp1⟩ :=
          ih (List.nodup_cons.mp hnd).2
            { F := setBlock st.F L.header
                { hdr with phis := hdr.phis.map fun q => if q.id = k then phi else q }
              LastValueMap := st.LastValueMap } st1
            { hdr with phis := hdr.phis.map fun q => if q.id = k then phi else q }
            (setBlock_getElem?_self _ _ _ hlt) hl
            (fun k1 hk1 => hval k1 (List.mem_cons_of_mem _ hk1))
            (by rw [hmapid]; exact hids) h
        refine ⟨hdr1, hh1, ?_⟩
        rw [hp1, List.map_map]
        apply List.map_congr_left
        intro q hq
        simp only [Function.comp]
        by_cases hqk : q.id = k
        · have hqO : q = OrigPHI := phi_eq_of_id_eq _ hids q OrigPHI hq hOmem (hqk.trans hOid.symm)
          have hphiid : phi.id = k := by rw [hphi1]; exact hOid
          rw [if_pos hqk, if_neg (by rw [hphiid]; exact hnotin), if_pos (by simp [hqk]), hphi1,
            hqO, hOid]
        · rw [if_neg hqk]
          have : q.id ∈ k :: rest ↔ q.id ∈ rest := by simp [hqk]
          simp only [this]

theorem finalSplice_header (L : Loop) (PreHeader LatchBlock : Nat) (val : Nat → Value)
    (ll : Nat) (st : UnrollState) (hdr : BasicBlock) (G : Function)
    (hh : st.F.blocks[L.header]? = some hdr)
    (hl : vmFind st.LastValueMap (Value.block LatchBlock) = some (Value.block ll))
    (hval : ∀ k, k ∈ (hdr.phis.map fun p => p.id) →
      vmFind st.LastValueMap (Value.inst L.header k) = some (val k))
    (hids : (hdr.phis.map fun p => p.id).Nodup)
    (h : finalSplice L PreHeader LatchBlock (hdr.phis.map fun p => p.id) st = Except.ok G) :
    ∃ ghdr, G.blocks[L.header]? = some ghdr ∧
      ghdr.phis = hdr.phis.map fun p => p.spliced (val p.id) ll PreHeader := by
  unfold finalSplice at h
  split at h
  · cases h
  · rename_i st1 hst1
    obtain ⟨hdr1, hh1, hp1⟩ :=
      spliceHeaderPHIs_exact L PreHeader LatchBlock val ll _ hids st st1 hdr hh hl hval hids hst1
    simp only at h
    split at h
    · cases h
    · split at h
      · cases h
      · split at h
        · cases h
        · rename_i r hr
          simp only [Except.ok.injEq] at h
          have h2 := ReplaceSuccessor_phis _ _ _ _ _ hr L.header
          rw [h, hh1] at h2
          cases hG : G.blocks[L.header]? with
          | none => rw [hG] at h2; cases h2
          | some ghdr =>
            rw [hG] at h2
            simp only [Option.map_some', Option.some.injEq] at h2
            refine ⟨ghdr, rfl, ?_⟩
            rw [h2, hp1]
            apply List.map_congr_left
            intro p hp
            rw [if_pos (List.mem_map.mpr ⟨p, hp, rfl⟩)]

/-- C14: what the final splice of `UnrollNTimes` leaves in the header, for
well-formed IR, a loop that passes the precondition checks and a count
`N ≥ 2`.  Every PHI node `p` of the original
header has lost its first input from the preheader and gained one input on the
edge from the latch of the last copy (`cloneIndex F L (N - 1) LatchBlock`);
the value on that edge is what stands for `p` itself in round `N - 1`, that is
the value that entered the last copied iteration (the preheader input of `p`
when `N = 2`, and otherwise what stands in round `N - 2` for the input of `p`
from the latch), and not what stands in round `N - 1` for the input of `p`
from the latch. -/
theorem UnrollNTimes_header_inputs (F : Function) (L : Loop) (N PreHeader LatchBlock : Nat)
    (Header : BasicBlock)
    (hwf : wellFormed F = true) (hla : loopAnalysisOK F L = true)
    (hpre : meetsPreconditions F L = true)
    (hPH : getLoopPreheader F L = some PreHeader) (hLB : getLoopLatch F L = some LatchBlock)
    (hud : usesFollowDefs F L LatchBlock = true)
    (hH : F.blocks[L.header]? = some Header)
    (hN2 : 2 ≤ N) (hN32 : N < 2 ^ 32) :
    ∃ G ghdr, UnrollNTimes F L N = Except.ok (true, G) ∧
      G.blocks[L.header]? = some ghdr ∧
      (ghdr.phis = Header.phis.map fun p =>
        p.spliced (valueInRound F L PreHeader LatchBlock (N - 1) (Value.inst L.header p.id))
          (cloneIndex F L (N - 1) LatchBlock) PreHeader) ∧
      ∀ p, p ∈ Header.phis →
        valueInRound F L PreHeader LatchBlock (N - 1) (Value.inst L.header p.id) =
          if N = 2 then p.valueFor PreHeader
          else valueInRound F L PreHeader LatchBlock (N - 2) (p.valueFor LatchBlock) := by
  unfold meetsPreconditions at hpre
  rw [hPH, hLB] at hpre
  cases hLb : F.blocks[LatchBlock]? with
  | none => simp [hH, hLb] at hpre
  | some Latch =>
    simp only [hH, hLb, Bool.and_eq_true, Bool.not_eq_true'] at hpre
    obtain ⟨⟨hsafe, haddr⟩, hterm⟩ := hpre
    obtain ⟨d, hd⟩ : ∃ d, Latch.term = Terminator.br d := by
      cases ht : Latch.term <;> simp [ht] at hterm
      exact ⟨_, rfl⟩
    have ctx : UnrollCtx F L PreHeader LatchBlock :=
      UnrollCtx_intro F L PreHeader LatchBlock hwf hla hPH hLB ⟨Latch, d, hLb, hd⟩
    obtain ⟨tail, hrpo⟩ := ctx.rpo_head
    have hHrpo : L.header ∈ L.rpo := by rw [hrpo]; simp
    have hHc : L.contains L.header = true := ctx.rpo_loop _ hHrpo
    obtain ⟨hnd, _⟩ := ctx.hdr_phis Header hH
    obtain ⟨G, hG, _⟩ := unrollBody_ok ctx Header hH N hN2 hN32
    have hU : UnrollNTimes F L N = Except.ok (true, G) := by
      unfold UnrollNTimes
      simp only [hPH, hLB, hsafe, getBlock_eq_ok.mpr hH, haddr, getBlock_eq_ok.mpr hLb, hd, hG]
      simp
    have h32 : (2 : Nat) ^ 32 = 4294967296 := by norm_num
    rw [unrollBody_eq_finalSplice,
      unrollLoop_upto _ N hN32 (N - 1) 1 (2 ^ 32) _ (by omega)
        (by rw [h32] at hN32 ⊢; omega)] at hG
    obtain ⟨st, hst, rinv⟩ := runRounds_ok ctx Header hH (N - 1) 0 _ (RoundInv_init ctx)
    rw [hst] at hG
    simp only at hG
    obtain ⟨lvm, _⟩ :=
      runRounds_vals ctx hud (contains_rpo hla) Header hH (N - 1) 0 _ st
        (RoundInv_init ctx) (fun _ _ => rfl) (fun h => by omega)
        (ExitInv_init F L PreHeader LatchBlock) hst
    rw [Nat.zero_add] at rinv lvm
    have hcur : st.F.blocks[L.header]? = some Header := by
      rw [rinv.step.loop_same _ hHc]; exact hH
    have hl : vmFind st.LastValueMap (Value.block LatchBlock) =
        some (Value.block (cloneIndex F L (N - 1) LatchBlock)) := by
      have := rinv.lvm (by omega) _ LatchBlock (List.getElem?_indexOf ctx.latch_rpo)
      simpa [cloneIndex] using this
    obtain ⟨ghdr, hg1, hg2⟩ :=
      finalSplice_header L PreHeader LatchBlock
        (fun k => valueInRound F L PreHeader LatchBlock (N - 1) (Value.inst L.header k))
        _ st Header G hcur hl
        (fun k hk => (lvm (by omega)).inside L.header k Header hHrpo hH
          (by simp only [BasicBlock.ids]; exact List.mem_append_left _ hk))
        hnd hG
    refine ⟨G, ghdr, hU, hg1, hg2, ?_⟩
    intro p hp
    have hphi : headerPHI F L p.id = some p := by
      rw [headerPHI_eq hH]; exact find?_id_of_mem _ hnd p hp
    obtain ⟨i, hi⟩ : ∃ i, N - 1 = i + 1 := ⟨N - 2, by omega⟩
    rw [hi, valueInRound_header_phi _ _ _ _ _ hHc _ p hphi]
    have e : N - 2 = i := by omega
    rw [e]
    by_cases hN : N = 2
    · have : i = 0 := by omega
      simp [hN, this]
    · have : i ≠ 0 := by omega
      simp [hN, this]

/-- Witness for C14: on the sample loop with count 3 the PHI node of the header
gets `inst 5 0` on the edge from block 7, the latch of the last copy; the copy
of round 2 of its input `inst 2 0` from the original latch is `inst 7 0`. -/
theorem UnrollNTimes_header_inputs_witness :
    (∃ G ghdr, UnrollNTimes sampleFunction sampleLoop 3 = Except.ok (true, G) ∧
      G.blocks[sampleLoop.header]? = some ghdr ∧
      (ghdr.phis =
        [({ id := 0, incoming := [(Value.const 0, 0), (Value.inst 2 0, 2)] } : PHINode)].map
          fun p =>
          p.spliced (valueInRound sampleFunction sampleLoop 0 2 (3 - 1)
              (Value.inst sampleLoop.header p.id))
            (cloneIndex sampleFunction sampleLoop (3 - 1) 2) 0) ∧
      ∀ p, p ∈ [({ id := 0, incoming := [(Value.const 0, 0), (Value.inst 2 0, 2)] } : PHINode)] →
        valueInRound sampleFunction sampleLoop 0 2 (3 - 1) (Value.inst sampleLoop.header p.id) =
          if 3 = 2 then p.valueFor 0
          else valueInRound sampleFunction sampleLoop 0 2 (3 - 2) (p.valueFor 2)) ∧
    cloneIndex sampleFunction sampleLoop 2 2 = 7 ∧
    valueInRound sampleFunction sampleLoop 0 2 2 (Value.inst 1 0) = Value.inst 5 0 ∧
    valueInRound sampleFunction sampleLoop 0 2 2 (Value.inst 2 0) = Value.inst 7 0 :=
  ⟨UnrollNTimes_header_inputs sampleFunction sampleLoop 3 0 2
      { name := "head",
        phis := [{ id := 0, incoming := [(Value.const 0, 0), (Value.inst 2 0, 2)] }],
        insts := [{ id := 1, cannotDuplicate := false,
                    operands := [Value.inst 1 0, Value.arg 0] }],
        termId := 2, term := Terminator.condBr (Value.inst 1 1) 2 3, hasAddressTaken := false }
      (by decide) (by decide) (by decide) (by decide) (by decide) (by decide) (by decide)
      (by decide) (by norm_num),
    by decide, by decide, by decide⟩

end Binrec
